import Mathlib

/-!
Verification of the csc506_M7 graph library (Python source) against its
natural-language specification.

Shallow embedding conventions:
* vertex labels are `String` (the repository uses hashable labels and sorts by
  their string representation, which is the identity on strings);
* Python `int`/numeric weights are `Int`;
* a Python `dict` preserving insertion order is an association list
  (`List (key × value)`) whose keys are kept unique by the operations,
  exactly as `dict` keys are;
* Python `float('inf')` distances are `WithTop Int`;
* `while` loops are modelled by fuel recursion; every theorem about a loop
  carries enough fuel, which is proved sufficient via a potential function.
-/

namespace CSC506

/-! ### String comparison

Python compares vertex labels (strings) lexicographically by code point.
Lean's builtin `String` order does not reduce inside the kernel (its
decision procedure recurses on byte iterators by well-founded recursion), so
the embedding uses the following structurally recursive comparison of the
underlying character lists; it is proved equivalent to `String.lt` below. -/

/-- Lexicographic strict comparison of character lists by code point. -/
def charListLt : List Char → List Char → Bool
  | [], [] => false
  | [], _ :: _ => true
  | _ :: _, [] => false
  | a :: as, b :: bs =>
    if a.val < b.val then true
    else if a.val = b.val then charListLt as bs
    else false

/-- Python's `<` on strings. -/
def strLtB (a b : String) : Bool := charListLt a.data b.data

/-! ### Association-list helpers (Python dict on String keys) -/

/-- First-match lookup in an association list (Python `d[k]` / `k in d`). -/
def alookup {β : Type} : List (String × β) → String → Option β
  | [], _ => none
  | (k, v) :: rest, x => if k = x then some v else alookup rest x

/-- The keys of an association list, in insertion order (Python `list(d)`). -/
def akeys {β : Type} (l : List (String × β)) : List String := l.map Prod.fst

/-- Replace the value stored at key `k` (Python `d[k] = f(d[k])`).
The operations of the repository keep keys unique, so mapping over all
occurrences is the Python dict update. -/
def aupdate {β : Type} : List (String × β) → String → (β → β) → List (String × β)
  | [], _, _ => []
  | (a, b) :: rest, k, f =>
    if a = k then (a, f b) :: aupdate rest k f else (a, b) :: aupdate rest k f

/-- First-occurrence weight lookup in a neighbor list: the scan
`for neighbor, weight in lst: if neighbor == v: return weight`. -/
def nbrLookup : List (String × Int) → String → Option Int
  | [], _ => none
  | (a, w) :: rest, v => if a = v then some w else nbrLookup rest v

/-- Replace the first pair whose key is `k` by `(k, w)`
(the `self.adjacency_list[from_vertex][i] = (to_vertex, weight)` update). -/
def updFirst : List (String × Int) → String → Int → List (String × Int)
  | [], _, _ => []
  | (a, b) :: rest, k, w => if a = k then (k, w) :: rest else (a, b) :: updFirst rest k w

/-- Remove the first occurrence of the exact pair `p` (proof device for
multiset reasoning; not part of the source). -/
def erasePair (p : String × Int) : List (String × Int) → List (String × Int)
  | [] => []
  | q :: rest => if q = p then rest else q :: erasePair p rest

/-! ### `GraphAdjacencyList` (src/graph_adjacency_list.py) -/

structure GraphAdjacencyList where
  directed : Bool
  weighted : Bool
  adjacency_list : List (String × List (String × Int))
deriving DecidableEq, Repr

namespace GraphAdjacencyList

/-- `GraphAdjacencyList.__init__`. -/
def empty (directed weighted : Bool) : GraphAdjacencyList :=
  ⟨directed, weighted, []⟩

/-- `add_vertex` (state part; the returned bool is `vertex ∉ adjacency_list`). -/
def add_vertex (g : GraphAdjacencyList) (vertex : String) : GraphAdjacencyList :=
  if (alookup g.adjacency_list vertex).isSome then g
  else { g with adjacency_list := g.adjacency_list ++ [(vertex, [])] }

/-- `add_edge` (state part; returns `g` unchanged when an endpoint is absent).
When the edge already exists the first matching entry of `from_vertex`'s list
is overwritten, then (undirected case) the first matching mirror entry of the
resulting dict; otherwise the new pair is appended to `from_vertex`'s list and
(undirected case) the mirror pair is appended afterwards. -/
def add_edge (g : GraphAdjacencyList) (from_vertex to_vertex : String)
    (weight : Int) : GraphAdjacencyList :=
  match alookup g.adjacency_list from_vertex, alookup g.adjacency_list to_vertex with
  | some fl, some _ =>
    if (nbrLookup fl to_vertex).isSome then
      let a1 := aupdate g.adjacency_list from_vertex (fun l => updFirst l to_vertex weight)
      if g.directed then { g with adjacency_list := a1 }
      else { g with adjacency_list := aupdate a1 to_vertex (fun l => updFirst l from_vertex weight) }
    else
      let a1 := aupdate g.adjacency_list from_vertex (fun l => l ++ [(to_vertex, weight)])
      if g.directed then { g with adjacency_list := a1 }
      else { g with adjacency_list := aupdate a1 to_vertex (fun l => l ++ [(from_vertex, weight)]) }
  | _, _ => g

/-- `remove_edge` (state part). -/
def remove_edge (g : GraphAdjacencyList) (from_vertex to_vertex : String) :
    GraphAdjacencyList :=
  match alookup g.adjacency_list from_vertex, alookup g.adjacency_list to_vertex with
  | some _, some _ =>
    let a1 := aupdate g.adjacency_list from_vertex
      (fun l => l.filter (fun p => p.1 ≠ to_vertex))
    if g.directed then { g with adjacency_list := a1 }
    else
      let a2 := aupdate a1 to_vertex (fun l => l.filter (fun p => p.1 ≠ from_vertex))
      { g with adjacency_list := a2 }
  | _, _ => g

/-- `has_edge`. -/
def has_edge (g : GraphAdjacencyList) (from_vertex to_vertex : String) : Bool :=
  match alookup g.adjacency_list from_vertex with
  | none => false
  | some l => (nbrLookup l to_vertex).isSome

/-- `get_edge_weight` (`none` is the Python `None` sentinel). -/
def get_edge_weight (g : GraphAdjacencyList) (from_vertex to_vertex : String) :
    Option Int :=
  match alookup g.adjacency_list from_vertex with
  | none => none
  | some l => nbrLookup l to_vertex

/-- `get_neighbors`. -/
def get_neighbors (g : GraphAdjacencyList) (vertex : String) : List (String × Int) :=
  (alookup g.adjacency_list vertex).getD []

/-- `get_vertices`. -/
def get_vertices (g : GraphAdjacencyList) : List String := akeys g.adjacency_list

/-- `get_vertex_count`. -/
def get_vertex_count (g : GraphAdjacencyList) : Nat := g.adjacency_list.length

/-- `get_edge_count`: sum of all neighbor-list lengths, halved (floor) for
undirected graphs. -/
def get_edge_count (g : GraphAdjacencyList) : Nat :=
  let count := (g.adjacency_list.map (fun p => p.2.length)).sum
  if g.directed then count else count / 2

end GraphAdjacencyList

/-! ### `GraphAdjacencyMatrix` (src/graph_adjacency_matrix.py) -/

structure GraphAdjacencyMatrix where
  directed : Bool
  weighted : Bool
  vertices : List String
  matrix : List (List Int)
deriving DecidableEq, Repr

namespace GraphAdjacencyMatrix

/-- `GraphAdjacencyMatrix.__init__`. -/
def empty (directed weighted : Bool) : GraphAdjacencyMatrix :=
  ⟨directed, weighted, [], []⟩

/-- `self.vertex_map`: a vertex's index is its insertion position in
`self.vertices`. -/
def vertexIndex (g : GraphAdjacencyMatrix) (v : String) : Option Nat :=
  if v ∈ g.vertices then some (g.vertices.indexOf v) else none

/-- `add_vertex`: append the label, a fresh zero row, and a zero column on
every older row. -/
def add_vertex (g : GraphAdjacencyMatrix) (vertex : String) : GraphAdjacencyMatrix :=
  if vertex ∈ g.vertices then g
  else { g with
    vertices := g.vertices ++ [vertex],
    matrix := g.matrix.map (fun row => row ++ [0]) ++
      [List.replicate (g.vertices.length + 1) 0] }

/-- `self.matrix[i][j]` (indices produced by `vertexIndex` are always in
range on reachable states). -/
def cell (g : GraphAdjacencyMatrix) (i j : Nat) : Int := (g.matrix.getD i []).getD j 0

/-- `add_edge`. -/
def add_edge (g : GraphAdjacencyMatrix) (from_vertex to_vertex : String)
    (weight : Int) : GraphAdjacencyMatrix :=
  match vertexIndex g from_vertex, vertexIndex g to_vertex with
  | some fi, some ti =>
    let m1 := g.matrix.set fi ((g.matrix.getD fi []).set ti weight)
    if g.directed then { g with matrix := m1 }
    else { g with matrix := m1.set ti ((m1.getD ti []).set fi weight) }
  | _, _ => g

/-- `remove_edge`. -/
def remove_edge (g : GraphAdjacencyMatrix) (from_vertex to_vertex : String) :
    GraphAdjacencyMatrix :=
  match vertexIndex g from_vertex, vertexIndex g to_vertex with
  | some fi, some ti =>
    let m1 := g.matrix.set fi ((g.matrix.getD fi []).set ti 0)
    if g.directed then { g with matrix := m1 }
    else { g with matrix := m1.set ti ((m1.getD ti []).set fi 0) }
  | _, _ => g

/-- `has_edge`: both endpoints present and the cell nonzero. -/
def has_edge (g : GraphAdjacencyMatrix) (from_vertex to_vertex : String) : Bool :=
  match vertexIndex g from_vertex, vertexIndex g to_vertex with
  | some fi, some ti => cell g fi ti ≠ 0
  | _, _ => false

/-- `get_edge_weight` (checks `has_edge` first, exactly as the source does). -/
def get_edge_weight (g : GraphAdjacencyMatrix) (from_vertex to_vertex : String) :
    Option Int :=
  if g.has_edge from_vertex to_vertex then
    match vertexIndex g from_vertex, vertexIndex g to_vertex with
    | some fi, some ti => some (cell g fi ti)
    | _, _ => none
  else none

/-- `get_neighbors`: scan the row, keeping labels of nonzero cells.  Pairing
by `zip` is `enumerate` plus a `vertices[i]` lookup (the matrix is square on
every reachable state). -/
def get_neighbors (g : GraphAdjacencyMatrix) (vertex : String) : List (String × Int) :=
  match vertexIndex g vertex with
  | none => []
  | some i => (g.vertices.zip (g.matrix.getD i [])).filter (fun p => p.2 ≠ 0)

/-- `get_vertices`. -/
def get_vertices (g : GraphAdjacencyMatrix) : List String := g.vertices

/-- `get_vertex_count`. -/
def get_vertex_count (g : GraphAdjacencyMatrix) : Nat := g.vertices.length

/-- `get_edge_count`: number of nonzero cells, halved (floor) for undirected
graphs. -/
def get_edge_count (g : GraphAdjacencyMatrix) : Nat :=
  let count := (g.matrix.map (fun row => row.countP (fun w => w ≠ 0))).sum
  if g.directed then count else count / 2

end GraphAdjacencyMatrix

/-! ### Mutation sequences over both representations -/

/-- One mutating call of the shared `GraphStore` contract. -/
inductive GOp where
  | addVertex (v : String)
  | addEdge (u v : String) (w : Int)
  | removeEdge (u v : String)
deriving DecidableEq, Repr

def GraphAdjacencyList.applyOp (g : GraphAdjacencyList) : GOp → GraphAdjacencyList
  | .addVertex v => g.add_vertex v
  | .addEdge u v w => g.add_edge u v w
  | .removeEdge u v => g.remove_edge u v

/-- The adjacency-list graph obtained by applying `ops` in order to a freshly
constructed graph. -/
def GraphAdjacencyList.runOps (directed weighted : Bool) (ops : List GOp) :
    GraphAdjacencyList :=
  List.foldl GraphAdjacencyList.applyOp (GraphAdjacencyList.empty directed weighted) ops

def GraphAdjacencyMatrix.applyOp (g : GraphAdjacencyMatrix) : GOp → GraphAdjacencyMatrix
  | .addVertex v => g.add_vertex v
  | .addEdge u v w => g.add_edge u v w
  | .removeEdge u v => g.remove_edge u v

/-- The adjacency-matrix graph obtained by applying `ops` in order to a freshly
constructed graph. -/
def GraphAdjacencyMatrix.runOps (directed weighted : Bool) (ops : List GOp) :
    GraphAdjacencyMatrix :=
  List.foldl GraphAdjacencyMatrix.applyOp (GraphAdjacencyMatrix.empty directed weighted) ops

/-! ### Specification-level graph state

An abstract state (`vertex list` + `weight function`, weight 0 meaning "no
edge") that both storage representations are proved to track, giving the
refinement equivalence between them. -/

/-- Point update of a weight function at one ordered pair. -/
def wset (f : String → String → Int) (a b : String) (x : Int) :
    String → String → Int :=
  fun p q => if p = a ∧ q = b then x else f p q

structure SpecG where
  verts : List String
  w : String → String → Int

def SpecG.applyOp (directed : Bool) (s : SpecG) : GOp → SpecG
  | .addVertex v => if v ∈ s.verts then s else ⟨s.verts ++ [v], s.w⟩
  | .addEdge u v wt =>
    if u ∈ s.verts ∧ v ∈ s.verts then
      if directed then ⟨s.verts, wset s.w u v wt⟩
      else ⟨s.verts, wset (wset s.w u v wt) v u wt⟩
    else s
  | .removeEdge u v =>
    if u ∈ s.verts ∧ v ∈ s.verts then
      if directed then ⟨s.verts, wset s.w u v 0⟩
      else ⟨s.verts, wset (wset s.w u v 0) v u 0⟩
    else s

def SpecG.runOps (directed : Bool) (ops : List GOp) : SpecG :=
  List.foldl (SpecG.applyOp directed) ⟨[], fun _ _ => 0⟩ ops

/-- The neighbor multiset determined by the spec state, listed in
vertex-insertion order. -/
def canonNbrs (s : SpecG) (u : String) : List (String × Int) :=
  s.verts.filterMap (fun v => if s.w u v = 0 then none else some (v, s.w u v))

/-- Every `addEdge` in `ops` carries a nonzero weight, and self-loops are
only added when the graph is directed. -/
def okEdgeOps (directed : Bool) (ops : List GOp) : Bool :=
  ops.all (fun op => match op with
    | .addEdge u v wt => decide (wt ≠ 0) && (directed || decide (u ≠ v))
    | _ => true)

/-- Sanity of a spec state: no duplicate vertices, and edges only between
stored vertices. -/
def SpecInv (s : SpecG) : Prop :=
  s.verts.Nodup ∧ ∀ a b, s.w a b ≠ 0 → a ∈ s.verts ∧ b ∈ s.verts

/-- Spec-level mirror symmetry (holds on undirected graphs). -/
def SpecSym (s : SpecG) : Prop := ∀ a b, s.w a b = s.w b a

/-- The adjacency list tracks a spec state: same key sequence, and every
neighbor list is a permutation of the canonical one. -/
def ALrel (s : SpecG) (g : GraphAdjacencyList) : Prop :=
  akeys g.adjacency_list = s.verts ∧
  ∀ u l, alookup g.adjacency_list u = some l → l.Perm (canonNbrs s u)

/-- The adjacency matrix tracks a spec state: same vertex sequence and the
matrix is literally the table of the weight function. -/
def AMrel (s : SpecG) (g : GraphAdjacencyMatrix) : Prop :=
  g.vertices = s.verts ∧
  g.matrix = s.verts.map (fun p => s.verts.map (fun q => s.w p q))

/-! ### Structural invariants of the adjacency list (for the mirror and
at-most-one-edge claims, which restrict neither weights nor self-loops) -/

/-- Every stored neighbor is itself a key of the dict. -/
def ALclosed (g : GraphAdjacencyList) : Prop :=
  ∀ u l, alookup g.adjacency_list u = some l →
    ∀ p ∈ l, (alookup g.adjacency_list p.1).isSome

/-- The observable weight relation is symmetric. -/
def ALsym (g : GraphAdjacencyList) : Prop :=
  ∀ u v, g.get_edge_weight u v = g.get_edge_weight v u

/-- Number of stored entries for the ordered pair (owner of `l`, `v`). -/
def countKey (l : List (String × Int)) (v : String) : Nat :=
  l.countP (fun p => p.1 = v)

/-- Distinct ordered pairs have at most one stored entry. -/
def ALpairUnique (g : GraphAdjacencyList) : Prop :=
  ∀ u l, alookup g.adjacency_list u = some l → ∀ v, v ≠ u → countKey l v ≤ 1

/-- The matrix is square, with one row per vertex. -/
def AMsquare (g : GraphAdjacencyMatrix) : Prop :=
  g.matrix.length = g.vertices.length ∧
  ∀ row ∈ g.matrix, row.length = g.vertices.length

/-- The cell table is symmetric (out-of-range cells read the sentinel 0 on
both sides, so no range condition is needed once the matrix is square). -/
def AMsym (g : GraphAdjacencyMatrix) : Prop := ∀ i j, g.cell i j = g.cell j i

/-! ### The capability contract consumed by the algorithms -/

/-- The read interface the traversal and shortest-path engines use:
`get_vertices` and `get_neighbors` (duck typing in the source). -/
structure GraphI where
  vertices : List String
  neighbors : String → List (String × Int)

def GraphAdjacencyList.toI (g : GraphAdjacencyList) : GraphI :=
  ⟨g.get_vertices, g.get_neighbors⟩

def GraphAdjacencyMatrix.toI (g : GraphAdjacencyMatrix) : GraphI :=
  ⟨g.get_vertices, g.get_neighbors⟩

/-! ### Walks (specification vocabulary for reachability and cycles) -/

/-- `IsWalk G a steps c`: `steps` records, in order, the `(neighbor, weight)`
edges of a walk from `a` to `c` in `G`. -/
inductive IsWalk (G : GraphI) : String → List (String × Int) → String → Prop
  | nil (a : String) : IsWalk G a [] a
  | cons {a b c : String} {w : Int} {steps : List (String × Int)} :
      (b, w) ∈ G.neighbors a → IsWalk G b steps c → IsWalk G a ((b, w) :: steps) c

/-- Total weight of a walk. -/
def walkWeight (steps : List (String × Int)) : Int := (steps.map Prod.snd).sum

/-- `v` is reachable from `u` along stored edges. -/
def Reaches (G : GraphI) (u v : String) : Prop := ∃ steps, IsWalk G u steps v

/-- A negative-weight cycle lies on some vertex reachable from `start`. -/
def HasNegCycleFrom (G : GraphI) (start : String) : Prop :=
  ∃ v steps, Reaches G start v ∧ steps ≠ [] ∧ IsWalk G v steps v ∧ walkWeight steps < 0

/-! ### `GraphTraversal` (src/graph_traversal.py) -/

namespace GraphTraversal

/-- Sort order used before pushing in DFS: descending by the neighbor's
string key, `sorted(..., key=lambda x: str(x[0]), reverse=True)`.  Python's
`sorted` is a stable sort, and a stable sort's output is determined by the
comparator alone, so the structural `List.insertionSort` (also stable)
produces the same list. -/
def descR (a b : String × Int) : Prop := strLtB a.1 b.1 = false

instance : DecidableRel descR := fun x y => inferInstanceAs (Decidable (strLtB x.1 y.1 = false))

/-- Sort order used in BFS (and recursive DFS): ascending by string key. -/
def ascR (a b : String × Int) : Prop := strLtB b.1 a.1 = false

instance : DecidableRel ascR := fun x y => inferInstanceAs (Decidable (strLtB y.1 x.1 = false))

/-- The `while stack:` loop of `depth_first_search`.  The stack's top is the
list head; pushed neighbors are reversed so the last Python `append` is on
top. -/
def dfsLoop (G : GraphI) : Nat → List String → List String → List String → List String
  | 0, _, order, _ => order
  | _ + 1, _, order, [] => order
  | fuel + 1, visited, order, v :: stack =>
    if v ∈ visited then dfsLoop G fuel visited order stack
    else
      let visited' := visited ++ [v]
      let ns := List.insertionSort descR (G.neighbors v)
      let pushes := (ns.filter (fun p => p.1 ∉ visited')).map Prod.fst
      dfsLoop G fuel visited' (order ++ [v]) (pushes.reverse ++ stack)

/-- Enough fuel for `dfsLoop`: one initial stack entry, plus for every vertex
one visit and one stack entry per incident edge. -/
def dfsFuel (G : GraphI) : Nat :=
  1 + G.vertices.length + ((G.vertices.map (fun v => (G.neighbors v).length)).sum)

/-- `depth_first_search`. -/
def depth_first_search (G : GraphI) (start_vertex : String) : List String :=
  if start_vertex ∈ G.vertices then dfsLoop G (dfsFuel G) [] [] [start_vertex] else []

/-- The `for neighbor, weight in neighbors_sorted:` body of
`breadth_first_search`: mark-on-enqueue. -/
def bfsEnqueue : List (String × Int) → List String → List String →
    List String × List String
  | [], visited, queue => (visited, queue)
  | (n, _) :: rest, visited, queue =>
    if n ∈ visited then bfsEnqueue rest visited queue
    else bfsEnqueue rest (visited ++ [n]) (queue ++ [n])

/-- The `while queue:` loop of `breadth_first_search` (FIFO: head is the
front). -/
def bfsLoop (G : GraphI) : Nat → List String → List String → List String → List String
  | 0, _, order, _ => order
  | _ + 1, _, order, [] => order
  | fuel + 1, visited, order, v :: queue =>
    let ns := List.insertionSort ascR (G.neighbors v)
    let p := bfsEnqueue ns visited queue
    bfsLoop G fuel p.1 (order ++ [v]) p.2

/-- Enough fuel for `bfsLoop`: every dequeue consumes an enqueue, and each
vertex is enqueued at most once. -/
def bfsFuel (G : GraphI) : Nat := G.vertices.length + 1

/-- `breadth_first_search`. -/
def breadth_first_search (G : GraphI) (start_vertex : String) : List String :=
  if start_vertex ∈ G.vertices then bfsLoop G (bfsFuel G) [start_vertex] [] [start_vertex]
  else []

/-- `is_connected`: DFS from the first reported vertex must reach everything. -/
def is_connected (G : GraphI) : Bool :=
  match G.vertices with
  | [] => true
  | v0 :: _ => (depth_first_search G v0).length == G.vertices.length

end GraphTraversal

/-! ### `ShortestPath` (src/shortest_path.py) -/

/-- Tentative distances: `none` is Python's `float('inf')`.  `dLt a b` is the
comparison `a < b` with `inf` larger than every integer and `inf < inf`
false. -/
def dLt : Option Int → Option Int → Prop
  | none, none => False
  | none, some _ => False
  | some _, none => True
  | some x, some y => x < y

instance : DecidableRel dLt := fun a b =>
  match a, b with
  | none, none => isFalse (fun h => h)
  | none, some _ => isFalse (fun h => h)
  | some _, none => isTrue trivial
  | some x, some y => inferInstanceAs (Decidable (x < y))

/-- Specification vocabulary: the non-strict counterpart of `dLt`, with
`none` (`+inf`) above every integer. -/
def dLe : Option Int → Option Int → Prop
  | _, none => True
  | none, some _ => False
  | some x, some y => x ≤ y

/-- Dict assignment `d[k] = v`: overwrite the unique entry if the key exists,
otherwise append. -/
def aset {β : Type} (l : List (String × β)) (k : String) (v : β) : List (String × β) :=
  if (alookup l k).isSome then l.map (fun p => if p.1 = k then (p.1, v) else p)
  else l ++ [(k, v)]

namespace ShortestPath

/-- `heapq.heappop` on entries `(distance, vertex)`: remove and return the
minimum under the lexicographic tuple order. -/
def heapPop : List (Int × String) → Option ((Int × String) × List (Int × String))
  | [] => none
  | x :: rest =>
    let m := List.foldl
      (fun a b => if b.1 < a.1 ∨ (b.1 = a.1 ∧ strLtB b.2 a.2 = true) then b else a) x rest
    some (m, (x :: rest).erase m)

/-- State of the Dijkstra loop: the two dicts, the priority queue, and the
finalized set. -/
structure DijState where
  dist : List (String × Option Int)
  pred : List (String × Option String)
  pq : List (Int × String)
  visited : List String
deriving Repr

/-- The `for neighbor, weight in neighbors:` relaxation of `dijkstra`.
Distances hold every graph vertex as a key, so `getD none` (= `+inf`)
matches the dict read. -/
def dijkstraRelax (u : String) (du : Int) :
    List (String × Int) → DijState → DijState
  | [], st => st
  | (n, w) :: rest, st =>
    if n ∈ st.visited then dijkstraRelax u du rest st
    else
      if dLt (some (du + w)) ((alookup st.dist n).getD none) then
        dijkstraRelax u du rest
          ⟨aset st.dist n (some (du + w)), aset st.pred n (some u),
           (du + w, n) :: st.pq, st.visited⟩
      else dijkstraRelax u du rest st

/-- The `while pq:` loop of `dijkstra` (fuel models termination; every pop
consumes a push and pushes only happen on strict improvement). -/
def dijkstraLoop (G : GraphI) (endv : Option String) : Nat → DijState → DijState
  | 0, st => st
  | fuel + 1, st =>
    match heapPop st.pq with
    | none => st
    | some (du, pq') =>
      if du.2 ∈ st.visited then dijkstraLoop G endv fuel { st with pq := pq' }
      else
        let st2 : DijState := { st with pq := pq', visited := st.visited ++ [du.2] }
        if endv = some du.2 then st2
        else dijkstraLoop G endv fuel (dijkstraRelax du.2 du.1 (G.neighbors du.2) st2)

/-- Generous fuel: one initial entry plus at most one push per stored edge
per improvement; the sum below dominates the possible pop count on the
graphs of the claims. -/
def dijkstraFuel (G : GraphI) : Nat :=
  1 + G.vertices.length +
    G.vertices.length * ((G.vertices.map (fun v => (G.neighbors v).length)).sum + 1)

/-- `dijkstra` (the `verbose` printing is irrelevant to the returned value;
an absent start returns the two empty dicts). -/
def dijkstra (G : GraphI) (start_vertex : String) (end_vertex : Option String) :
    List (String × Option Int) × List (String × Option String) :=
  if start_vertex ∈ G.vertices then
    let dist0 := aset (G.vertices.map (fun v => (v, (none : Option Int)))) start_vertex (some 0)
    let pred0 := G.vertices.map (fun v => (v, (none : Option String)))
    let st := dijkstraLoop G end_vertex (dijkstraFuel G)
      ⟨dist0, pred0, [(0, start_vertex)], []⟩
    (st.dist, st.pred)
  else ([], [])

/-! #### Bellman-Ford.  The two dicts are embedded as total functions on
`String`; the code only ever reads keys drawn from `get_vertices` and from
neighbor lists, which the theorems' closure hypotheses keep inside the
vertex set. -/

structure BFState where
  dist : String → Option Int
  pred : String → Option String
  updated : Bool

/-- Relax one stored edge `u -> p.1` of weight `p.2`.  When `dist u` is
infinite, Python computes `inf + w = inf`, which never compares `<`, so
nothing changes. -/
def relaxEdge (u : String) (st : BFState) (p : String × Int) : BFState :=
  match st.dist u with
  | none => st
  | some x =>
    if dLt (some (x + p.2)) (st.dist p.1) then
      ⟨Function.update st.dist p.1 (some (x + p.2)),
       Function.update st.pred p.1 (some u), true⟩
    else st

/-- The body of the outer `for vertex in vertices:` loop of a relaxation
pass: skip a vertex whose distance is infinite, otherwise relax each of its
stored edges in order. -/
def bfVisit (G : GraphI) (st : BFState) (u : String) : BFState :=
  match st.dist u with
  | none => st
  | some _ => List.foldl (relaxEdge u) st (G.neighbors u)

/-- One full relaxation pass (`for vertex in vertices: ... for neighbor,
weight in neighbors:`), skipping vertices whose distance is infinite. -/
def bfPass (G : GraphI) (st : BFState) : BFState :=
  List.foldl (bfVisit G) st G.vertices

/-- The main loop: up to `|V| - 1` passes with early exit when a pass makes
no update. -/
def bfLoop (G : GraphI) : Nat → BFState → BFState
  | 0, st => st
  | k + 1, st =>
    let st' := bfPass G { st with updated := false }
    if st'.updated then bfLoop G k st' else st'

/-- The negative-cycle check: one more scan, reporting whether any stored
edge from a finitely-distanced vertex can still be relaxed. -/
def bfCheck (G : GraphI) (st : BFState) : Bool :=
  G.vertices.any (fun u =>
    match st.dist u with
    | none => false
    | some x => (G.neighbors u).any (fun p => decide (dLt (some (x + p.2)) (st.dist p.1))))

/-- `bellman_ford`: distances, predecessors and the negative-cycle flag.
An absent start returns empty maps and `false`. -/
def bellman_ford (G : GraphI) (start_vertex : String) :
    (String → Option Int) × (String → Option String) × Bool :=
  if start_vertex ∈ G.vertices then
    let st := bfLoop G (G.vertices.length - 1)
      ⟨fun v => if v = start_vertex then some 0 else none, fun _ => none, false⟩
    (st.dist, st.pred, bfCheck G st)
  else (fun _ => none, fun _ => none, false)

/-! #### BFS shortest path -/

/-- The `for neighbor, weight in neighbors:` body of `bfs_shortest_path`:
return the completed path the moment the target shows up, otherwise
mark-and-enqueue unvisited neighbors. -/
def bspScan (endVertex : String) (path : List String) :
    List (String × Int) → List String → List (String × List String) →
    Option (List String) × List String × List (String × List String)
  | [], visited, queue => (none, visited, queue)
  | (n, _) :: rest, visited, queue =>
    if n = endVertex then (some (path ++ [n]), visited, queue)
    else if n ∈ visited then bspScan endVertex path rest visited queue
    else bspScan endVertex path rest (visited ++ [n]) (queue ++ [(n, path ++ [n])])

/-- The `while queue:` loop of `bfs_shortest_path`. -/
def bspLoop (G : GraphI) (endVertex : String) :
    Nat → List String → List (String × List String) → List String
  | 0, _, _ => []
  | _ + 1, _, [] => []
  | fuel + 1, visited, (v, path) :: queue =>
    match bspScan endVertex path (G.neighbors v) visited queue with
    | (some found, _, _) => found
    | (none, visited', queue') => bspLoop G endVertex fuel visited' queue'

/-- `bfs_shortest_path`. -/
def bfs_shortest_path (G : GraphI) (start_vertex end_vertex : String) : List String :=
  if start_vertex ∈ G.vertices ∧ end_vertex ∈ G.vertices then
    if start_vertex = end_vertex then [start_vertex]
    else bspLoop G end_vertex (G.vertices.length + 1) [start_vertex]
      [(start_vertex, [start_vertex])]
  else []

/-! #### Path reconstruction -/

/-- The `while current is not None:` walk of `_reconstruct_path`.  A missing
dict key is Python's `KeyError`, modelled as `none`; exhausted fuel models a
predecessor cycle, on which the Python loop never terminates. -/
def reconstructGo (preds : List (String × Option String)) :
    Nat → String → List String → Option (List String)
  | 0, _, _ => none
  | fuel + 1, current, acc =>
    match alookup preds current with
    | none => none
    | some none => some (acc ++ [current])
    | some (some p) => reconstructGo preds fuel p (acc ++ [current])

/-- `_reconstruct_path`: `none` models an uncaught `KeyError` (or a
nonterminating predecessor cycle); `some l` is a normal return of `l`. -/
def reconstruct_path (preds : List (String × Option String))
    (start_vertex end_vertex : String) : Option (List String) :=
  match alookup preds end_vertex with
  | none => none
  | some pe =>
    if pe = none ∧ end_vertex ≠ start_vertex then some []
    else (reconstructGo preds (preds.length + 1) end_vertex []).map List.reverse

/-- `get_path` simply delegates to `_reconstruct_path`. -/
def get_path (preds : List (String × Option String))
    (start_vertex end_vertex : String) : Option (List String) :=
  reconstruct_path preds start_vertex end_vertex


end ShortestPath

/-! ### Concrete graphs used by the claims -/

/-- The undirected weighted demonstration graph
{A-B:4, A-C:2, B-C:1, B-D:5, C-D:8, C-E:10, D-E:2}. -/
def dijkstraDemo : GraphAdjacencyList :=
  GraphAdjacencyList.runOps false true
    [.addVertex "A", .addVertex "B", .addVertex "C", .addVertex "D", .addVertex "E",
     .addEdge "A" "B" 4, .addEdge "A" "C" 2, .addEdge "B" "C" 1,
     .addEdge "B" "D" 5, .addEdge "C" "D" 8, .addEdge "C" "E" 10, .addEdge "D" "E" 2]

/-- A directed 3-vertex cycle A -> B -> C -> A whose weights sum to -1. -/
def bellmanNegCycleDemo : GraphAdjacencyList :=
  GraphAdjacencyList.runOps true true
    [.addVertex "A", .addVertex "B", .addVertex "C",
     .addEdge "A" "B" 1, .addEdge "B" "C" 1, .addEdge "C" "A" (-3)]

/-! ## C4: the concrete Dijkstra run -/

/-- C4: on the undirected weighted graph {A-B:4, A-C:2, B-C:1, B-D:5, C-D:8,
C-E:10, D-E:2}, `dijkstra` from `A` returns distances A=0, C=2, B=3, D=8,
E=10, and reconstructing the path to `E` from the returned predecessor map
yields A, C, B, D, E. -/
theorem dijkstra_demo_correct :
    alookup (ShortestPath.dijkstra dijkstraDemo.toI "A" none).1 "A" = some (some 0) ∧
    alookup (ShortestPath.dijkstra dijkstraDemo.toI "A" none).1 "C" = some (some 2) ∧
    alookup (ShortestPath.dijkstra dijkstraDemo.toI "A" none).1 "B" = some (some 3) ∧
    alookup (ShortestPath.dijkstra dijkstraDemo.toI "A" none).1 "D" = some (some 8) ∧
    alookup (ShortestPath.dijkstra dijkstraDemo.toI "A" none).1 "E" = some (some 10) ∧
    ShortestPath.get_path (ShortestPath.dijkstra dijkstraDemo.toI "A" none).2 "A" "E" =
      some ["A", "C", "B", "D", "E"] := by
  decide

/-! ## C8: path reconstruction (corrected) -/

/-- C8 counterexample: on the empty predecessor map (as returned when the
algorithm's start vertex was absent), `get_path` hits an uncaught `KeyError`
(modelled `none`) instead of returning the empty sequence. -/
theorem get_path_missing_key_raises :
    ShortestPath.get_path [] "A" "B" = none := by decide

/-- C8 amended: when `end` is a key of the predecessor map, a stored `None`
predecessor with `end ≠ start` yields the empty sequence; but when `end` is
not a key at all (for example on the empty maps returned for an absent start
vertex) the reconstruction raises `KeyError` rather than returning. -/
theorem get_path_no_predecessor (preds : List (String × Option String))
    (s e : String) :
    (alookup preds e = some none → e ≠ s → ShortestPath.get_path preds s e = some []) ∧
    (alookup preds e = none → ShortestPath.get_path preds s e = none) := by
  constructor
  · intro h hne
    unfold ShortestPath.get_path ShortestPath.reconstruct_path
    rw [h]
    simp [hne]
  · intro h
    unfold ShortestPath.get_path ShortestPath.reconstruct_path
    rw [h]

/-- Witness for `get_path_no_predecessor` at concrete inputs. -/
theorem get_path_no_predecessor_witness :
    ShortestPath.get_path [("B", (none : Option String))] "A" "B" = some [] ∧
    ShortestPath.get_path [] "A" "B" = none :=
  ⟨(get_path_no_predecessor [("B", none)] "A" "B").1 (by decide) (by decide),
   (get_path_no_predecessor [] "A" "B").2 (by decide)⟩

/-! ## C10: the empty graph is reported connected -/

/-- C10: for every graph with zero vertices, of either representation,
`is_connected` returns `True`. -/
theorem is_connected_empty_graph (gl : GraphAdjacencyList) (gm : GraphAdjacencyMatrix)
    (hl : gl.get_vertex_count = 0) (hm : gm.get_vertex_count = 0) :
    GraphTraversal.is_connected gl.toI = true ∧
    GraphTraversal.is_connected gm.toI = true := by
  have h1 : gl.adjacency_list = [] := List.eq_nil_of_length_eq_zero hl
  have h2 : gm.vertices = [] := List.eq_nil_of_length_eq_zero hm
  constructor
  · simp [GraphTraversal.is_connected, GraphAdjacencyList.toI,
      GraphAdjacencyList.get_vertices, akeys, h1]
  · simp [GraphTraversal.is_connected, GraphAdjacencyMatrix.toI,
      GraphAdjacencyMatrix.get_vertices, h2]

/-- Witness for `is_connected_empty_graph` on the two freshly constructed
empty graphs. -/
theorem is_connected_empty_graph_witness :
    GraphTraversal.is_connected (GraphAdjacencyList.empty false false).toI = true ∧
    GraphTraversal.is_connected (GraphAdjacencyMatrix.empty false false).toI = true :=
  is_connected_empty_graph (GraphAdjacencyList.empty false false)
    (GraphAdjacencyMatrix.empty false false) rfl rfl

/-! ## Association-list lemmas -/

theorem alookup_isSome_iff {β : Type} (l : List (String × β)) (k : String) :
    (alookup l k).isSome ↔ k ∈ akeys l := by
  induction l with
  | nil => simp [alookup, akeys]
  | cons p rest ih =>
    obtain ⟨a, b⟩ := p
    by_cases h : a = k
    · subst h; simp [alookup, akeys]
    · have hka : ¬k = a := fun hh => h hh.symm
      simp only [alookup, h, if_false]
      rw [ih]
      simp [akeys, hka]

theorem alookup_eq_none_iff {β : Type} (l : List (String × β)) (k : String) :
    alookup l k = none ↔ k ∉ akeys l := by
  rw [← alookup_isSome_iff, Option.not_isSome_iff_eq_none]

theorem alookup_append_left {β : Type} {l1 : List (String × β)} {k : String}
    {v : β} (l2 : List (String × β)) (h : alookup l1 k = some v) :
    alookup (l1 ++ l2) k = some v := by
  induction l1 with
  | nil => simp [alookup] at h
  | cons p rest ih =>
    obtain ⟨a, b⟩ := p
    by_cases hak : a = k <;> simp [alookup, hak] at h ⊢
    · exact h
    · exact ih h

theorem alookup_append_right {β : Type} {l1 : List (String × β)} {k : String}
    (l2 : List (String × β)) (h : alookup l1 k = none) :
    alookup (l1 ++ l2) k = alookup l2 k := by
  induction l1 with
  | nil => simp
  | cons p rest ih =>
    obtain ⟨a, b⟩ := p
    by_cases hak : a = k <;> simp [alookup, hak] at h ⊢
    exact ih h

theorem akeys_append {β : Type} (l1 l2 : List (String × β)) :
    akeys (l1 ++ l2) = akeys l1 ++ akeys l2 := by
  simp [akeys]

theorem akeys_aupdate {β : Type} (l : List (String × β)) (k : String) (f : β → β) :
    akeys (aupdate l k f) = akeys l := by
  induction l with
  | nil => rfl
  | cons p rest ih =>
    obtain ⟨a, b⟩ := p
    by_cases h : a = k <;> simp [aupdate, h, akeys] at ih ⊢ <;> exact ih

theorem aupdate_length {β : Type} (l : List (String × β)) (k : String) (f : β → β) :
    (aupdate l k f).length = l.length := by
  induction l with
  | nil => rfl
  | cons p rest ih =>
    obtain ⟨a, b⟩ := p
    by_cases h : a = k <;> simp [aupdate, h, ih]

theorem alookup_aupdate {β : Type} (l : List (String × β)) (k : String)
    (f : β → β) (x : String) :
    alookup (aupdate l k f) x =
      if x = k then (alookup l k).map f else alookup l x := by
  induction l with
  | nil => by_cases h : x = k <;> simp [alookup, aupdate, h]
  | cons p rest ih =>
    obtain ⟨a, b⟩ := p
    by_cases hak : a = k
    · subst hak
      by_cases hxa : x = a
      · subst hxa; simp [alookup, aupdate]
      · have hax : ¬a = x := fun hh => hxa hh.symm
        simp [alookup, aupdate, hxa, hax, ih]
    · by_cases hax : a = x
      · subst hax
        simp [alookup, aupdate, hak, ih]
      · simp [alookup, aupdate, hak, hax, ih]

theorem nbrLookup_eq_none_iff (l : List (String × Int)) (v : String) :
    nbrLookup l v = none ↔ ∀ p ∈ l, p.1 ≠ v := by
  induction l with
  | nil => simp [nbrLookup]
  | cons p rest ih =>
    obtain ⟨a, b⟩ := p
    by_cases h : a = v <;> simp [nbrLookup, h, ih]

theorem nbrLookup_append (l1 l2 : List (String × Int)) (v : String) :
    nbrLookup (l1 ++ l2) v =
      match nbrLookup l1 v with
      | some w => some w
      | none => nbrLookup l2 v := by
  induction l1 with
  | nil => simp [nbrLookup]
  | cons p rest ih =>
    obtain ⟨a, b⟩ := p
    by_cases h : a = v <;> simp [nbrLookup, h, ih]

theorem updFirst_of_none {l : List (String × Int)} {k : String} (w : Int)
    (h : nbrLookup l k = none) : updFirst l k w = l := by
  induction l with
  | nil => rfl
  | cons p rest ih =>
    obtain ⟨a, b⟩ := p
    by_cases hak : a = k <;> simp [nbrLookup, hak] at h <;> simp [updFirst, hak]
    exact ih h

theorem nbrLookup_updFirst_self {l : List (String × Int)} {k : String} (w : Int)
    (h : (nbrLookup l k).isSome) : nbrLookup (updFirst l k w) k = some w := by
  induction l with
  | nil => simp [nbrLookup] at h
  | cons p rest ih =>
    obtain ⟨a, b⟩ := p
    by_cases hak : a = k <;> simp [nbrLookup, updFirst, hak] at h ⊢
    exact ih h

theorem nbrLookup_updFirst_ne {q k : String} (l : List (String × Int)) (w : Int)
    (h : q ≠ k) : nbrLookup (updFirst l k w) q = nbrLookup l q := by
  induction l with
  | nil => rfl
  | cons p rest ih =>
    obtain ⟨a, b⟩ := p
    have hkq : ¬k = q := fun hh => h hh.symm
    by_cases hak : a = k
    · simp [nbrLookup, updFirst, hak, hkq]
    · by_cases haq : a = q <;> simp [nbrLookup, updFirst, hak, haq, hkq, h, ih]

theorem updFirst_length (l : List (String × Int)) (k : String) (w : Int) :
    (updFirst l k w).length = l.length := by
  induction l with
  | nil => rfl
  | cons p rest ih =>
    obtain ⟨a, b⟩ := p
    by_cases hak : a = k <;> simp [updFirst, hak, ih]

theorem countKey_updFirst (l : List (String × Int)) (k : String) (w : Int)
    (v : String) : countKey (updFirst l k w) v = countKey l v := by
  induction l with
  | nil => rfl
  | cons p rest ih =>
    obtain ⟨a, b⟩ := p
    by_cases hak : a = k <;> simp [updFirst, countKey, hak, List.countP_cons] at ih ⊢ <;>
      simp [ih]

theorem countKey_append (l1 l2 : List (String × Int)) (v : String) :
    countKey (l1 ++ l2) v = countKey l1 v + countKey l2 v := by
  simp [countKey, List.countP_append]

theorem nbrLookup_filter_self (l : List (String × Int)) (v : String) :
    nbrLookup (l.filter (fun p => p.1 ≠ v)) v = none := by
  induction l with
  | nil => rfl
  | cons p rest ih =>
    obtain ⟨a, b⟩ := p
    by_cases hav : a = v <;>
      simp only [List.filter_cons, decide_not, hav, decide_True, decide_False,
        Bool.not_true, Bool.not_false, if_true, if_false, nbrLookup, ite_false] at ih ⊢ <;>
      simp [nbrLookup, hav, ih] at ih ⊢ <;> try exact ih

theorem nbrLookup_filter_ne {q v : String} (l : List (String × Int)) (h : q ≠ v) :
    nbrLookup (l.filter (fun p => p.1 ≠ v)) q = nbrLookup l q := by
  have hvq : ¬v = q := fun hh => h hh.symm
  induction l with
  | nil => rfl
  | cons p rest ih =>
    obtain ⟨a, b⟩ := p
    simp only [ne_eq, decide_not] at ih ⊢
    by_cases hav : a = v
    · simp [List.filter_cons, hav, nbrLookup, hvq, ih]
    · by_cases haq : a = q <;> simp [List.filter_cons, hav, haq, h, nbrLookup, ih]

theorem countKey_filter_self (l : List (String × Int)) (v : String) :
    countKey (l.filter (fun p => p.1 ≠ v)) v = 0 := by
  induction l with
  | nil => rfl
  | cons p rest ih =>
    obtain ⟨a, b⟩ := p
    by_cases hav : a = v <;>
      simp [List.filter_cons, hav, countKey, List.countP_cons] at ih ⊢ <;> try exact ih

theorem countKey_filter_ne {q v : String} (l : List (String × Int)) (h : q ≠ v) :
    countKey (l.filter (fun p => p.1 ≠ v)) q = countKey l q := by
  have hvq : ¬v = q := fun hh => h hh.symm
  induction l with
  | nil => rfl
  | cons p rest ih =>
    obtain ⟨a, b⟩ := p
    simp only [countKey, ne_eq, decide_not] at ih ⊢
    by_cases hav : a = v
    · simp [List.filter_cons, hav, List.countP_cons, hvq, ih]
    · simp [List.filter_cons, hav, List.countP_cons, ih]

theorem nbrLookup_isSome_iff (l : List (String × Int)) (v : String) :
    (nbrLookup l v).isSome ↔ ∃ w, (v, w) ∈ l := by
  induction l with
  | nil => simp [nbrLookup]
  | cons p rest ih =>
    obtain ⟨a, b⟩ := p
    by_cases h : a = v
    · subst h; simp [nbrLookup]
    · have hva : ¬v = a := fun hh => h hh.symm
      simp [nbrLookup, h, ih, hva]

theorem nbrLookup_mem {l : List (String × Int)} {v : String} {w : Int}
    (h : nbrLookup l v = some w) : (v, w) ∈ l := by
  induction l with
  | nil => simp [nbrLookup] at h
  | cons p rest ih =>
    obtain ⟨a, b⟩ := p
    by_cases hav : a = v <;> simp [nbrLookup, hav] at h
    · subst hav; subst h; exact List.mem_cons_self _ _
    · exact List.mem_cons_of_mem _ (ih h)

theorem countKey_eq_zero_iff (l : List (String × Int)) (v : String) :
    countKey l v = 0 ↔ ∀ p ∈ l, p.1 ≠ v := by
  simp [countKey, List.countP_eq_zero]

theorem countKey_perm {l l' : List (String × Int)} (h : l.Perm l') (v : String) :
    countKey l v = countKey l' v :=
  h.countP_eq _

theorem countKey_pos_of_mem {l : List (String × Int)} {v : String} {w : Int}
    (h : (v, w) ∈ l) : 1 ≤ countKey l v := by
  have : 0 < countKey l v := by
    rw [countKey, List.countP_pos]
    exact ⟨(v, w), h, by simp⟩
  omega

theorem nbrLookup_eq_some_of_mem_of_unique {l : List (String × Int)} {v : String}
    {w : Int} (hc : countKey l v ≤ 1) (hm : (v, w) ∈ l) : nbrLookup l v = some w := by
  induction l with
  | nil => cases hm
  | cons p rest ih =>
    obtain ⟨a, b⟩ := p
    rcases List.mem_cons.mp hm with hm1 | hm2
    · obtain ⟨h1, h2⟩ := Prod.mk.injEq .. ▸ hm1
      cases hm1
      simp [nbrLookup]
    · by_cases hav : a = v
      · exfalso
        have h1 : 1 ≤ countKey rest v := countKey_pos_of_mem hm2
        have : countKey ((a, b) :: rest) v = countKey rest v + 1 := by
          simp [countKey, List.countP_cons, hav]
        omega
      · have hc' : countKey rest v ≤ 1 := by
          have : countKey ((a, b) :: rest) v = countKey rest v := by
            simp [countKey, List.countP_cons, hav]
          omega
        simp [nbrLookup, hav, ih hc' hm2]

theorem nbrLookup_perm {l l' : List (String × Int)} (h : l.Perm l')
    (hu : ∀ x, countKey l x ≤ 1) (v : String) : nbrLookup l v = nbrLookup l' v := by
  cases hl : nbrLookup l v with
  | none =>
    symm
    rw [nbrLookup_eq_none_iff] at hl ⊢
    intro p hp
    exact hl p (h.mem_iff.mpr hp)
  | some w =>
    have hm : (v, w) ∈ l' := h.mem_iff.mp (nbrLookup_mem hl)
    have hc' : countKey l' v ≤ 1 := by rw [← countKey_perm h]; exact hu v
    exact (nbrLookup_eq_some_of_mem_of_unique hc' hm).symm

/-! ## Canonical neighbor-list lemmas -/

theorem mem_filterMap_if {verts : List String} {f : String → Int} {p : String × Int} :
    p ∈ verts.filterMap (fun x => if f x = 0 then none else some (x, f x)) ↔
      p.1 ∈ verts ∧ f p.1 ≠ 0 ∧ p.2 = f p.1 := by
  obtain ⟨v, x⟩ := p
  rw [List.mem_filterMap]
  constructor
  · rintro ⟨a, ha, hfa⟩
    by_cases h0 : f a = 0
    · simp [h0] at hfa
    · simp only [h0, if_false] at hfa
      injection hfa with h2
      injection h2 with h3 h4
      subst h3
      subst h4
      exact ⟨ha, h0, rfl⟩
  · intro h
    have h0 : f v ≠ 0 := by simpa using h.2.1
    have hx : x = f v := by simpa using h.2.2
    refine ⟨v, by simpa using h.1, ?_⟩
    simp [h0, hx]

theorem countKey_filterMap_if_le_one {verts : List String} (f : String → Int)
    (hnd : verts.Nodup) (v : String) :
    countKey (verts.filterMap (fun x => if f x = 0 then none else some (x, f x))) v ≤ 1 := by
  induction verts with
  | nil => simp [countKey]
  | cons a rest ih =>
    have hnd' := hnd.of_cons
    have hna : a ∉ rest := by
      intro hmem
      exact (List.nodup_cons.mp hnd).1 hmem
    by_cases h0 : f a = 0
    · simpa [List.filterMap_cons, h0] using ih hnd'
    · rw [List.filterMap_cons]
      simp only [h0, if_false]
      by_cases hav : a = v
      · have hz : countKey (rest.filterMap
            (fun x => if f x = 0 then none else some (x, f x))) v = 0 := by
          rw [countKey_eq_zero_iff]
          intro p hp hpv
          have hm := mem_filterMap_if.mp hp
          exact hna (by rw [hav, ← hpv]; exact hm.1)
        have hstep : countKey ((a, f a) :: rest.filterMap
            (fun x => if f x = 0 then none else some (x, f x))) v =
            countKey (rest.filterMap
              (fun x => if f x = 0 then none else some (x, f x))) v + 1 := by
          simp [countKey, List.countP_cons, hav]
        omega
      · have hle := ih hnd'
        have hstep : countKey ((a, f a) :: rest.filterMap
            (fun x => if f x = 0 then none else some (x, f x))) v =
            countKey (rest.filterMap
              (fun x => if f x = 0 then none else some (x, f x))) v := by
          simp [countKey, List.countP_cons, hav]
        omega

theorem countKey_canonNbrs_le_one {s : SpecG} (hnd : s.verts.Nodup) (u v : String) :
    countKey (canonNbrs s u) v ≤ 1 :=
  countKey_filterMap_if_le_one (s.w u) hnd v

theorem mem_canonNbrs_iff {s : SpecG} {u : String} {p : String × Int} :
    p ∈ canonNbrs s u ↔ p.1 ∈ s.verts ∧ s.w u p.1 ≠ 0 ∧ p.2 = s.w u p.1 :=
  mem_filterMap_if

theorem nbrLookup_canonNbrs {s : SpecG} (hnd : s.verts.Nodup) (u v : String) :
    nbrLookup (canonNbrs s u) v =
      if v ∈ s.verts ∧ s.w u v ≠ 0 then some (s.w u v) else none := by
  by_cases h : v ∈ s.verts ∧ s.w u v ≠ 0
  · rw [if_pos h]
    exact nbrLookup_eq_some_of_mem_of_unique (countKey_canonNbrs_le_one hnd u v)
      (mem_canonNbrs_iff.mpr ⟨h.1, h.2, rfl⟩)
  · rw [if_neg h, nbrLookup_eq_none_iff]
    intro p hp hpv
    have hm := mem_canonNbrs_iff.mp hp
    rw [hpv] at hm
    exact h ⟨hm.1, hm.2.1⟩

theorem canonNbrs_length (s : SpecG) (u : String) :
    (canonNbrs s u).length = s.verts.countP (fun v => decide (¬s.w u v = 0)) := by
  unfold canonNbrs
  induction s.verts with
  | nil => rfl
  | cons a rest ih =>
    by_cases h0 : s.w u a = 0 <;>
      simp [List.filterMap_cons, h0, List.countP_cons, ih]

/-! ## Spec-state lemmas -/

theorem wset_same (f : String → String → Int) (u v : String) (x : Int) :
    wset f u v x u v = x := by simp [wset]

theorem wset_other {p q u v : String} (f : String → String → Int) (x : Int)
    (h : ¬(p = u ∧ q = v)) : wset f u v x p q = f p q := by simp [wset, h]

theorem SpecInv_applyOp (d : Bool) (s : SpecG) (op : GOp) (hi : SpecInv s) :
    SpecInv (s.applyOp d op) := by
  obtain ⟨hnd, hsup⟩ := hi
  cases op with
  | addVertex v =>
    by_cases hv : v ∈ s.verts
    · simpa [SpecG.applyOp, hv] using ⟨hnd, hsup⟩
    · refine ⟨?_, ?_⟩ <;> simp only [SpecG.applyOp, hv, if_false]
      · exact List.nodup_append.mpr ⟨hnd, List.nodup_singleton v,
          by intro a ha hb; simp at hb; subst hb; exact hv ha⟩
      · intro a b hab
        obtain ⟨ha, hb⟩ := hsup a b hab
        exact ⟨List.mem_append_left _ ha, List.mem_append_left _ hb⟩
  | addEdge u v wt =>
    by_cases hin : u ∈ s.verts ∧ v ∈ s.verts
    · cases d <;> simp only [SpecG.applyOp, hin.1, hin.2, and_self, if_true, if_false, Bool.false_eq_true] <;>
        refine ⟨hnd, ?_⟩ <;> intro a b hab <;> dsimp only at hab ⊢
      · by_cases h1 : a = v ∧ b = u
        · exact ⟨h1.1 ▸ hin.2, h1.2 ▸ hin.1⟩
        · rw [wset_other _ _ h1] at hab
          by_cases h2 : a = u ∧ b = v
          · exact ⟨h2.1 ▸ hin.1, h2.2 ▸ hin.2⟩
          · rw [wset_other _ _ h2] at hab
            exact hsup a b hab
      · by_cases h2 : a = u ∧ b = v
        · exact ⟨h2.1 ▸ hin.1, h2.2 ▸ hin.2⟩
        · rw [wset_other _ _ h2] at hab
          exact hsup a b hab
    · simpa [SpecG.applyOp, hin] using ⟨hnd, hsup⟩
  | removeEdge u v =>
    by_cases hin : u ∈ s.verts ∧ v ∈ s.verts
    · cases d <;> simp only [SpecG.applyOp, hin.1, hin.2, and_self, if_true, if_false, Bool.false_eq_true] <;>
        refine ⟨hnd, ?_⟩ <;> intro a b hab <;> dsimp only at hab ⊢
      · by_cases h1 : a = v ∧ b = u
        · exact ⟨h1.1 ▸ hin.2, h1.2 ▸ hin.1⟩
        · rw [wset_other _ _ h1] at hab
          by_cases h2 : a = u ∧ b = v
          · exact ⟨h2.1 ▸ hin.1, h2.2 ▸ hin.2⟩
          · rw [wset_other _ _ h2] at hab
            exact hsup a b hab
      · by_cases h2 : a = u ∧ b = v
        · exact ⟨h2.1 ▸ hin.1, h2.2 ▸ hin.2⟩
        · rw [wset_other _ _ h2] at hab
          exact hsup a b hab
    · simpa [SpecG.applyOp, hin] using ⟨hnd, hsup⟩

theorem double_wset_eval (f : String → String → Int) (u v : String) (wt : Int)
    (a b : String) :
    wset (wset f u v wt) v u wt a b =
      if (a = v ∧ b = u) ∨ (a = u ∧ b = v) then wt else f a b := by
  by_cases h1 : a = v ∧ b = u
  · simp [wset, h1]
  · by_cases h2 : a = u ∧ b = v <;> simp [wset, h1, h2]

theorem SpecSym_applyOp (s : SpecG) (op : GOp) (hs : SpecSym s) :
    SpecSym (s.applyOp false op) := by
  cases op with
  | addVertex v =>
    by_cases hv : v ∈ s.verts <;> simp only [SpecG.applyOp, hv, if_true, if_false] <;>
      exact hs
  | addEdge u v wt =>
    by_cases hin : u ∈ s.verts ∧ v ∈ s.verts
    · simp only [SpecG.applyOp, hin.1, hin.2, and_self, if_true, Bool.false_eq_true, if_false]
      intro a b
      dsimp only
      rw [double_wset_eval, double_wset_eval]
      by_cases h : (a = v ∧ b = u) ∨ (a = u ∧ b = v)
      · rw [if_pos h, if_pos (by tauto)]
      · rw [if_neg h, if_neg (by tauto)]
        exact hs a b
    · simpa [SpecG.applyOp, hin] using hs
  | removeEdge u v =>
    by_cases hin : u ∈ s.verts ∧ v ∈ s.verts
    · simp only [SpecG.applyOp, hin.1, hin.2, and_self, if_true, Bool.false_eq_true, if_false]
      intro a b
      dsimp only
      rw [double_wset_eval, double_wset_eval]
      by_cases h : (a = v ∧ b = u) ∨ (a = u ∧ b = v)
      · rw [if_pos h, if_pos (by tauto)]
      · rw [if_neg h, if_neg (by tauto)]
        exact hs a b
    · simpa [SpecG.applyOp, hin] using hs

/-! ## Permutation from pointwise lookups -/

theorem perm_cons_erasePair {l : List (String × Int)} {p : String × Int}
    (h : p ∈ l) : l.Perm (p :: erasePair p l) := by
  induction l with
  | nil => cases h
  | cons q rest ih =>
    by_cases hq : q = p
    · subst hq; simp [erasePair]
    · have hp : p ∈ rest := by
        rcases List.mem_cons.mp h with h1 | h1
        · exact absurd h1.symm hq
        · exact h1
      have hrw : erasePair p (q :: rest) = q :: erasePair p rest := by
        simp [erasePair, hq]
      rw [hrw]
      exact ((ih hp).cons q).trans (List.Perm.swap p q _)

theorem nbrLookup_erasePair_ne {l : List (String × Int)} {p : String × Int}
    {x : String} (h : x ≠ p.1) :
    nbrLookup (erasePair p l) x = nbrLookup l x := by
  induction l with
  | nil => rfl
  | cons q rest ih =>
    obtain ⟨a, b⟩ := q
    by_cases hq : (a, b) = p
    · subst hq
      have hax : ¬a = x := fun hh => h hh.symm
      simp [erasePair, nbrLookup, hax]
    · by_cases hax : a = x
      · subst hax
        simp [erasePair, nbrLookup, hq]
      · simp [erasePair, nbrLookup, hq, hax, ih]

theorem countKey_cons_le {a : String} {b : Int} {rest : List (String × Int)}
    {x : String} (h : countKey ((a, b) :: rest) x ≤ 1) : countKey rest x ≤ 1 := by
  have hh : countKey rest x ≤ countKey ((a, b) :: rest) x := by
    simp only [countKey, List.countP_cons]
    exact Nat.le_add_right _ _
  omega

theorem perm_of_nbrLookup_eq {l l' : List (String × Int)}
    (hcl : ∀ x, countKey l x ≤ 1) (hcl' : ∀ x, countKey l' x ≤ 1)
    (h : ∀ x, nbrLookup l x = nbrLookup l' x) : l.Perm l' := by
  induction l generalizing l' with
  | nil =>
    cases l' with
    | nil => exact List.Perm.refl _
    | cons p rest =>
      obtain ⟨a, b⟩ := p
      have hx := h a
      simp [nbrLookup] at hx
  | cons p rest ih =>
    obtain ⟨a, b⟩ := p
    have hla : nbrLookup ((a, b) :: rest) a = some b := by simp [nbrLookup]
    have hmem : (a, b) ∈ l' := nbrLookup_mem ((h a).symm.trans hla)
    have hperm' : l'.Perm ((a, b) :: erasePair (a, b) l') := perm_cons_erasePair hmem
    have hcount' : ∀ x, countKey ((a, b) :: erasePair (a, b) l') x ≤ 1 := by
      intro x
      rw [← countKey_perm hperm']
      exact hcl' x
    have hstep : ∀ (t : List (String × Int)),
        countKey ((a, b) :: t) a = countKey t a + 1 := by
      intro t
      simp [countKey, List.countP_cons]
    have hca : countKey rest a = 0 := by
      have h1 := hcl a
      have h2 := hstep rest
      omega
    have hca' : countKey (erasePair (a, b) l') a = 0 := by
      have h1 := hcount' a
      have h2 := hstep (erasePair (a, b) l')
      omega
    have hlook : ∀ x, nbrLookup rest x = nbrLookup (erasePair (a, b) l') x := by
      intro x
      by_cases hxa : x = a
      · subst hxa
        rw [(nbrLookup_eq_none_iff _ _).mpr ((countKey_eq_zero_iff _ _).mp hca),
          (nbrLookup_eq_none_iff _ _).mpr ((countKey_eq_zero_iff _ _).mp hca')]
      · have hax : ¬a = x := fun hh => hxa hh.symm
        have h1 : nbrLookup rest x = nbrLookup ((a, b) :: rest) x := by
          simp [nbrLookup, hax]
        rw [h1, h x, ← nbrLookup_erasePair_ne (p := (a, b)) hxa]
    exact ((ih (fun x => countKey_cons_le (hcl x))
      (fun x => countKey_cons_le (hcount' x)) hlook).cons (a, b)).trans hperm'.symm

/-! ## Adjacency-list refinement: helper lemmas -/

theorem ALrel_present_iff {s : SpecG} {g : GraphAdjacencyList} (hrel : ALrel s g)
    (u : String) : (alookup g.adjacency_list u).isSome ↔ u ∈ s.verts := by
  rw [alookup_isSome_iff, hrel.1]

theorem ALrel_countKey {s : SpecG} {g : GraphAdjacencyList} {u : String}
    {l : List (String × Int)} (hi : SpecInv s) (hrel : ALrel s g)
    (hl : alookup g.adjacency_list u = some l) (x : String) : countKey l x ≤ 1 := by
  rw [countKey_perm (hrel.2 u l hl)]
  exact countKey_canonNbrs_le_one hi.1 u x

theorem ALrel_nbrLookup {s : SpecG} {g : GraphAdjacencyList} {u : String}
    {l : List (String × Int)} (hi : SpecInv s) (hrel : ALrel s g)
    (hl : alookup g.adjacency_list u = some l) (x : String) :
    nbrLookup l x =
      if x ∈ s.verts ∧ s.w u x ≠ 0 then some (s.w u x) else none := by
  rw [nbrLookup_perm (hrel.2 u l hl) (ALrel_countKey hi hrel hl) x,
    nbrLookup_canonNbrs hi.1]

theorem perm_canon_of_lookups (s' : SpecG) (u : String) (hnd : s'.verts.Nodup)
    {l : List (String × Int)} (hc : ∀ x, countKey l x ≤ 1)
    (hl : ∀ x, nbrLookup l x =
      if x ∈ s'.verts ∧ s'.w u x ≠ 0 then some (s'.w u x) else none) :
    l.Perm (canonNbrs s' u) :=
  perm_of_nbrLookup_eq hc (countKey_canonNbrs_le_one hnd u)
    (fun x => by rw [hl x, nbrLookup_canonNbrs hnd])

theorem canonNbrs_eq_nil_of_not_mem {s : SpecG} {v : String} (hi : SpecInv s)
    (hv : v ∉ s.verts) : canonNbrs s v = [] := by
  rw [List.eq_nil_iff_forall_not_mem]
  intro p hp
  have hm := mem_canonNbrs_iff.mp hp
  exact hv ((hi.2 v p.1 hm.2.1).1)

/-! ## Adjacency-list refinement: preservation -/

theorem ALrel_addVertex (d : Bool) (s : SpecG) (g : GraphAdjacencyList) (v : String)
    (hi : SpecInv s) (hrel : ALrel s g) :
    ALrel (s.applyOp d (.addVertex v)) (g.add_vertex v) := by
  obtain ⟨hkeys, hperm⟩ := hrel
  by_cases hv : v ∈ s.verts
  · have hg : (alookup g.adjacency_list v).isSome := by
      rw [alookup_isSome_iff, hkeys]; exact hv
    simpa [GraphAdjacencyList.add_vertex, hg, SpecG.applyOp, hv] using
      (⟨hkeys, hperm⟩ : ALrel s g)
  · have hg : ¬(alookup g.adjacency_list v).isSome := by
      rw [alookup_isSome_iff, hkeys]; exact hv
    have hnone : alookup g.adjacency_list v = none :=
      Option.not_isSome_iff_eq_none.mp hg
    simp only [GraphAdjacencyList.add_vertex, hg, Bool.false_eq_true, if_false,
      SpecG.applyOp, hv]
    constructor
    · dsimp only
      rw [akeys_append, hkeys]
      rfl
    · intro u l hl
      dsimp only at hl ⊢
      by_cases huv : u = v
      · subst huv
        rw [alookup_append_right _ hnone] at hl
        simp [alookup] at hl
        subst hl
        have hcanon : canonNbrs ⟨s.verts ++ [u], s.w⟩ u = [] := by
          rw [List.eq_nil_iff_forall_not_mem]
          intro p hp
          have hm := mem_canonNbrs_iff.mp hp
          exact hv ((hi.2 u p.1 hm.2.1).1)
        rw [hcanon]
      · cases hlu : alookup g.adjacency_list u with
        | none =>
          rw [alookup_append_right _ hlu] at hl
          simp [alookup] at hl
          exact absurd hl.1.symm huv
        | some l0 =>
          rw [alookup_append_left _ hlu] at hl
          injection hl with hl
          subst hl
          have hzero : s.w u v = 0 := by
            by_contra hnz
            exact hv ((hi.2 u v hnz).2)
          have hcanon : canonNbrs ⟨s.verts ++ [v], s.w⟩ u = canonNbrs s u := by
            unfold canonNbrs
            dsimp only
            rw [List.filterMap_append]
            simp [hzero]
          rw [hcanon]
          exact hperm u l0 hlu

theorem canonNbrs_congr {s s' : SpecG} (u : String) (hv : s'.verts = s.verts)
    (hw : ∀ x, s'.w u x = s.w u x) : canonNbrs s' u = canonNbrs s u := by
  unfold canonNbrs
  rw [hv]
  exact List.filterMap_congr (fun x _ => by rw [hw x])

theorem countKey_canonNbrs_eq_zero {s : SpecG} {u v : String} (h0 : s.w u v = 0) :
    countKey (canonNbrs s u) v = 0 := by
  rw [countKey_eq_zero_iff]
  intro p hp hpv
  have hm := mem_canonNbrs_iff.mp hp
  rw [hpv] at hm
  exact hm.2.1 h0

theorem nbrLookup_append_single_self (l : List (String × Int)) (v : String)
    (wt : Int) (h : nbrLookup l v = none) :
    nbrLookup (l ++ [(v, wt)]) v = some wt := by
  rw [nbrLookup_append, h]
  simp [nbrLookup]

theorem nbrLookup_append_single_ne (l : List (String × Int)) {x v : String}
    (wt : Int) (h : x ≠ v) : nbrLookup (l ++ [(v, wt)]) x = nbrLookup l x := by
  rw [nbrLookup_append]
  have hvx : ¬v = x := fun hh => h hh.symm
  cases hx : nbrLookup l x <;> simp [nbrLookup, hvx]

theorem countKey_append_single (l : List (String × Int)) (v x : String) (wt : Int) :
    countKey (l ++ [(v, wt)]) x = countKey l x + if v = x then 1 else 0 := by
  rw [countKey_append]
  simp [countKey, List.countP_cons]

theorem ALrel_addEdge (d : Bool) (s : SpecG) (g : GraphAdjacencyList)
    (u v : String) (wt : Int) (hi : SpecInv s) (hsym : d = false → SpecSym s)
    (hrel : ALrel s g) (hd : g.directed = d) (hwt : wt ≠ 0)
    (hself : d = false → u ≠ v) :
    ALrel (s.applyOp d (.addEdge u v wt)) (g.add_edge u v wt) := by
  have hkeys := hrel.1
  have hperm := hrel.2
  cases hlu : alookup g.adjacency_list u with
  | none =>
    have hu : u ∉ s.verts := by
      rw [← hkeys]
      exact (alookup_eq_none_iff _ _).mp hlu
    have hguard : ¬(u ∈ s.verts ∧ v ∈ s.verts) := fun h => hu h.1
    simp only [GraphAdjacencyList.add_edge, hlu, SpecG.applyOp, hguard, if_false]
    exact hrel
  | some lu =>
    cases hlv : alookup g.adjacency_list v with
    | none =>
      have hv : v ∉ s.verts := by
        rw [← hkeys]
        exact (alookup_eq_none_iff _ _).mp hlv
      have hguard : ¬(u ∈ s.verts ∧ v ∈ s.verts) := fun h => hv h.2
      simp only [GraphAdjacencyList.add_edge, hlu, hlv, SpecG.applyOp, hguard, if_false]
      exact hrel
    | some lv =>
      have hu : u ∈ s.verts := by
        rw [← hkeys]
        exact (alookup_isSome_iff _ _).mp (by rw [hlu]; rfl)
      have hv : v ∈ s.verts := by
        rw [← hkeys]
        exact (alookup_isSome_iff _ _).mp (by rw [hlv]; rfl)
      have hguard : u ∈ s.verts ∧ v ∈ s.verts := ⟨hu, hv⟩
      have hLu := ALrel_nbrLookup hi hrel hlu
      have hLv := ALrel_nbrLookup hi hrel hlv
      have hCu := ALrel_countKey hi hrel hlu
      have hCv := ALrel_countKey hi hrel hlv
      by_cases hex : (nbrLookup lu v).isSome
      · -- the edge already exists: update in place
        have hwuv : s.w u v ≠ 0 := by
          rw [hLu v] at hex
          by_cases hc : v ∈ s.verts ∧ s.w u v ≠ 0
          · exact hc.2
          · rw [if_neg hc] at hex
            exact absurd hex (by simp)
        cases d with
        | true =>
          simp only [GraphAdjacencyList.add_edge, hlu, hlv, hex, if_true,
            SpecG.applyOp, hguard, and_self, hd]
          refine ⟨by dsimp only; rw [akeys_aupdate]; exact hkeys, ?_⟩
          intro p l hl
          dsimp only at hl ⊢
          rw [alookup_aupdate] at hl
          by_cases hpu : p = u
          · rw [hpu] at hl ⊢
            rw [if_pos rfl, hlu] at hl
            simp only [Option.map_some'] at hl
            injection hl with hl
            rw [← hl]
            refine perm_canon_of_lookups ⟨s.verts, wset s.w u v wt⟩ u hi.1
              (fun x => ?_) (fun x => ?_)
            · rw [countKey_updFirst]
              exact hCu x
            · by_cases hxv : x = v
              · rw [hxv, nbrLookup_updFirst_self wt hex]
                dsimp only
                rw [if_pos ⟨hv, by rw [wset_same]; exact hwt⟩, wset_same]
              · rw [nbrLookup_updFirst_ne _ wt hxv, hLu x]
                dsimp only
                rw [wset_other _ _ (fun hh => hxv hh.2)]
          · rw [if_neg hpu] at hl
            have hc : canonNbrs ⟨s.verts, wset s.w u v wt⟩ p = canonNbrs s p :=
              canonNbrs_congr p rfl (fun x => wset_other _ _ (fun hh => hpu hh.1))
            rw [hc]
            exact hperm p l hl
        | false =>
          have hne : u ≠ v := hself rfl
          have hs := hsym rfl
          have hvu_some : (nbrLookup lv u).isSome := by
            rw [hLv u, if_pos ⟨hu, by rw [hs v u]; exact hwuv⟩]
            rfl
          simp only [GraphAdjacencyList.add_edge, hlu, hlv, hex, if_true,
            SpecG.applyOp, hguard, and_self, hd, Bool.false_eq_true, if_false]
          refine ⟨by dsimp only; rw [akeys_aupdate, akeys_aupdate]; exact hkeys, ?_⟩
          intro p l hl
          dsimp only at hl ⊢
          rw [alookup_aupdate] at hl
          by_cases hpv : p = v
          · rw [hpv] at hl ⊢
            rw [if_pos rfl, alookup_aupdate,
              if_neg (fun hh : v = u => hne hh.symm), hlv] at hl
            simp only [Option.map_some'] at hl
            injection hl with hl
            rw [← hl]
            refine perm_canon_of_lookups ⟨s.verts, wset (wset s.w u v wt) v u wt⟩ v
              hi.1 (fun x => ?_) (fun x => ?_)
            · rw [countKey_updFirst]
              exact hCv x
            · by_cases hxu : x = u
              · rw [hxu, nbrLookup_updFirst_self wt hvu_some]
                dsimp only
                rw [double_wset_eval, if_pos (Or.inl ⟨rfl, rfl⟩)]
                rw [if_pos ⟨hu, hwt⟩]
              · rw [nbrLookup_updFirst_ne _ wt hxu, hLv x]
                dsimp only
                have hw2 : wset (wset s.w u v wt) v u wt v x = s.w v x := by
                  rw [double_wset_eval, if_neg ?hc1]
                  case hc1 =>
                    rintro (⟨h1, h2⟩ | ⟨h1, h2⟩)
                    · exact hxu h2
                    · exact hne h1.symm
                rw [hw2]
          · rw [if_neg hpv, alookup_aupdate] at hl
            by_cases hpu : p = u
            · rw [hpu] at hl ⊢
              rw [if_pos rfl, hlu] at hl
              simp only [Option.map_some'] at hl
              injection hl with hl
              rw [← hl]
              refine perm_canon_of_lookups ⟨s.verts, wset (wset s.w u v wt) v u wt⟩
                u hi.1 (fun x => ?_) (fun x => ?_)
              · rw [countKey_updFirst]
                exact hCu x
              · by_cases hxv : x = v
                · rw [hxv, nbrLookup_updFirst_self wt hex]
                  dsimp only
                  have hw2 : wset (wset s.w u v wt) v u wt u v = wt := by
                    rw [double_wset_eval, if_pos (Or.inr ⟨rfl, rfl⟩)]
                  rw [hw2, if_pos ⟨hv, hwt⟩]
                · rw [nbrLookup_updFirst_ne _ wt hxv, hLu x]
                  dsimp only
                  have hw2 : wset (wset s.w u v wt) v u wt u x = s.w u x := by
                    rw [double_wset_eval, if_neg ?hc2]
                    case hc2 =>
                      rintro (⟨h1, h2⟩ | ⟨h1, h2⟩)
                      · exact hne h1
                      · exact hxv h2
                  rw [hw2]
            · rw [if_neg hpu] at hl
              have hc : canonNbrs ⟨s.verts, wset (wset s.w u v wt) v u wt⟩ p =
                  canonNbrs s p := by
                refine canonNbrs_congr p rfl (fun x => ?_)
                dsimp only
                rw [double_wset_eval, if_neg ?hc3]
                case hc3 =>
                  rintro (⟨h1, h2⟩ | ⟨h1, h2⟩)
                  · exact hpv h1
                  · exact hpu h1
              rw [hc]
              exact hperm p l hl
      · -- new edge: append
        have hw0 : s.w u v = 0 := by
          by_contra hnz
          rw [hLu v, if_pos ⟨hv, hnz⟩] at hex
          exact hex rfl
        have hlu_none : nbrLookup lu v = none := by
          rw [hLu v, if_neg (fun hc => hc.2 hw0)]
        cases d with
        | true =>
          simp only [GraphAdjacencyList.add_edge, hlu, hlv, hex, Bool.false_eq_true,
            if_false, SpecG.applyOp, hguard, and_self, if_true, hd]
          refine ⟨by dsimp only; rw [akeys_aupdate]; exact hkeys, ?_⟩
          intro p l hl
          dsimp only at hl ⊢
          rw [alookup_aupdate] at hl
          by_cases hpu : p = u
          · rw [hpu] at hl ⊢
            rw [if_pos rfl, hlu] at hl
            simp only [Option.map_some'] at hl
            injection hl with hl
            rw [← hl]
            refine perm_canon_of_lookups ⟨s.verts, wset s.w u v wt⟩ u hi.1
              (fun x => ?_) (fun x => ?_)
            · rw [countKey_append_single]
              by_cases hvx : v = x
              · rw [if_pos hvx]
                have hz : countKey lu x = 0 := by
                  rw [← hvx, countKey_perm (hperm u lu hlu)]
                  exact countKey_canonNbrs_eq_zero hw0
                omega
              · rw [if_neg hvx]
                have := hCu x
                omega
            · by_cases hxv : x = v
              · rw [hxv, nbrLookup_append_single_self _ _ _ hlu_none]
                dsimp only
                rw [if_pos ⟨hv, by rw [wset_same]; exact hwt⟩, wset_same]
              · rw [nbrLookup_append_single_ne _ wt hxv, hLu x]
                dsimp only
                rw [wset_other _ _ (fun hh => hxv hh.2)]
          · rw [if_neg hpu] at hl
            have hc : canonNbrs ⟨s.verts, wset s.w u v wt⟩ p = canonNbrs s p :=
              canonNbrs_congr p rfl (fun x => wset_other _ _ (fun hh => hpu hh.1))
            rw [hc]
            exact hperm p l hl
        | false =>
          have hne : u ≠ v := hself rfl
          have hs := hsym rfl
          have hw0' : s.w v u = 0 := by rw [hs v u]; exact hw0
          have hlv_none : nbrLookup lv u = none := by
            rw [hLv u, if_neg (fun hc => hc.2 hw0')]
          simp only [GraphAdjacencyList.add_edge, hlu, hlv, hex, Bool.false_eq_true,
            if_false, SpecG.applyOp, hguard, and_self, if_true, hd]
          refine ⟨by dsimp only; rw [akeys_aupdate, akeys_aupdate]; exact hkeys, ?_⟩
          intro p l hl
          dsimp only at hl ⊢
          rw [alookup_aupdate] at hl
          by_cases hpv : p = v
          · rw [hpv] at hl ⊢
            rw [if_pos rfl, alookup_aupdate,
              if_neg (fun hh : v = u => hne hh.symm), hlv] at hl
            simp only [Option.map_some'] at hl
            injection hl with hl
            rw [← hl]
            refine perm_canon_of_lookups ⟨s.verts, wset (wset s.w u v wt) v u wt⟩ v
              hi.1 (fun x => ?_) (fun x => ?_)
            · rw [countKey_append_single]
              by_cases hux : u = x
              · rw [if_pos hux]
                have hz : countKey lv x = 0 := by
                  rw [← hux, countKey_perm (hperm v lv hlv)]
                  exact countKey_canonNbrs_eq_zero hw0'
                omega
              · rw [if_neg hux]
                have := hCv x
                omega
            · by_cases hxu : x = u
              · rw [hxu, nbrLookup_append_single_self _ _ _ hlv_none]
                dsimp only
                rw [double_wset_eval, if_pos (Or.inl ⟨rfl, rfl⟩)]
                rw [if_pos ⟨hu, hwt⟩]
              · rw [nbrLookup_append_single_ne _ wt hxu, hLv x]
                dsimp only
                have hw2 : wset (wset s.w u v wt) v u wt v x = s.w v x := by
                  rw [double_wset_eval, if_neg ?hc4]
                  case hc4 =>
                    rintro (⟨h1, h2⟩ | ⟨h1, h2⟩)
                    · exact hxu h2
                    · exact hne h1.symm
                rw [hw2]
          · rw [if_neg hpv, alookup_aupdate] at hl
            by_cases hpu : p = u
            · rw [hpu] at hl ⊢
              rw [if_pos rfl, hlu] at hl
              simp only [Option.map_some'] at hl
              injection hl with hl
              rw [← hl]
              refine perm_canon_of_lookups ⟨s.verts, wset (wset s.w u v wt) v u wt⟩
                u hi.1 (fun x => ?_) (fun x => ?_)
              · rw [countKey_append_single]
                by_cases hvx : v = x
                · rw [if_pos hvx]
                  have hz : countKey lu x = 0 := by
                    rw [← hvx, countKey_perm (hperm u lu hlu)]
                    exact countKey_canonNbrs_eq_zero hw0
                  omega
                · rw [if_neg hvx]
                  have := hCu x
                  omega
              · by_cases hxv : x = v
                · rw [hxv, nbrLookup_append_single_self _ _ _ hlu_none]
                  dsimp only
                  have hw2 : wset (wset s.w u v wt) v u wt u v = wt := by
                    rw [double_wset_eval, if_pos (Or.inr ⟨rfl, rfl⟩)]
                  rw [hw2, if_pos ⟨hv, hwt⟩]
                · rw [nbrLookup_append_single_ne _ wt hxv, hLu x]
                  dsimp only
                  have hw2 : wset (wset s.w u v wt) v u wt u x = s.w u x := by
                    rw [double_wset_eval, if_neg ?hc5]
                    case hc5 =>
                      rintro (⟨h1, h2⟩ | ⟨h1, h2⟩)
                      · exact hne h1
                      · exact hxv h2
                  rw [hw2]
            · rw [if_neg hpu] at hl
              have hc : canonNbrs ⟨s.verts, wset (wset s.w u v wt) v u wt⟩ p =
                  canonNbrs s p := by
                refine canonNbrs_congr p rfl (fun x => ?_)
                dsimp only
                rw [double_wset_eval, if_neg ?hc6]
                case hc6 =>
                  rintro (⟨h1, h2⟩ | ⟨h1, h2⟩)
                  · exact hpv h1
                  · exact hpu h1
              rw [hc]
              exact hperm p l hl

theorem ALrel_removeEdge (d : Bool) (s : SpecG) (g : GraphAdjacencyList)
    (u v : String) (hi : SpecInv s) (hrel : ALrel s g) (hd : g.directed = d) :
    ALrel (s.applyOp d (.removeEdge u v)) (g.remove_edge u v) := by
  have hkeys := hrel.1
  have hperm := hrel.2
  cases hlu : alookup g.adjacency_list u with
  | none =>
    have hu : u ∉ s.verts := by
      rw [← hkeys]
      exact (alookup_eq_none_iff _ _).mp hlu
    have hguard : ¬(u ∈ s.verts ∧ v ∈ s.verts) := fun h => hu h.1
    simp only [GraphAdjacencyList.remove_edge, hlu, SpecG.applyOp, hguard, if_false]
    exact hrel
  | some lu =>
    cases hlv : alookup g.adjacency_list v with
    | none =>
      have hv : v ∉ s.verts := by
        rw [← hkeys]
        exact (alookup_eq_none_iff _ _).mp hlv
      have hguard : ¬(u ∈ s.verts ∧ v ∈ s.verts) := fun h => hv h.2
      simp only [GraphAdjacencyList.remove_edge, hlu, hlv, SpecG.applyOp, hguard,
        if_false]
      exact hrel
    | some lv =>
      have hu : u ∈ s.verts := by
        rw [← hkeys]
        exact (alookup_isSome_iff _ _).mp (by rw [hlu]; rfl)
      have hv : v ∈ s.verts := by
        rw [← hkeys]
        exact (alookup_isSome_iff _ _).mp (by rw [hlv]; rfl)
      have hguard : u ∈ s.verts ∧ v ∈ s.verts := ⟨hu, hv⟩
      have hLu := ALrel_nbrLookup hi hrel hlu
      have hLv := ALrel_nbrLookup hi hrel hlv
      have hCu := ALrel_countKey hi hrel hlu
      have hCv := ALrel_countKey hi hrel hlv
      cases d with
      | true =>
        simp only [GraphAdjacencyList.remove_edge, hlu, hlv, SpecG.applyOp, hguard,
          and_self, if_true, hd]
        refine ⟨by dsimp only; rw [akeys_aupdate]; exact hkeys, ?_⟩
        intro p l hl
        dsimp only at hl ⊢
        rw [alookup_aupdate] at hl
        by_cases hpu : p = u
        · rw [hpu] at hl ⊢
          rw [if_pos rfl, hlu] at hl
          simp only [Option.map_some'] at hl
          injection hl with hl
          rw [← hl]
          refine perm_canon_of_lookups ⟨s.verts, wset s.w u v 0⟩ u hi.1
            (fun x => ?_) (fun x => ?_)
          · by_cases hxv : x = v
            · rw [hxv, countKey_filter_self]
              omega
            · rw [countKey_filter_ne _ hxv]
              exact hCu x
          · by_cases hxv : x = v
            · rw [hxv, nbrLookup_filter_self]
              dsimp only
              rw [if_neg (fun hc => hc.2 (wset_same s.w u v 0))]
            · rw [nbrLookup_filter_ne _ hxv, hLu x]
              dsimp only
              rw [wset_other _ _ (fun hh => hxv hh.2)]
        · rw [if_neg hpu] at hl
          have hc : canonNbrs ⟨s.verts, wset s.w u v 0⟩ p = canonNbrs s p :=
            canonNbrs_congr p rfl (fun x => wset_other _ _ (fun hh => hpu hh.1))
          rw [hc]
          exact hperm p l hl
      | false =>
        simp only [GraphAdjacencyList.remove_edge, hlu, hlv, SpecG.applyOp, hguard,
          and_self, if_true, hd, Bool.false_eq_true, if_false]
        refine ⟨by dsimp only; rw [akeys_aupdate, akeys_aupdate]; exact hkeys, ?_⟩
        intro p l hl
        dsimp only at hl ⊢
        rw [alookup_aupdate] at hl
        by_cases hpv : p = v
        · rw [hpv] at hl ⊢
          rw [if_pos rfl, alookup_aupdate] at hl
          by_cases hvu : v = u
          · rw [if_pos hvu] at hl
            rw [hvu] at hl ⊢
            rw [hlu] at hl
            simp only [Option.map_some'] at hl
            injection hl with hl
            rw [← hl]
            refine perm_canon_of_lookups
              ⟨s.verts, wset (wset s.w u u 0) u u 0⟩ u hi.1
              (fun x => ?_) (fun x => ?_)
            · by_cases hxu : x = u
              · rw [hxu, countKey_filter_self]
                omega
              · rw [countKey_filter_ne _ hxu, countKey_filter_ne _ hxu]
                exact hCu x
            · by_cases hxu : x = u
              · rw [hxu, nbrLookup_filter_self]
                dsimp only
                rw [if_neg (fun hc => hc.2 (by
                  rw [double_wset_eval, if_pos (Or.inl ⟨rfl, rfl⟩)]))]
              · rw [nbrLookup_filter_ne _ hxu, nbrLookup_filter_ne _ hxu, hLu x]
                dsimp only
                have hw2 : wset (wset s.w u u 0) u u 0 u x = s.w u x := by
                  rw [double_wset_eval, if_neg ?hc0]
                  case hc0 =>
                    rintro (⟨h1, h2⟩ | ⟨h1, h2⟩) <;> exact hxu h2
                rw [hw2]
          · rw [if_neg hvu, hlv] at hl
            simp only [Option.map_some'] at hl
            injection hl with hl
            rw [← hl]
            refine perm_canon_of_lookups ⟨s.verts, wset (wset s.w u v 0) v u 0⟩ v
              hi.1 (fun x => ?_) (fun x => ?_)
            · by_cases hxu : x = u
              · rw [hxu, countKey_filter_self]
                omega
              · rw [countKey_filter_ne _ hxu]
                exact hCv x
            · by_cases hxu : x = u
              · rw [hxu, nbrLookup_filter_self]
                dsimp only
                rw [if_neg (fun hc => hc.2 (by
                  rw [double_wset_eval, if_pos (Or.inl ⟨rfl, rfl⟩)]))]
              · rw [nbrLookup_filter_ne _ hxu, hLv x]
                dsimp only
                have hw2 : wset (wset s.w u v 0) v u 0 v x = s.w v x := by
                  rw [double_wset_eval, if_neg ?hc7]
                  case hc7 =>
                    rintro (⟨h1, h2⟩ | ⟨h1, h2⟩)
                    · exact hxu h2
                    · exact hvu h1
                rw [hw2]
        · rw [if_neg hpv, alookup_aupdate] at hl
          by_cases hpu : p = u
          · rw [hpu] at hl ⊢
            rw [if_pos rfl, hlu] at hl
            simp only [Option.map_some'] at hl
            injection hl with hl
            rw [← hl]
            have hune : u ≠ v := fun hh => hpv (hpu.trans hh)
            refine perm_canon_of_lookups ⟨s.verts, wset (wset s.w u v 0) v u 0⟩ u
              hi.1 (fun x => ?_) (fun x => ?_)
            · by_cases hxv : x = v
              · rw [hxv, countKey_filter_self]
                omega
              · rw [countKey_filter_ne _ hxv]
                exact hCu x
            · by_cases hxv : x = v
              · rw [hxv, nbrLookup_filter_self]
                dsimp only
                rw [if_neg (fun hc => hc.2 (by
                  rw [double_wset_eval, if_pos (Or.inr ⟨rfl, rfl⟩)]))]
              · rw [nbrLookup_filter_ne _ hxv, hLu x]
                dsimp only
                have hw2 : wset (wset s.w u v 0) v u 0 u x = s.w u x := by
                  rw [double_wset_eval, if_neg ?hc8]
                  case hc8 =>
                    rintro (⟨h1, h2⟩ | ⟨h1, h2⟩)
                    · exact hune h1
                    · exact hxv h2
                rw [hw2]
          · rw [if_neg hpu] at hl
            have hc : canonNbrs ⟨s.verts, wset (wset s.w u v 0) v u 0⟩ p =
                canonNbrs s p := by
              refine canonNbrs_congr p rfl (fun x => ?_)
              dsimp only
              rw [double_wset_eval, if_neg ?hc9]
              case hc9 =>
                rintro (⟨h1, h2⟩ | ⟨h1, h2⟩)
                · exact hpv h1
                · exact hpu h1
            rw [hc]
            exact hperm p l hl

/-! ## Adjacency-matrix refinement -/

theorem map_getD_indexOf {β : Type} (verts : List String) (f : String → β)
    {v : String} (hv : v ∈ verts) (d : β) :
    (verts.map f).getD (verts.indexOf v) d = f v := by
  induction verts with
  | nil => cases hv
  | cons a rest ih =>
    by_cases hav : a = v
    · rw [hav, List.indexOf_cons_self]
      simp
    · have hv' : v ∈ rest := by
        rcases List.mem_cons.mp hv with h | h
        · exact absurd h.symm hav
        · exact h
      rw [List.indexOf_cons_ne _ hav]
      simp only [List.map_cons, List.getD_cons_succ]
      exact ih hv'

theorem map_vec_set {β : Type} (verts : List String) (f : String → β)
    {v : String} (hnd : verts.Nodup) (hv : v ∈ verts) (x : β) :
    (verts.map f).set (verts.indexOf v) x =
      verts.map (fun q => if q = v then x else f q) := by
  induction verts with
  | nil => cases hv
  | cons a rest ih =>
    by_cases hav : a = v
    · rw [hav, List.indexOf_cons_self]
      simp only [List.map_cons, List.set_cons_zero, if_pos rfl]
      have hvr : v ∉ rest := by
        rw [hav] at hnd
        exact (List.nodup_cons.mp hnd).1
      have : rest.map (fun q => if q = v then x else f q) = rest.map f :=
        List.map_congr_left (fun q hq => by
          rw [if_neg (fun hh : q = v => hvr (hh ▸ hq))])
      rw [this]
      simp
    · have hv' : v ∈ rest := by
        rcases List.mem_cons.mp hv with h | h
        · exact absurd h.symm hav
        · exact h
      rw [List.indexOf_cons_ne _ hav]
      simp only [List.map_cons, List.set_cons_succ, hav, if_false]
      rw [ih (List.nodup_cons.mp hnd).2 hv']

theorem table_set (verts : List String) (hnd : verts.Nodup) {u v : String}
    (hu : u ∈ verts) (hv : v ∈ verts) (F : String → String → Int) (x : Int) :
    (verts.map (fun p => verts.map (F p))).set (verts.indexOf u)
        (((verts.map (fun p => verts.map (F p))).getD (verts.indexOf u) []).set
          (verts.indexOf v) x) =
      verts.map (fun p => verts.map (fun q => wset F u v x p q)) := by
  rw [map_getD_indexOf _ _ hu, map_vec_set _ _ hnd hv, map_vec_set _ _ hnd hu]
  refine List.map_congr_left (fun p hp => ?_)
  by_cases hpu : p = u
  · rw [if_pos hpu, hpu]
    refine List.map_congr_left (fun q hq => ?_)
    by_cases hqv : q = v
    · rw [if_pos hqv, hqv, wset_same]
    · rw [if_neg hqv, wset_other _ _ (fun hh => hqv hh.2)]
  · rw [if_neg hpu]
    refine List.map_congr_left (fun q hq => ?_)
    rw [wset_other _ _ (fun hh => hpu hh.1)]

theorem AMrel_addVertex (d : Bool) (s : SpecG) (g : GraphAdjacencyMatrix)
    (v : String) (hi : SpecInv s) (hm : AMrel s g) :
    AMrel (s.applyOp d (.addVertex v)) (g.add_vertex v) := by
  obtain ⟨hverts, hmat⟩ := hm
  by_cases hv : v ∈ s.verts
  · have hvg : v ∈ g.vertices := by rw [hverts]; exact hv
    simpa [GraphAdjacencyMatrix.add_vertex, hvg, SpecG.applyOp, hv] using
      (⟨hverts, hmat⟩ : AMrel s g)
  · have hvg : v ∉ g.vertices := by rw [hverts]; exact hv
    simp only [GraphAdjacencyMatrix.add_vertex, hvg, if_false, SpecG.applyOp, hv]
    constructor
    · dsimp only
      rw [hverts]
    · dsimp only
      rw [hmat, hverts]
      rw [List.map_append, List.map_map]
      congr 1
      · refine List.map_congr_left (fun p hp => ?_)
        have hz : s.w p v = 0 := by
          by_contra hnz
          exact hv (hi.2 p v hnz).2
        simp only [Function.comp]
        rw [List.map_append]
        simp [hz]
      · simp only [List.map_cons, List.map_nil]
        congr 1
        symm
        rw [List.eq_replicate]
        constructor
        · simp
        · intro b hb
          rw [List.map_append] at hb
          rcases List.mem_append.mp hb with hb | hb
          · obtain ⟨q, hq, hbq⟩ := List.mem_map.mp hb
            rw [← hbq]
            by_contra hnz
            exact hv (hi.2 v q hnz).1
          · simp at hb
            by_contra hnz
            exact hv (hi.2 v v (fun hh => hnz (hb.trans hh))).1

theorem AMrel_addEdge (d : Bool) (s : SpecG) (g : GraphAdjacencyMatrix)
    (u v : String) (wt : Int) (hi : SpecInv s) (hm : AMrel s g)
    (hd : g.directed = d) :
    AMrel (s.applyOp d (.addEdge u v wt)) (g.add_edge u v wt) := by
  obtain ⟨hverts, hmat⟩ := hm
  by_cases hu : u ∈ s.verts
  · by_cases hv : v ∈ s.verts
    · have hug : u ∈ g.vertices := by rw [hverts]; exact hu
      have hvg : v ∈ g.vertices := by rw [hverts]; exact hv
      have hguard : u ∈ s.verts ∧ v ∈ s.verts := ⟨hu, hv⟩
      have h1 : g.matrix.set (g.vertices.indexOf u)
          ((g.matrix.getD (g.vertices.indexOf u) []).set (g.vertices.indexOf v) wt) =
          s.verts.map (fun p => s.verts.map (fun q => wset s.w u v wt p q)) := by
        rw [hmat, hverts]
        exact table_set s.verts hi.1 hu hv s.w wt
      cases d with
      | true =>
        simp only [GraphAdjacencyMatrix.add_edge, GraphAdjacencyMatrix.vertexIndex,
          hug, hvg, if_true, SpecG.applyOp, hguard, and_self, hd]
        exact ⟨hverts, h1⟩
      | false =>
        simp only [GraphAdjacencyMatrix.add_edge, GraphAdjacencyMatrix.vertexIndex,
          hug, hvg, if_true, SpecG.applyOp, hguard, and_self, hd,
          Bool.false_eq_true, if_false]
        refine ⟨hverts, ?_⟩
        dsimp only
        rw [h1, hverts]
        exact table_set s.verts hi.1 hv hu (fun p q => wset s.w u v wt p q) wt
    · have hvg : v ∉ g.vertices := by rw [hverts]; exact hv
      have hguard : ¬(u ∈ s.verts ∧ v ∈ s.verts) := fun h => hv h.2
      have hvi : GraphAdjacencyMatrix.vertexIndex g v = none := by
        simp [GraphAdjacencyMatrix.vertexIndex, hvg]
      simp only [GraphAdjacencyMatrix.add_edge, hvi, SpecG.applyOp, hguard, if_false]
      cases hui : GraphAdjacencyMatrix.vertexIndex g u <;> exact ⟨hverts, hmat⟩
  · have hug : u ∉ g.vertices := by rw [hverts]; exact hu
    have hguard : ¬(u ∈ s.verts ∧ v ∈ s.verts) := fun h => hu h.1
    have hui : GraphAdjacencyMatrix.vertexIndex g u = none := by
      simp [GraphAdjacencyMatrix.vertexIndex, hug]
    simp only [GraphAdjacencyMatrix.add_edge, hui, SpecG.applyOp, hguard, if_false]
    exact ⟨hverts, hmat⟩

theorem AMrel_removeEdge (d : Bool) (s : SpecG) (g : GraphAdjacencyMatrix)
    (u v : String) (hi : SpecInv s) (hm : AMrel s g) (hd : g.directed = d) :
    AMrel (s.applyOp d (.removeEdge u v)) (g.remove_edge u v) := by
  obtain ⟨hverts, hmat⟩ := hm
  by_cases hu : u ∈ s.verts
  · by_cases hv : v ∈ s.verts
    · have hug : u ∈ g.vertices := by rw [hverts]; exact hu
      have hvg : v ∈ g.vertices := by rw [hverts]; exact hv
      have hguard : u ∈ s.verts ∧ v ∈ s.verts := ⟨hu, hv⟩
      have h1 : g.matrix.set (g.vertices.indexOf u)
          ((g.matrix.getD (g.vertices.indexOf u) []).set (g.vertices.indexOf v) 0) =
          s.verts.map (fun p => s.verts.map (fun q => wset s.w u v 0 p q)) := by
        rw [hmat, hverts]
        exact table_set s.verts hi.1 hu hv s.w 0
      cases d with
      | true =>
        simp only [GraphAdjacencyMatrix.remove_edge, GraphAdjacencyMatrix.vertexIndex,
          hug, hvg, if_true, SpecG.applyOp, hguard, and_self, hd]
        exact ⟨hverts, h1⟩
      | false =>
        simp only [GraphAdjacencyMatrix.remove_edge, GraphAdjacencyMatrix.vertexIndex,
          hug, hvg, if_true, SpecG.applyOp, hguard, and_self, hd,
          Bool.false_eq_true, if_false]
        refine ⟨hverts, ?_⟩
        dsimp only
        rw [h1, hverts]
        exact table_set s.verts hi.1 hv hu (fun p q => wset s.w u v 0 p q) 0
    · have hvg : v ∉ g.vertices := by rw [hverts]; exact hv
      have hguard : ¬(u ∈ s.verts ∧ v ∈ s.verts) := fun h => hv h.2
      have hvi : GraphAdjacencyMatrix.vertexIndex g v = none := by
        simp [GraphAdjacencyMatrix.vertexIndex, hvg]
      simp only [GraphAdjacencyMatrix.remove_edge, hvi, SpecG.applyOp, hguard, if_false]
      cases hui : GraphAdjacencyMatrix.vertexIndex g u <;> exact ⟨hverts, hmat⟩
  · have hug : u ∉ g.vertices := by rw [hverts]; exact hu
    have hguard : ¬(u ∈ s.verts ∧ v ∈ s.verts) := fun h => hu h.1
    have hui : GraphAdjacencyMatrix.vertexIndex g u = none := by
      simp [GraphAdjacencyMatrix.vertexIndex, hug]
    simp only [GraphAdjacencyMatrix.remove_edge, hui, SpecG.applyOp, hguard, if_false]
    exact ⟨hverts, hmat⟩

/-! ## Running a whole operation sequence -/

theorem AL_applyOp_directed (g : GraphAdjacencyList) (op : GOp) :
    (g.applyOp op).directed = g.directed := by
  cases op <;>
    simp only [GraphAdjacencyList.applyOp, GraphAdjacencyList.add_vertex,
      GraphAdjacencyList.add_edge, GraphAdjacencyList.remove_edge] <;>
    (repeat' split) <;> rfl

theorem AM_applyOp_directed (g : GraphAdjacencyMatrix) (op : GOp) :
    (g.applyOp op).directed = g.directed := by
  cases op <;>
    simp only [GraphAdjacencyMatrix.applyOp, GraphAdjacencyMatrix.add_vertex,
      GraphAdjacencyMatrix.add_edge, GraphAdjacencyMatrix.remove_edge] <;>
    (repeat' split) <;> rfl

/-- Joint induction: the spec state, both representations and all invariants
track each other along any admissible operation sequence. -/
theorem tracks_foldl (d : Bool) (ops : List GOp) :
    ∀ (s : SpecG) (gl : GraphAdjacencyList) (gm : GraphAdjacencyMatrix),
    (∀ op ∈ ops, ∀ u v wt, op = GOp.addEdge u v wt → wt ≠ 0 ∧ (d = false → u ≠ v)) →
    SpecInv s → (d = false → SpecSym s) → ALrel s gl → AMrel s gm →
    gl.directed = d → gm.directed = d →
    SpecInv (List.foldl (SpecG.applyOp d) s ops) ∧
    (d = false → SpecSym (List.foldl (SpecG.applyOp d) s ops)) ∧
    ALrel (List.foldl (SpecG.applyOp d) s ops)
      (List.foldl GraphAdjacencyList.applyOp gl ops) ∧
    AMrel (List.foldl (SpecG.applyOp d) s ops)
      (List.foldl GraphAdjacencyMatrix.applyOp gm ops) ∧
    (List.foldl GraphAdjacencyList.applyOp gl ops).directed = d ∧
    (List.foldl GraphAdjacencyMatrix.applyOp gm ops).directed = d := by
  induction ops with
  | nil =>
    intro s gl gm _ h1 h2 h3 h4 h5 h6
    exact ⟨h1, h2, h3, h4, h5, h6⟩
  | cons op rest ih =>
    intro s gl gm hok h1 h2 h3 h4 h5 h6
    simp only [List.foldl_cons]
    have hokr : ∀ o ∈ rest, ∀ u v wt, o = GOp.addEdge u v wt →
        wt ≠ 0 ∧ (d = false → u ≠ v) :=
      fun o ho => hok o (List.mem_cons_of_mem _ ho)
    have h1' : SpecInv (s.applyOp d op) := SpecInv_applyOp d s op h1
    have h2' : d = false → SpecSym (s.applyOp d op) := by
      intro hdf
      rw [hdf] at h2 ⊢
      exact SpecSym_applyOp s op (h2 rfl)
    have h3' : ALrel (s.applyOp d op) (gl.applyOp op) := by
      cases op with
      | addVertex v => exact ALrel_addVertex d s gl v h1 h3
      | addEdge u v wt =>
        have hcond := hok _ (List.mem_cons_self _ _) u v wt rfl
        exact ALrel_addEdge d s gl u v wt h1 h2 h3 h5 hcond.1 hcond.2
      | removeEdge u v => exact ALrel_removeEdge d s gl u v h1 h3 h5
    have h4' : AMrel (s.applyOp d op) (gm.applyOp op) := by
      cases op with
      | addVertex v => exact AMrel_addVertex d s gm v h1 h4
      | addEdge u v wt => exact AMrel_addEdge d s gm u v wt h1 h4 h6
      | removeEdge u v => exact AMrel_removeEdge d s gm u v h1 h4 h6
    exact ih (s.applyOp d op) (gl.applyOp op) (gm.applyOp op) hokr h1' h2' h3' h4'
      (by rw [AL_applyOp_directed]; exact h5)
      (by rw [AM_applyOp_directed]; exact h6)

theorem okEdgeOps_conditions {d : Bool} {ops : List GOp}
    (hok : okEdgeOps d ops = true) :
    ∀ op ∈ ops, ∀ u v wt, op = GOp.addEdge u v wt →
      wt ≠ 0 ∧ (d = false → u ≠ v) := by
  intro op hop u v wt heq
  rw [okEdgeOps, List.all_eq_true] at hok
  have := hok op hop
  rw [heq] at this
  simp only [Bool.and_eq_true, Bool.or_eq_true, decide_eq_true_eq] at this
  refine ⟨this.1, fun hdf => ?_⟩
  rcases this.2 with h | h
  · rw [hdf] at h
    cases h
  · exact h

theorem tracks_runOps (d wt : Bool) (ops : List GOp)
    (hok : okEdgeOps d ops = true) :
    SpecInv (SpecG.runOps d ops) ∧
    (d = false → SpecSym (SpecG.runOps d ops)) ∧
    ALrel (SpecG.runOps d ops) (GraphAdjacencyList.runOps d wt ops) ∧
    AMrel (SpecG.runOps d ops) (GraphAdjacencyMatrix.runOps d wt ops) ∧
    (GraphAdjacencyList.runOps d wt ops).directed = d ∧
    (GraphAdjacencyMatrix.runOps d wt ops).directed = d := by
  refine tracks_foldl d ops ⟨[], fun _ _ => 0⟩
    (GraphAdjacencyList.empty d wt) (GraphAdjacencyMatrix.empty d wt)
    (okEdgeOps_conditions hok) ?_ ?_ ?_ ?_ rfl rfl
  · exact ⟨List.nodup_nil, fun a b hab => absurd rfl hab⟩
  · intro _
    exact fun a b => rfl
  · exact ⟨rfl, fun u l hl => by simp [alookup] at hl⟩
  · exact ⟨rfl, rfl⟩

/-! ## Observable agreement between the representations -/

theorem AL_weight_spec {s : SpecG} {g : GraphAdjacencyList} (hi : SpecInv s)
    (hrel : ALrel s g) (u v : String) :
    g.get_edge_weight u v =
      if u ∈ s.verts ∧ v ∈ s.verts ∧ s.w u v ≠ 0 then some (s.w u v) else none := by
  unfold GraphAdjacencyList.get_edge_weight
  cases hlu : alookup g.adjacency_list u with
  | none =>
    have hu : u ∉ s.verts := by
      rw [← hrel.1]
      exact (alookup_eq_none_iff _ _).mp hlu
    rw [if_neg (fun hc => hu hc.1)]
  | some l =>
    have hu : u ∈ s.verts := by
      rw [← hrel.1]
      exact (alookup_isSome_iff _ _).mp (by rw [hlu]; rfl)
    show nbrLookup l v = _
    rw [ALrel_nbrLookup hi hrel hlu v]
    by_cases hc : v ∈ s.verts ∧ s.w u v ≠ 0
    · rw [if_pos hc, if_pos ⟨hu, hc⟩]
    · rw [if_neg hc, if_neg (fun hc2 => hc ⟨hc2.2.1, hc2.2.2⟩)]

theorem AL_has_edge_eq_isSome (g : GraphAdjacencyList) (u v : String) :
    g.has_edge u v = (g.get_edge_weight u v).isSome := by
  unfold GraphAdjacencyList.has_edge GraphAdjacencyList.get_edge_weight
  cases alookup g.adjacency_list u <;> rfl

theorem AM_weight_spec {s : SpecG} {g : GraphAdjacencyMatrix} (hi : SpecInv s)
    (hm : AMrel s g) (u v : String) :
    g.get_edge_weight u v =
      if u ∈ s.verts ∧ v ∈ s.verts ∧ s.w u v ≠ 0 then some (s.w u v) else none := by
  obtain ⟨hverts, hmat⟩ := hm
  by_cases hu : u ∈ s.verts
  · by_cases hv : v ∈ s.verts
    · have hug : u ∈ g.vertices := by rw [hverts]; exact hu
      have hvg : v ∈ g.vertices := by rw [hverts]; exact hv
      have hcell : g.cell (g.vertices.indexOf u) (g.vertices.indexOf v) = s.w u v := by
        unfold GraphAdjacencyMatrix.cell
        rw [hmat, hverts, map_getD_indexOf _ _ hu, map_getD_indexOf _ _ hv]
      by_cases h0 : s.w u v = 0
      · have hhe : g.has_edge u v = false := by
          unfold GraphAdjacencyMatrix.has_edge GraphAdjacencyMatrix.vertexIndex
          simp only [hug, hvg, if_true]
          rw [hcell, h0]
          simp
        unfold GraphAdjacencyMatrix.get_edge_weight
        rw [hhe, if_neg Bool.false_ne_true, if_neg (fun hc => hc.2.2 h0)]
      · have hhe : g.has_edge u v = true := by
          unfold GraphAdjacencyMatrix.has_edge GraphAdjacencyMatrix.vertexIndex
          simp only [hug, hvg, if_true]
          rw [hcell]
          simpa using h0
        unfold GraphAdjacencyMatrix.get_edge_weight
        rw [hhe, if_pos rfl]
        unfold GraphAdjacencyMatrix.vertexIndex
        simp only [hug, hvg, if_true]
        show some (g.cell (g.vertices.indexOf u) (g.vertices.indexOf v)) = _
        rw [hcell, if_pos ⟨hu, hv, h0⟩]
    · have hvg : v ∉ g.vertices := by rw [hverts]; exact hv
      have hvi : GraphAdjacencyMatrix.vertexIndex g v = none := by
        simp [GraphAdjacencyMatrix.vertexIndex, hvg]
      have hhe : g.has_edge u v = false := by
        unfold GraphAdjacencyMatrix.has_edge
        rw [hvi]
        cases GraphAdjacencyMatrix.vertexIndex g u <;> rfl
      unfold GraphAdjacencyMatrix.get_edge_weight
      rw [hhe, if_neg Bool.false_ne_true, if_neg (fun hc => hv hc.2.1)]
  · have hug : u ∉ g.vertices := by rw [hverts]; exact hu
    have hui : GraphAdjacencyMatrix.vertexIndex g u = none := by
      simp [GraphAdjacencyMatrix.vertexIndex, hug]
    have hhe : g.has_edge u v = false := by
      unfold GraphAdjacencyMatrix.has_edge
      rw [hui]
    unfold GraphAdjacencyMatrix.get_edge_weight
    rw [hhe, if_neg Bool.false_ne_true, if_neg (fun hc => hu hc.1)]

theorem AM_has_edge_eq_isSome (g : GraphAdjacencyMatrix) (u v : String) :
    g.has_edge u v = (g.get_edge_weight u v).isSome := by
  unfold GraphAdjacencyMatrix.get_edge_weight
  cases hb : g.has_edge u v
  · rw [if_neg Bool.false_ne_true]
    rfl
  · rw [if_pos rfl]
    unfold GraphAdjacencyMatrix.has_edge at hb
    cases hui : GraphAdjacencyMatrix.vertexIndex g u with
    | none =>
      rw [hui] at hb
      exact Bool.noConfusion hb
    | some fi =>
      cases hvi : GraphAdjacencyMatrix.vertexIndex g v with
      | none =>
        rw [hui, hvi] at hb
        exact Bool.noConfusion hb
      | some ti => rfl

theorem assoc_map_len (adj : List (String × List (String × Int)))
    (f : String → Nat) (hnd : (akeys adj).Nodup)
    (h : ∀ u l, alookup adj u = some l → l.length = f u) :
    adj.map (fun p => p.2.length) = (akeys adj).map f := by
  induction adj with
  | nil => rfl
  | cons p rest ih =>
    obtain ⟨k, l⟩ := p
    have hk : alookup ((k, l) :: rest) k = some l := by simp [alookup]
    have hhead : l.length = f k := h k l hk
    have hnd2 : (k :: akeys rest).Nodup := by
      simpa only [akeys, List.map_cons] using hnd
    have hknr : k ∉ akeys rest := (List.nodup_cons.mp hnd2).1
    have hnd' : (akeys rest).Nodup := (List.nodup_cons.mp hnd2).2
    have hrest : ∀ u l2, alookup rest u = some l2 → l2.length = f u := by
      intro u l2 hl2
      by_cases hku : k = u
      · exfalso
        rw [← hku] at hl2
        have hsome : (alookup rest k).isSome := by rw [hl2]; rfl
        exact hknr ((alookup_isSome_iff _ _).mp hsome)
      · refine h u l2 ?_
        simp [alookup, hku, hl2]
    simp only [akeys, List.map_cons] at ih ⊢
    rw [hhead, ih hnd' hrest]

theorem AL_edge_sum_spec {s : SpecG} {g : GraphAdjacencyList} (hi : SpecInv s)
    (hrel : ALrel s g) :
    (g.adjacency_list.map (fun p => p.2.length)).sum =
      ((s.verts.map (fun p => s.verts.countP (fun q => decide (¬s.w p q = 0)))).sum) := by
  have hnd : (akeys g.adjacency_list).Nodup := by rw [hrel.1]; exact hi.1
  have h := assoc_map_len g.adjacency_list
    (fun u => s.verts.countP (fun q => decide (¬s.w u q = 0))) hnd
    (fun u l hl => by
      rw [(hrel.2 u l hl).length_eq, canonNbrs_length])
  rw [h, hrel.1]

theorem AM_edge_sum_spec {s : SpecG} {g : GraphAdjacencyMatrix} (hm : AMrel s g) :
    (g.matrix.map (fun row => row.countP (fun w => decide (w ≠ 0)))).sum =
      ((s.verts.map (fun p => s.verts.countP (fun q => decide (¬s.w p q = 0)))).sum) := by
  rw [hm.2, List.map_map]
  congr 1
  refine List.map_congr_left (fun p hp => ?_)
  simp only [Function.comp]
  rw [List.countP_map]
  rfl

/-! ## C1: interchangeability of the two representations (corrected) -/

/-- C1 counterexample: the claim as stated fails for edges added with weight
0 (stored by the list, invisible to the matrix) and for undirected self-loops
(duplicated by the list, so the edge counts diverge). -/
theorem representations_disagree_weight_zero :
    ((GraphAdjacencyList.runOps false true
        [.addVertex "A", .addVertex "B", .addEdge "A" "B" 0]).has_edge "A" "B" = true ∧
      (GraphAdjacencyMatrix.runOps false true
        [.addVertex "A", .addVertex "B", .addEdge "A" "B" 0]).has_edge "A" "B" = false) ∧
    ((GraphAdjacencyList.runOps false true
        [.addVertex "A", .addEdge "A" "A" 5]).get_edge_count = 1 ∧
      (GraphAdjacencyMatrix.runOps false true
        [.addVertex "A", .addEdge "A" "A" 5]).get_edge_count = 0) := by
  decide

/-- C1 (amended): for every sequence of addVertex/addEdge/removeEdge
operations in which every addEdge carries a nonzero weight and no self-loop
is added to an undirected graph, the two storage representations built with
the same flags agree on hasEdge, getEdgeWeight, getVertexCount and
getEdgeCount, for every pair of vertices. -/
theorem representations_interchangeable (d wt : Bool) (ops : List GOp)
    (hok : okEdgeOps d ops = true) (u v : String) :
    (GraphAdjacencyList.runOps d wt ops).has_edge u v =
      (GraphAdjacencyMatrix.runOps d wt ops).has_edge u v ∧
    (GraphAdjacencyList.runOps d wt ops).get_edge_weight u v =
      (GraphAdjacencyMatrix.runOps d wt ops).get_edge_weight u v ∧
    (GraphAdjacencyList.runOps d wt ops).get_vertex_count =
      (GraphAdjacencyMatrix.runOps d wt ops).get_vertex_count ∧
    (GraphAdjacencyList.runOps d wt ops).get_edge_count =
      (GraphAdjacencyMatrix.runOps d wt ops).get_edge_count := by
  obtain ⟨hi, hsym, hal, ham, hdl, hdm⟩ := tracks_runOps d wt ops hok
  have hw : (GraphAdjacencyList.runOps d wt ops).get_edge_weight u v =
      (GraphAdjacencyMatrix.runOps d wt ops).get_edge_weight u v := by
    rw [AL_weight_spec hi hal, AM_weight_spec hi ham]
  refine ⟨?_, hw, ?_, ?_⟩
  · rw [AL_has_edge_eq_isSome, AM_has_edge_eq_isSome, hw]
  · unfold GraphAdjacencyList.get_vertex_count GraphAdjacencyMatrix.get_vertex_count
    have h1 : (GraphAdjacencyList.runOps d wt ops).adjacency_list.length =
        (SpecG.runOps d ops).verts.length := by
      rw [← hal.1]
      simp [akeys]
    rw [h1, ham.1]
  · unfold GraphAdjacencyList.get_edge_count GraphAdjacencyMatrix.get_edge_count
    rw [AL_edge_sum_spec hi hal, AM_edge_sum_spec ham, hdl, hdm]

/-- Witness for `representations_interchangeable` on a concrete run. -/
theorem representations_interchangeable_witness :
    okEdgeOps false [.addVertex "A", .addVertex "B", .addEdge "A" "B" 3] = true ∧
    ((GraphAdjacencyList.runOps false true
        [.addVertex "A", .addVertex "B", .addEdge "A" "B" 3]).has_edge "A" "B" =
      (GraphAdjacencyMatrix.runOps false true
        [.addVertex "A", .addVertex "B", .addEdge "A" "B" 3]).has_edge "A" "B") := by
  refine ⟨?_, ?_⟩
  · decide
  · exact (representations_interchangeable false true
      [.addVertex "A", .addVertex "B", .addEdge "A" "B" 3] (by decide) "A" "B").1


/-! ## C2: the mirror invariant on undirected graphs -/

theorem AL_weight_add_vertex (g : GraphAdjacencyList) (x u v : String) :
    (g.add_vertex x).get_edge_weight u v = g.get_edge_weight u v := by
  unfold GraphAdjacencyList.add_vertex
  by_cases hx : (alookup g.adjacency_list x).isSome
  · rw [if_pos hx]
  · rw [if_neg hx]
    unfold GraphAdjacencyList.get_edge_weight
    dsimp only
    cases hu : alookup g.adjacency_list u with
    | some l => rw [alookup_append_left _ hu]
    | none =>
      rw [alookup_append_right _ hu]
      by_cases hxu : x = u
      · subst hxu
        simp [alookup, nbrLookup]
      · simp [alookup, hxu]

theorem AL_weight_add_edge (g : GraphAdjacencyList) {a b : String} (w : Int)
    {fa fb : List (String × Int)}
    (ha : alookup g.adjacency_list a = some fa)
    (hb : alookup g.adjacency_list b = some fb)
    (hd : g.directed = false) (hsym : ALsym g) (u v : String) :
    (g.add_edge a b w).get_edge_weight u v =
      if (u = a ∧ v = b) ∨ (u = b ∧ v = a) then some w
      else g.get_edge_weight u v := by
  have hwab : g.get_edge_weight a b = nbrLookup fa b := by
    unfold GraphAdjacencyList.get_edge_weight
    rw [ha]
  have hwba : g.get_edge_weight b a = nbrLookup fb a := by
    unfold GraphAdjacencyList.get_edge_weight
    rw [hb]
  have hmirror : nbrLookup fa b = nbrLookup fb a := by
    rw [← hwab, ← hwba]
    exact hsym a b
  simp only [GraphAdjacencyList.add_edge, ha, hb]
  by_cases he : (nbrLookup fa b).isSome
  · have hmb : (nbrLookup fb a).isSome := by rw [← hmirror]; exact he
    rw [if_pos he, hd, if_neg Bool.false_ne_true]
    unfold GraphAdjacencyList.get_edge_weight
    dsimp only
    rw [alookup_aupdate, alookup_aupdate, alookup_aupdate, ha, hb]
    by_cases hub : u = b
    · by_cases hba : b = a
      · have hfab : fb = fa := by
          rw [hba, ha] at hb
          exact (Option.some.inj hb).symm
        rw [hba] at he hub
        rw [hfab, hub, hba, if_pos rfl, if_pos rfl, Option.map_map]
        by_cases hva : v = a
        · rw [hva, if_pos (Or.inl ⟨rfl, rfl⟩)]
          show nbrLookup (updFirst (updFirst fa a w) a w) a = some w
          refine nbrLookup_updFirst_self w ?_
          rw [nbrLookup_updFirst_self w he]
          rfl
        · rw [if_neg (fun h => h.elim (fun hh => hva hh.2) (fun hh => hva hh.2)), ha]
          show nbrLookup (updFirst (updFirst fa a w) a w) v = nbrLookup fa v
          rw [nbrLookup_updFirst_ne _ w hva, nbrLookup_updFirst_ne _ w hva]
      · rw [hub, if_pos rfl, if_neg hba]
        by_cases hva : v = a
        · rw [hva, if_pos (Or.inr ⟨rfl, rfl⟩)]
          show nbrLookup (updFirst fb a w) a = some w
          exact nbrLookup_updFirst_self w hmb
        · rw [if_neg (fun h => h.elim (fun hh => hba hh.1) (fun hh => hva hh.2)), hb]
          show nbrLookup (updFirst fb a w) v = nbrLookup fb v
          exact nbrLookup_updFirst_ne _ w hva
    · rw [if_neg hub]
      by_cases hua : u = a
      · have hab : ¬a = b := fun hh => hub (hua.trans hh)
        rw [hua, if_pos rfl]
        by_cases hvb : v = b
        · rw [hvb, if_pos (Or.inl ⟨rfl, rfl⟩)]
          show nbrLookup (updFirst fa b w) b = some w
          exact nbrLookup_updFirst_self w he
        · rw [if_neg (fun h => h.elim (fun hh => hvb hh.2) (fun hh => hab hh.1)), ha]
          show nbrLookup (updFirst fa b w) v = nbrLookup fa v
          exact nbrLookup_updFirst_ne _ w hvb
      · rw [if_neg hua,
          if_neg (fun h => h.elim (fun hh => hua hh.1) (fun hh => hub hh.1))]
  · have hnone : nbrLookup fa b = none := by
      cases h : nbrLookup fa b with
      | none => rfl
      | some x => exact absurd (by rw [h]; rfl) he
    have hmbn : nbrLookup fb a = none := by rw [← hmirror]; exact hnone
    rw [if_neg he, hd, if_neg Bool.false_ne_true]
    unfold GraphAdjacencyList.get_edge_weight
    dsimp only
    rw [alookup_aupdate, alookup_aupdate, alookup_aupdate, ha, hb]
    by_cases hub : u = b
    · by_cases hba : b = a
      · have hfab : fb = fa := by
          rw [hba, ha] at hb
          exact (Option.some.inj hb).symm
        rw [hba] at hnone hub
        rw [hfab, hub, hba, if_pos rfl, if_pos rfl, Option.map_map]
        by_cases hva : v = a
        · rw [hva, if_pos (Or.inl ⟨rfl, rfl⟩)]
          show nbrLookup ((fa ++ [(a, w)]) ++ [(a, w)]) a = some w
          rw [nbrLookup_append, nbrLookup_append_single_self _ _ _ hnone]
        · rw [if_neg (fun h => h.elim (fun hh => hva hh.2) (fun hh => hva hh.2)), ha]
          show nbrLookup ((fa ++ [(a, w)]) ++ [(a, w)]) v = nbrLookup fa v
          rw [nbrLookup_append_single_ne _ w hva, nbrLookup_append_single_ne _ w hva]
      · rw [hub, if_pos rfl, if_neg hba]
        by_cases hva : v = a
        · rw [hva, if_pos (Or.inr ⟨rfl, rfl⟩)]
          show nbrLookup (fb ++ [(a, w)]) a = some w
          exact nbrLookup_append_single_self _ _ _ hmbn
        · rw [if_neg (fun h => h.elim (fun hh => hba hh.1) (fun hh => hva hh.2)), hb]
          show nbrLookup (fb ++ [(a, w)]) v = nbrLookup fb v
          exact nbrLookup_append_single_ne _ w hva
    · rw [if_neg hub]
      by_cases hua : u = a
      · have hab : ¬a = b := fun hh => hub (hua.trans hh)
        rw [hua, if_pos rfl]
        by_cases hvb : v = b
        · rw [hvb, if_pos (Or.inl ⟨rfl, rfl⟩)]
          show nbrLookup (fa ++ [(b, w)]) b = some w
          exact nbrLookup_append_single_self _ _ _ hnone
        · rw [if_neg (fun h => h.elim (fun hh => hvb hh.2) (fun hh => hab hh.1)), ha]
          show nbrLookup (fa ++ [(b, w)]) v = nbrLookup fa v
          exact nbrLookup_append_single_ne _ w hvb
      · rw [if_neg hua,
          if_neg (fun h => h.elim (fun hh => hua hh.1) (fun hh => hub hh.1))]

theorem AL_weight_remove_edge (g : GraphAdjacencyList) {a b : String}
    {fa fb : List (String × Int)}
    (ha : alookup g.adjacency_list a = some fa)
    (hb : alookup g.adjacency_list b = some fb)
    (hd : g.directed = false) (u v : String) :
    (g.remove_edge a b).get_edge_weight u v =
      if (u = a ∧ v = b) ∨ (u = b ∧ v = a) then none
      else g.get_edge_weight u v := by
  simp only [GraphAdjacencyList.remove_edge, ha, hb]
  rw [hd, if_neg Bool.false_ne_true]
  unfold GraphAdjacencyList.get_edge_weight
  dsimp only
  rw [alookup_aupdate, alookup_aupdate, alookup_aupdate, ha, hb]
  by_cases hub : u = b
  · by_cases hba : b = a
    · have hfab : fb = fa := by
        rw [hba, ha] at hb
        exact (Option.some.inj hb).symm
      rw [hba] at hub
      rw [hfab, hub, hba, if_pos rfl, if_pos rfl, Option.map_map]
      by_cases hva : v = a
      · rw [hva, if_pos (Or.inl ⟨rfl, rfl⟩)]
        show nbrLookup ((fa.filter (fun p => p.1 ≠ a)).filter (fun p => p.1 ≠ a)) a = none
        exact nbrLookup_filter_self _ a
      · rw [if_neg (fun h => h.elim (fun hh => hva hh.2) (fun hh => hva hh.2)), ha]
        show nbrLookup ((fa.filter (fun p => p.1 ≠ a)).filter (fun p => p.1 ≠ a)) v
            = nbrLookup fa v
        rw [nbrLookup_filter_ne _ hva, nbrLookup_filter_ne _ hva]
    · rw [hub, if_pos rfl, if_neg hba]
      by_cases hva : v = a
      · rw [hva, if_pos (Or.inr ⟨rfl, rfl⟩)]
        show nbrLookup (fb.filter (fun p => p.1 ≠ a)) a = none
        exact nbrLookup_filter_self _ a
      · rw [if_neg (fun h => h.elim (fun hh => hba hh.1) (fun hh => hva hh.2)), hb]
        show nbrLookup (fb.filter (fun p => p.1 ≠ a)) v = nbrLookup fb v
        exact nbrLookup_filter_ne _ hva
  · rw [if_neg hub]
    by_cases hua : u = a
    · have hab : ¬a = b := fun hh => hub (hua.trans hh)
      rw [hua, if_pos rfl]
      by_cases hvb : v = b
      · rw [hvb, if_pos (Or.inl ⟨rfl, rfl⟩)]
        show nbrLookup (fa.filter (fun p => p.1 ≠ b)) b = none
        exact nbrLookup_filter_self _ b
      · rw [if_neg (fun h => h.elim (fun hh => hvb hh.2) (fun hh => hab hh.1)), ha]
        show nbrLookup (fa.filter (fun p => p.1 ≠ b)) v = nbrLookup fa v
        exact nbrLookup_filter_ne _ hvb
    · rw [if_neg hua,
        if_neg (fun h => h.elim (fun hh => hua hh.1) (fun hh => hub hh.1))]

theorem ALsym_applyOp (g : GraphAdjacencyList) (op : GOp)
    (hd : g.directed = false) (hsym : ALsym g) : ALsym (g.applyOp op) := by
  cases op with
  | addVertex x =>
    intro u v
    show (g.add_vertex x).get_edge_weight u v = (g.add_vertex x).get_edge_weight v u
    rw [AL_weight_add_vertex, AL_weight_add_vertex]
    exact hsym u v
  | addEdge a b w =>
    intro u v
    show (g.add_edge a b w).get_edge_weight u v = (g.add_edge a b w).get_edge_weight v u
    cases ha : alookup g.adjacency_list a with
    | none =>
      have hid : g.add_edge a b w = g := by
        simp only [GraphAdjacencyList.add_edge, ha]
      rw [hid]
      exact hsym u v
    | some fa =>
      cases hb : alookup g.adjacency_list b with
      | none =>
        have hid : g.add_edge a b w = g := by
          simp only [GraphAdjacencyList.add_edge, ha, hb]
        rw [hid]
        exact hsym u v
      | some fb =>
        rw [AL_weight_add_edge g w ha hb hd hsym u v,
          AL_weight_add_edge g w ha hb hd hsym v u]
        by_cases h1 : (u = a ∧ v = b) ∨ (u = b ∧ v = a)
        · rw [if_pos h1, if_pos (h1.elim (fun hh => Or.inr ⟨hh.2, hh.1⟩)
            (fun hh => Or.inl ⟨hh.2, hh.1⟩))]
        · rw [if_neg h1, if_neg (fun h => h1 (h.elim (fun hh => Or.inr ⟨hh.2, hh.1⟩)
            (fun hh => Or.inl ⟨hh.2, hh.1⟩)))]
          exact hsym u v
  | removeEdge a b =>
    intro u v
    show (g.remove_edge a b).get_edge_weight u v = (g.remove_edge a b).get_edge_weight v u
    cases ha : alookup g.adjacency_list a with
    | none =>
      have hid : g.remove_edge a b = g := by
        simp only [GraphAdjacencyList.remove_edge, ha]
      rw [hid]
      exact hsym u v
    | some fa =>
      cases hb : alookup g.adjacency_list b with
      | none =>
        have hid : g.remove_edge a b = g := by
          simp only [GraphAdjacencyList.remove_edge, ha, hb]
        rw [hid]
        exact hsym u v
      | some fb =>
        rw [AL_weight_remove_edge g ha hb hd u v, AL_weight_remove_edge g ha hb hd v u]
        by_cases h1 : (u = a ∧ v = b) ∨ (u = b ∧ v = a)
        · rw [if_pos h1, if_pos (h1.elim (fun hh => Or.inr ⟨hh.2, hh.1⟩)
            (fun hh => Or.inl ⟨hh.2, hh.1⟩))]
        · rw [if_neg h1, if_neg (fun h => h1 (h.elim (fun hh => Or.inr ⟨hh.2, hh.1⟩)
            (fun hh => Or.inl ⟨hh.2, hh.1⟩)))]
          exact hsym u v

theorem ALsym_foldl (ops : List GOp) : ∀ g : GraphAdjacencyList,
    g.directed = false → ALsym g →
    ALsym (ops.foldl GraphAdjacencyList.applyOp g) := by
  induction ops with
  | nil => intro g _ hs; exact hs
  | cons op rest ih =>
    intro g hd hs
    exact ih _ (by rw [AL_applyOp_directed]; exact hd) (ALsym_applyOp g op hd hs)


theorem list_getD_append {α : Type} (l1 l2 : List α) (d : α) :
    ∀ i, (l1 ++ l2).getD i d =
      if i < l1.length then l1.getD i d else l2.getD (i - l1.length) d := by
  induction l1 with
  | nil => intro i; simp
  | cons a t ih =>
    intro i
    cases i with
    | zero => simp
    | succ k =>
      simp only [List.cons_append, List.getD_cons_succ, ih k, List.length_cons,
        Nat.succ_lt_succ_iff, Nat.succ_sub_succ]

theorem list_getD_set_self {α : Type} (l : List α) (i : Nat) (x d : α)
    (h : i < l.length) : (l.set i x).getD i d = x := by
  induction l generalizing i with
  | nil => simp at h
  | cons a t ih =>
    cases i with
    | zero => rfl
    | succ k =>
      simp only [List.set, List.getD_cons_succ]
      exact ih k (by simpa using h)

theorem list_getD_set_ne {α : Type} (l : List α) {i j : Nat} (x d : α)
    (h : i ≠ j) : (l.set i x).getD j d = l.getD j d := by
  induction l generalizing i j with
  | nil => simp
  | cons a t ih =>
    cases i with
    | zero =>
      cases j with
      | zero => exact absurd rfl h
      | succ m => rfl
    | succ k =>
      cases j with
      | zero => rfl
      | succ m =>
        simp only [List.set, List.getD_cons_succ]
        exact ih (fun hh => h (by rw [hh]))

theorem list_getD_of_le {α : Type} (l : List α) (d : α) :
    ∀ i, l.length ≤ i → l.getD i d = d := by
  induction l with
  | nil => intro i _; cases i <;> rfl
  | cons a t ih =>
    intro i h
    cases i with
    | zero => simp at h
    | succ k => exact ih k (by simpa using h)

theorem list_getD_mem {α : Type} (l : List α) (i : Nat) (d : α)
    (h : i < l.length) : l.getD i d ∈ l := by
  induction l generalizing i with
  | nil => simp at h
  | cons a t ih =>
    cases i with
    | zero => exact List.mem_cons_self _ _
    | succ k => exact List.mem_cons_of_mem _ (ih k (by simpa using h))

theorem getD_replicate_zero (n j : Nat) : (List.replicate n (0 : Int)).getD j 0 = 0 := by
  induction n generalizing j with
  | zero => simp
  | succ k ih =>
    cases j with
    | zero => rfl
    | succ m => exact ih m

theorem getD_append_zero (row : List Int) (j : Nat) :
    (row ++ [0]).getD j 0 = row.getD j 0 := by
  rw [list_getD_append]
  by_cases hj : j < row.length
  · rw [if_pos hj]
  · rw [if_neg hj]
    have hjlen : row.length ≤ j := Nat.le_of_not_lt hj
    cases hk : j - row.length with
    | zero =>
      have : j = row.length := Nat.le_antisymm (by omega) hjlen
      rw [this]
      have h2 : row.getD row.length 0 = 0 := by
        clear hk this hj hjlen
        induction row with
        | nil => rfl
        | cons a t ih => simpa using ih
      rw [h2]
      rfl
    | succ m =>
      have h2 : row.getD j 0 = 0 := by
        have hlt : row.length ≤ j := hjlen
        clear hk hj
        induction row generalizing j with
        | nil => cases j <;> rfl
        | cons a t ih =>
          cases j with
          | zero => simp at hlt
          | succ q =>
            simp only [List.getD_cons_succ]
            exact ih q (by simpa using hlt) (by simpa using hjlen)
      rw [h2]
      cases m <;> rfl

theorem cell_rows_append_zero (m : List (List Int)) : ∀ i j,
    ((m.map (fun row => row ++ [0])).getD i []).getD j 0 = (m.getD i []).getD j 0 := by
  induction m with
  | nil => intro i j; simp
  | cons r t ih =>
    intro i j
    cases i with
    | zero => exact getD_append_zero r j
    | succ k => exact ih k j

theorem cell_add_vertex (g : GraphAdjacencyMatrix) (x : String) (i j : Nat) :
    (g.add_vertex x).cell i j = g.cell i j := by
  unfold GraphAdjacencyMatrix.add_vertex
  by_cases hx : x ∈ g.vertices
  · rw [if_pos hx]
  · rw [if_neg hx]
    unfold GraphAdjacencyMatrix.cell
    dsimp only
    rw [list_getD_append]
    by_cases hi : i < (g.matrix.map (fun row => row ++ [0])).length
    · rw [if_pos hi]
      exact cell_rows_append_zero g.matrix i j
    · rw [if_neg hi]
      rw [List.length_map] at hi
      have hlen : g.matrix.length ≤ i := Nat.le_of_not_lt hi
      have hr : g.matrix.getD i [] = [] := list_getD_of_le _ _ i hlen
      rw [List.length_map, hr]
      cases hk : i - g.matrix.length with
      | zero => exact getD_replicate_zero _ j
      | succ m => cases m <;> rfl


theorem vertexIndex_lt {g : GraphAdjacencyMatrix} {v : String} {i : Nat}
    (h : g.vertexIndex v = some i) : i < g.vertices.length := by
  unfold GraphAdjacencyMatrix.vertexIndex at h
  by_cases hv : v ∈ g.vertices
  · rw [if_pos hv] at h
    have hidx : g.vertices.indexOf v = i := Option.some.inj h
    rw [← hidx]
    exact List.indexOf_lt_length.mpr hv
  · rw [if_neg hv] at h
    exact absurd h (by simp)

theorem mem_set_cases {α : Type} {x : α} {l : List α} {i : Nat} {a : α}
    (h : x ∈ l.set i a) : x = a ∨ x ∈ l := by
  induction l generalizing i with
  | nil => simp at h
  | cons b t ih =>
    cases i with
    | zero =>
      rcases List.mem_cons.mp h with h1 | h1
      · exact Or.inl h1
      · exact Or.inr (List.mem_cons_of_mem _ h1)
    | succ k =>
      rcases List.mem_cons.mp h with h1 | h1
      · exact Or.inr (by rw [h1]; exact List.mem_cons_self _ _)
      · rcases ih h1 with h2 | h2
        · exact Or.inl h2
        · exact Or.inr (List.mem_cons_of_mem _ h2)

theorem cell_double_set (m : List (List Int)) (fi ti : Nat) (w : Int) (n : Nat)
    (hm : m.length = n) (hrow : ∀ row ∈ m, row.length = n)
    (hfi : fi < n) (hti : ti < n) (i j : Nat) :
    (((m.set fi ((m.getD fi []).set ti w)).set ti
        (((m.set fi ((m.getD fi []).set ti w)).getD ti []).set fi w)).getD i []).getD j 0 =
      if (i = fi ∧ j = ti) ∨ (i = ti ∧ j = fi) then w
      else (m.getD i []).getD j 0 := by
  have hfim : fi < m.length := by rw [hm]; exact hfi
  have htim : ti < m.length := by rw [hm]; exact hti
  have hrfi : (m.getD fi []).length = n := hrow _ (list_getD_mem m fi [] hfim)
  have hrti : (m.getD ti []).length = n := hrow _ (list_getD_mem m ti [] htim)
  have hm1ti : (m.set fi ((m.getD fi []).set ti w)).getD ti [] =
      if ti = fi then (m.getD fi []).set ti w else m.getD ti [] := by
    by_cases htf : ti = fi
    · rw [if_pos htf, htf]
      exact list_getD_set_self m fi _ [] hfim
    · rw [if_neg htf]
      exact list_getD_set_ne m _ [] (fun hh => htf hh.symm)
  have hr2len : ((m.set fi ((m.getD fi []).set ti w)).getD ti []).length = n := by
    rw [hm1ti]
    by_cases htf : ti = fi
    · rw [if_pos htf, List.length_set]; exact hrfi
    · rw [if_neg htf]; exact hrti
  by_cases hit : i = ti
  · rw [hit]
    rw [list_getD_set_self _ ti _ [] (by rw [List.length_set, hm]; exact hti)]
    by_cases hjf : j = fi
    · rw [hjf, list_getD_set_self _ fi _ 0 (by rw [hr2len]; exact hfi),
        if_pos (Or.inr ⟨rfl, rfl⟩)]
    · rw [list_getD_set_ne _ w 0 (fun hh => hjf hh.symm), hm1ti]
      by_cases htf : ti = fi
      · rw [if_pos htf]
        have hjt : ¬ti = j := fun hh => hjf (hh.symm.trans htf)
        rw [list_getD_set_ne _ w 0 hjt, htf,
          if_neg (fun h => h.elim (fun hh => hjf hh.2) (fun hh => hjf hh.2))]
      · rw [if_neg htf,
          if_neg (fun h => h.elim (fun hh => htf hh.1) (fun hh => hjf hh.2))]
  · rw [list_getD_set_ne _ _ [] (fun hh => hit hh.symm)]
    by_cases hif : i = fi
    · rw [hif, list_getD_set_self m fi _ [] hfim]
      by_cases hjt : j = ti
      · rw [hjt, list_getD_set_self _ ti _ 0 (by rw [hrfi]; exact hti),
          if_pos (Or.inl ⟨rfl, rfl⟩)]
      · rw [list_getD_set_ne _ w 0 (fun hh => hjt hh.symm)]
        have hfit : ¬fi = ti := fun hh => hit (hif.trans hh)
        rw [if_neg (fun h => h.elim (fun hh => hjt hh.2) (fun hh => hfit hh.1))]
    · rw [list_getD_set_ne m _ [] (fun hh => hif hh.symm),
        if_neg (fun h => h.elim (fun hh => hif hh.1) (fun hh => hit hh.1))]

theorem AMsquare_set_row (M : List (List Int)) (n i j : Nat) (w : Int)
    (hlen : M.length = n) (hrows : ∀ row ∈ M, row.length = n) (hi : i < n) :
    (M.set i ((M.getD i []).set j w)).length = n ∧
    ∀ row ∈ M.set i ((M.getD i []).set j w), row.length = n := by
  constructor
  · rw [List.length_set]; exact hlen
  · intro row hrow
    rcases mem_set_cases hrow with h1 | h1
    · rw [h1, List.length_set]
      exact hrows _ (list_getD_mem M i [] (by rw [hlen]; exact hi))
    · exact hrows _ h1

theorem AMsquare_applyOp (g : GraphAdjacencyMatrix) (op : GOp)
    (hsq : AMsquare g) : AMsquare (g.applyOp op) := by
  obtain ⟨hlen, hrows⟩ := hsq
  cases op with
  | addVertex x =>
    show AMsquare (g.add_vertex x)
    unfold GraphAdjacencyMatrix.add_vertex
    by_cases hx : x ∈ g.vertices
    · rw [if_pos hx]; exact ⟨hlen, hrows⟩
    · rw [if_neg hx]
      refine ⟨?_, ?_⟩
      · dsimp only
        rw [List.length_append, List.length_map, List.length_append, hlen]
        rfl
      · dsimp only
        intro row hrow
        rw [List.length_append]
        rcases List.mem_append.mp hrow with h1 | h1
        · rcases List.mem_map.mp h1 with ⟨r0, hr0, hr0eq⟩
          rw [← hr0eq, List.length_append, hrows r0 hr0]
          rfl
        · have hrep : row = List.replicate (g.vertices.length + 1) 0 := by
            simpa using h1
          rw [hrep, List.length_replicate]
          rfl
  | addEdge a b w =>
    show AMsquare (g.add_edge a b w)
    cases hai : GraphAdjacencyMatrix.vertexIndex g a with
    | none =>
      simp only [GraphAdjacencyMatrix.add_edge, hai]
      exact ⟨hlen, hrows⟩
    | some fi =>
      cases hbi : GraphAdjacencyMatrix.vertexIndex g b with
      | none =>
        simp only [GraphAdjacencyMatrix.add_edge, hai, hbi]
        exact ⟨hlen, hrows⟩
      | some ti =>
        simp only [GraphAdjacencyMatrix.add_edge, hai, hbi]
        have h1 := AMsquare_set_row g.matrix g.vertices.length fi ti w hlen hrows
          (vertexIndex_lt hai)
        have h2 := AMsquare_set_row _ g.vertices.length ti fi w h1.1 h1.2
          (vertexIndex_lt hbi)
        by_cases hdd : g.directed = true
        · rw [if_pos hdd]; exact ⟨h1.1, h1.2⟩
        · rw [if_neg hdd]; exact ⟨h2.1, h2.2⟩
  | removeEdge a b =>
    show AMsquare (g.remove_edge a b)
    cases hai : GraphAdjacencyMatrix.vertexIndex g a with
    | none =>
      simp only [GraphAdjacencyMatrix.remove_edge, hai]
      exact ⟨hlen, hrows⟩
    | some fi =>
      cases hbi : GraphAdjacencyMatrix.vertexIndex g b with
      | none =>
        simp only [GraphAdjacencyMatrix.remove_edge, hai, hbi]
        exact ⟨hlen, hrows⟩
      | some ti =>
        simp only [GraphAdjacencyMatrix.remove_edge, hai, hbi]
        have h1 := AMsquare_set_row g.matrix g.vertices.length fi ti 0 hlen hrows
          (vertexIndex_lt hai)
        have h2 := AMsquare_set_row _ g.vertices.length ti fi 0 h1.1 h1.2
          (vertexIndex_lt hbi)
        by_cases hdd : g.directed = true
        · rw [if_pos hdd]; exact ⟨h1.1, h1.2⟩
        · rw [if_neg hdd]; exact ⟨h2.1, h2.2⟩

theorem cell_add_edge (g : GraphAdjacencyMatrix) {a b : String} (w : Int) {fi ti : Nat}
    (ha : g.vertexIndex a = some fi) (hb : g.vertexIndex b = some ti)
    (hd : g.directed = false) (hsq : AMsquare g) (i j : Nat) :
    (g.add_edge a b w).cell i j =
      if (i = fi ∧ j = ti) ∨ (i = ti ∧ j = fi) then w else g.cell i j := by
  obtain ⟨hlen, hrows⟩ := hsq
  simp only [GraphAdjacencyMatrix.add_edge, ha, hb]
  rw [hd, if_neg Bool.false_ne_true]
  unfold GraphAdjacencyMatrix.cell
  dsimp only
  exact cell_double_set g.matrix fi ti w g.vertices.length hlen hrows
    (vertexIndex_lt ha) (vertexIndex_lt hb) i j

theorem cell_remove_edge (g : GraphAdjacencyMatrix) {a b : String} {fi ti : Nat}
    (ha : g.vertexIndex a = some fi) (hb : g.vertexIndex b = some ti)
    (hd : g.directed = false) (hsq : AMsquare g) (i j : Nat) :
    (g.remove_edge a b).cell i j =
      if (i = fi ∧ j = ti) ∨ (i = ti ∧ j = fi) then 0 else g.cell i j := by
  obtain ⟨hlen, hrows⟩ := hsq
  simp only [GraphAdjacencyMatrix.remove_edge, ha, hb]
  rw [hd, if_neg Bool.false_ne_true]
  unfold GraphAdjacencyMatrix.cell
  dsimp only
  exact cell_double_set g.matrix fi ti 0 g.vertices.length hlen hrows
    (vertexIndex_lt ha) (vertexIndex_lt hb) i j

theorem AMsym_applyOp (g : GraphAdjacencyMatrix) (op : GOp)
    (hd : g.directed = false) (hsq : AMsquare g) (hsym : AMsym g) :
    AMsym (g.applyOp op) := by
  cases op with
  | addVertex x =>
    intro i j
    show (g.add_vertex x).cell i j = (g.add_vertex x).cell j i
    rw [cell_add_vertex, cell_add_vertex]
    exact hsym i j
  | addEdge a b w =>
    intro i j
    show (g.add_edge a b w).cell i j = (g.add_edge a b w).cell j i
    cases hai : GraphAdjacencyMatrix.vertexIndex g a with
    | none =>
      cases hbi : GraphAdjacencyMatrix.vertexIndex g b with
      | none =>
        have hid : g.add_edge a b w = g := by
          simp only [GraphAdjacencyMatrix.add_edge, hai, hbi]
        rw [hid]; exact hsym i j
      | some ti =>
        have hid : g.add_edge a b w = g := by
          simp only [GraphAdjacencyMatrix.add_edge, hai, hbi]
        rw [hid]; exact hsym i j
    | some fi =>
      cases hbi : GraphAdjacencyMatrix.vertexIndex g b with
      | none =>
        have hid : g.add_edge a b w = g := by
          simp only [GraphAdjacencyMatrix.add_edge, hai, hbi]
        rw [hid]; exact hsym i j
      | some ti =>
        rw [cell_add_edge g w hai hbi hd hsq i j, cell_add_edge g w hai hbi hd hsq j i]
        by_cases h1 : (i = fi ∧ j = ti) ∨ (i = ti ∧ j = fi)
        · rw [if_pos h1, if_pos (h1.elim (fun hh => Or.inr ⟨hh.2, hh.1⟩)
            (fun hh => Or.inl ⟨hh.2, hh.1⟩))]
        · rw [if_neg h1, if_neg (fun h => h1 (h.elim (fun hh => Or.inr ⟨hh.2, hh.1⟩)
            (fun hh => Or.inl ⟨hh.2, hh.1⟩)))]
          exact hsym i j
  | removeEdge a b =>
    intro i j
    show (g.remove_edge a b).cell i j = (g.remove_edge a b).cell j i
    cases hai : GraphAdjacencyMatrix.vertexIndex g a with
    | none =>
      cases hbi : GraphAdjacencyMatrix.vertexIndex g b with
      | none =>
        have hid : g.remove_edge a b = g := by
          simp only [GraphAdjacencyMatrix.remove_edge, hai, hbi]
        rw [hid]; exact hsym i j
      | some ti =>
        have hid : g.remove_edge a b = g := by
          simp only [GraphAdjacencyMatrix.remove_edge, hai, hbi]
        rw [hid]; exact hsym i j
    | some fi =>
      cases hbi : GraphAdjacencyMatrix.vertexIndex g b with
      | none =>
        have hid : g.remove_edge a b = g := by
          simp only [GraphAdjacencyMatrix.remove_edge, hai, hbi]
        rw [hid]; exact hsym i j
      | some ti =>
        rw [cell_remove_edge g hai hbi hd hsq i j, cell_remove_edge g hai hbi hd hsq j i]
        by_cases h1 : (i = fi ∧ j = ti) ∨ (i = ti ∧ j = fi)
        · rw [if_pos h1, if_pos (h1.elim (fun hh => Or.inr ⟨hh.2, hh.1⟩)
            (fun hh => Or.inl ⟨hh.2, hh.1⟩))]
        · rw [if_neg h1, if_neg (fun h => h1 (h.elim (fun hh => Or.inr ⟨hh.2, hh.1⟩)
            (fun hh => Or.inl ⟨hh.2, hh.1⟩)))]
          exact hsym i j

theorem AM_weight_symm {g : GraphAdjacencyMatrix} (hsym : AMsym g) (u v : String) :
    g.get_edge_weight u v = g.get_edge_weight v u := by
  unfold GraphAdjacencyMatrix.get_edge_weight GraphAdjacencyMatrix.has_edge
  cases hui : GraphAdjacencyMatrix.vertexIndex g u with
  | none =>
    cases hvi : GraphAdjacencyMatrix.vertexIndex g v <;> rfl
  | some fi =>
    cases hvi : GraphAdjacencyMatrix.vertexIndex g v with
    | none => rfl
    | some ti =>
      show (if decide (g.cell fi ti ≠ 0) = true then some (g.cell fi ti) else none)
          = (if decide (g.cell ti fi ≠ 0) = true then some (g.cell ti fi) else none)
      rw [hsym fi ti]

theorem AM_sq_sym_foldl (ops : List GOp) : ∀ g : GraphAdjacencyMatrix,
    g.directed = false → AMsquare g → AMsym g →
    AMsquare (ops.foldl GraphAdjacencyMatrix.applyOp g) ∧
    AMsym (ops.foldl GraphAdjacencyMatrix.applyOp g) := by
  induction ops with
  | nil => intro g _ h1 h2; exact ⟨h1, h2⟩
  | cons op rest ih =>
    intro g hd h1 h2
    exact ih _ (by rw [AM_applyOp_directed]; exact hd)
      (AMsquare_applyOp g op h1) (AMsym_applyOp g op hd h1 h2)

/-- C2: the mirror invariant.  For every undirected graph of either
representation reached from the empty graph by any sequence of
addVertex/addEdge/removeEdge operations, and for all vertices `u`, `v`,
`has_edge u v = has_edge v u` and `get_edge_weight u v = get_edge_weight v u`. -/
theorem mirror_invariant (wt : Bool) (ops : List GOp) (u v : String) :
    ((GraphAdjacencyList.runOps false wt ops).has_edge u v =
        (GraphAdjacencyList.runOps false wt ops).has_edge v u ∧
      (GraphAdjacencyList.runOps false wt ops).get_edge_weight u v =
        (GraphAdjacencyList.runOps false wt ops).get_edge_weight v u) ∧
    ((GraphAdjacencyMatrix.runOps false wt ops).has_edge u v =
        (GraphAdjacencyMatrix.runOps false wt ops).has_edge v u ∧
      (GraphAdjacencyMatrix.runOps false wt ops).get_edge_weight u v =
        (GraphAdjacencyMatrix.runOps false wt ops).get_edge_weight v u) := by
  have hal : ALsym (GraphAdjacencyList.runOps false wt ops) := by
    unfold GraphAdjacencyList.runOps
    exact ALsym_foldl ops _ rfl (fun a b => rfl)
  have ham : AMsquare (GraphAdjacencyMatrix.runOps false wt ops) ∧
      AMsym (GraphAdjacencyMatrix.runOps false wt ops) := by
    unfold GraphAdjacencyMatrix.runOps
    refine AM_sq_sym_foldl ops _ rfl ⟨rfl, ?_⟩ (fun i j => rfl)
    intro row hrow
    simp [GraphAdjacencyMatrix.empty] at hrow
  refine ⟨⟨?_, hal u v⟩, ⟨?_, AM_weight_symm ham.2 u v⟩⟩
  · rw [AL_has_edge_eq_isSome, AL_has_edge_eq_isSome, hal u v]
  · rw [AM_has_edge_eq_isSome, AM_has_edge_eq_isSome, AM_weight_symm ham.2 u v]


/-! ## C3: at-most-one stored entry per ordered pair, and edge upsert -/

theorem countKey_of_lookup_none {l : List (String × Int)} {v : String}
    (h : nbrLookup l v = none) : countKey l v = 0 := by
  rw [countKey_eq_zero_iff]
  exact (nbrLookup_eq_none_iff l v).mp h

theorem ALpairUnique_applyOp (g : GraphAdjacencyList) (op : GOp)
    (hsym : g.directed = false → ALsym g) (hpu : ALpairUnique g) :
    ALpairUnique (g.applyOp op) := by
  cases op with
  | addVertex x =>
    show ALpairUnique (g.add_vertex x)
    intro u l hl y hyu
    unfold GraphAdjacencyList.add_vertex at hl
    by_cases hx : (alookup g.adjacency_list x).isSome
    · rw [if_pos hx] at hl
      exact hpu u l hl y hyu
    · rw [if_neg hx] at hl
      dsimp only at hl
      cases hu : alookup g.adjacency_list u with
      | some l0 =>
        rw [alookup_append_left _ hu] at hl
        have hll : l0 = l := Option.some.inj hl
        rw [← hll]
        exact hpu u l0 hu y hyu
      | none =>
        rw [alookup_append_right _ hu] at hl
        by_cases hxu : x = u
        · have hle : l = [] := by
            rw [hxu] at hl
            simpa [alookup] using hl.symm
          rw [hle]
          simp [countKey]
        · rw [show alookup [(x, [])] u = none by simp [alookup, hxu]] at hl
          exact absurd hl (by simp)
  | addEdge a b w =>
    show ALpairUnique (g.add_edge a b w)
    intro u l hl y hyu
    cases ha : alookup g.adjacency_list a with
    | none =>
      rw [show g.add_edge a b w = g by simp only [GraphAdjacencyList.add_edge, ha]] at hl
      exact hpu u l hl y hyu
    | some fa =>
      cases hbk : alookup g.adjacency_list b with
      | none =>
        rw [show g.add_edge a b w = g by
          simp only [GraphAdjacencyList.add_edge, ha, hbk]] at hl
        exact hpu u l hl y hyu
      | some fb =>
        simp only [GraphAdjacencyList.add_edge, ha, hbk] at hl
        by_cases he : (nbrLookup fa b).isSome
        · rw [if_pos he] at hl
          by_cases hdd : g.directed = true
          · rw [if_pos hdd] at hl
            dsimp only at hl
            rw [alookup_aupdate] at hl
            by_cases hua : u = a
            · rw [if_pos hua, ha] at hl
              have hll : updFirst fa b w = l := Option.some.inj hl
              rw [← hll, countKey_updFirst]
              exact hpu a fa ha y (fun hh => hyu (hh.trans hua.symm))
            · rw [if_neg hua] at hl
              exact hpu u l hl y hyu
          · rw [if_neg hdd] at hl
            dsimp only at hl
            rw [alookup_aupdate, alookup_aupdate] at hl
            by_cases hub : u = b
            · rw [if_pos hub] at hl
              by_cases hba : b = a
              · rw [if_pos hba, ha] at hl
                have hll : updFirst (updFirst fa b w) a w = l := Option.some.inj hl
                rw [← hll, countKey_updFirst, countKey_updFirst]
                exact hpu a fa ha y
                  (fun hh => hyu (hh.trans (hba.symm.trans hub.symm)))
              · rw [if_neg hba, hbk] at hl
                have hll : updFirst fb a w = l := Option.some.inj hl
                rw [← hll, countKey_updFirst]
                exact hpu b fb hbk y (fun hh => hyu (hh.trans hub.symm))
            · rw [if_neg hub, alookup_aupdate] at hl
              by_cases hua : u = a
              · rw [if_pos hua, ha] at hl
                have hll : updFirst fa b w = l := Option.some.inj hl
                rw [← hll, countKey_updFirst]
                exact hpu a fa ha y (fun hh => hyu (hh.trans hua.symm))
              · rw [if_neg hua] at hl
                exact hpu u l hl y hyu
        · rw [if_neg he] at hl
          have hanone : nbrLookup fa b = none := by
            cases hnb : nbrLookup fa b with
            | none => rfl
            | some z => exact absurd (by rw [hnb]; rfl) he
          by_cases hdd : g.directed = true
          · rw [if_pos hdd] at hl
            dsimp only at hl
            rw [alookup_aupdate] at hl
            by_cases hua : u = a
            · rw [if_pos hua, ha] at hl
              have hll : fa ++ [(b, w)] = l := Option.some.inj hl
              rw [← hll, countKey_append_single]
              by_cases hby : b = y
              · rw [if_pos hby, ← hby, countKey_of_lookup_none hanone]
              · rw [if_neg hby]
                have := hpu a fa ha y (fun hh => hyu (hh.trans hua.symm))
                omega
            · rw [if_neg hua] at hl
              exact hpu u l hl y hyu
          · rw [if_neg hdd] at hl
            have hgd : g.directed = false := by
              cases hgg : g.directed
              · rfl
              · exact absurd hgg hdd
            have hsymg := hsym hgd
            have hbnone : nbrLookup fb a = none := by
              have h1 : g.get_edge_weight a b = nbrLookup fa b := by
                unfold GraphAdjacencyList.get_edge_weight
                rw [ha]
              have h2 : g.get_edge_weight b a = nbrLookup fb a := by
                unfold GraphAdjacencyList.get_edge_weight
                rw [hbk]
              rw [← h2, ← hsymg a b, h1]
              exact hanone
            dsimp only at hl
            rw [alookup_aupdate, alookup_aupdate] at hl
            by_cases hub : u = b
            · rw [if_pos hub] at hl
              by_cases hba : b = a
              · rw [if_pos hba, ha] at hl
                have hll : (fa ++ [(b, w)]) ++ [(a, w)] = l := Option.some.inj hl
                rw [← hll, countKey_append_single, countKey_append_single]
                have hby : ¬b = y := fun hh => hyu (hh.symm.trans hub.symm)
                have hay : ¬a = y := fun hh => hby (hba.trans hh)
                rw [if_neg hby, if_neg hay]
                have := hpu a fa ha y
                  (fun hh => hyu (hh.trans (hba.symm.trans hub.symm)))
                omega
              · rw [if_neg hba, hbk] at hl
                have hll : fb ++ [(a, w)] = l := Option.some.inj hl
                rw [← hll, countKey_append_single]
                by_cases hay : a = y
                · rw [if_pos hay, ← hay, countKey_of_lookup_none hbnone]
                · rw [if_neg hay]
                  have := hpu b fb hbk y (fun hh => hyu (hh.trans hub.symm))
                  omega
            · rw [if_neg hub, alookup_aupdate] at hl
              by_cases hua : u = a
              · rw [if_pos hua, ha] at hl
                have hll : fa ++ [(b, w)] = l := Option.some.inj hl
                rw [← hll, countKey_append_single]
                by_cases hby : b = y
                · rw [if_pos hby, ← hby, countKey_of_lookup_none hanone]
                · rw [if_neg hby]
                  have := hpu a fa ha y (fun hh => hyu (hh.trans hua.symm))
                  omega
              · rw [if_neg hua] at hl
                exact hpu u l hl y hyu
  | removeEdge a b =>
    show ALpairUnique (g.remove_edge a b)
    intro u l hl y hyu
    cases ha : alookup g.adjacency_list a with
    | none =>
      rw [show g.remove_edge a b = g by
        simp only [GraphAdjacencyList.remove_edge, ha]] at hl
      exact hpu u l hl y hyu
    | some fa =>
      cases hbk : alookup g.adjacency_list b with
      | none =>
        rw [show g.remove_edge a b = g by
          simp only [GraphAdjacencyList.remove_edge, ha, hbk]] at hl
        exact hpu u l hl y hyu
      | some fb =>
        simp only [GraphAdjacencyList.remove_edge, ha, hbk] at hl
        by_cases hdd : g.directed = true
        · rw [if_pos hdd] at hl
          dsimp only at hl
          rw [alookup_aupdate] at hl
          by_cases hua : u = a
          · rw [if_pos hua, ha] at hl
            have hll : fa.filter (fun p => p.1 ≠ b) = l := Option.some.inj hl
            rw [← hll]
            by_cases hyb : y = b
            · rw [hyb, countKey_filter_self]
              omega
            · rw [countKey_filter_ne _ hyb]
              exact hpu a fa ha y (fun hh => hyu (hh.trans hua.symm))
          · rw [if_neg hua] at hl
            exact hpu u l hl y hyu
        · rw [if_neg hdd] at hl
          dsimp only at hl
          rw [alookup_aupdate, alookup_aupdate] at hl
          by_cases hub : u = b
          · rw [if_pos hub] at hl
            by_cases hba : b = a
            · rw [if_pos hba, ha] at hl
              have hll : (fa.filter (fun p => p.1 ≠ b)).filter (fun p => p.1 ≠ a) = l :=
                Option.some.inj hl
              rw [← hll]
              by_cases hya : y = a
              · rw [hya, countKey_filter_self]
                omega
              · rw [countKey_filter_ne _ hya]
                by_cases hyb : y = b
                · rw [hyb, countKey_filter_self]
                  omega
                · rw [countKey_filter_ne _ hyb]
                  exact hpu a fa ha y
                    (fun hh => hyu (hh.trans (hba.symm.trans hub.symm)))
            · rw [if_neg hba, hbk] at hl
              have hll : fb.filter (fun p => p.1 ≠ a) = l := Option.some.inj hl
              rw [← hll]
              by_cases hya : y = a
              · rw [hya, countKey_filter_self]
                omega
              · rw [countKey_filter_ne _ hya]
                exact hpu b fb hbk y (fun hh => hyu (hh.trans hub.symm))
          · rw [if_neg hub, alookup_aupdate] at hl
            by_cases hua : u = a
            · rw [if_pos hua, ha] at hl
              have hll : fa.filter (fun p => p.1 ≠ b) = l := Option.some.inj hl
              rw [← hll]
              by_cases hyb : y = b
              · rw [hyb, countKey_filter_self]
                omega
              · rw [countKey_filter_ne _ hyb]
                exact hpu a fa ha y (fun hh => hyu (hh.trans hua.symm))
            · rw [if_neg hua] at hl
              exact hpu u l hl y hyu

theorem AL_sym_pu_foldl (ops : List GOp) : ∀ g : GraphAdjacencyList,
    (g.directed = false → ALsym g) → ALpairUnique g →
    ((ops.foldl GraphAdjacencyList.applyOp g).directed = false →
      ALsym (ops.foldl GraphAdjacencyList.applyOp g)) ∧
    ALpairUnique (ops.foldl GraphAdjacencyList.applyOp g) := by
  induction ops with
  | nil => intro g h1 h2; exact ⟨h1, h2⟩
  | cons op rest ih =>
    intro g h1 h2
    refine ih _ ?_ (ALpairUnique_applyOp g op h1 h2)
    intro hd'
    have hgd : g.directed = false := by rw [← AL_applyOp_directed g op]; exact hd'
    exact ALsym_applyOp g op hgd (h1 hgd)

theorem ALpairUnique_runOps (d wt : Bool) (ops : List GOp) :
    ALpairUnique (GraphAdjacencyList.runOps d wt ops) := by
  unfold GraphAdjacencyList.runOps
  refine (AL_sym_pu_foldl ops (GraphAdjacencyList.empty d wt) (fun _ a b => rfl) ?_).2
  intro u l hl y hyu
  exact absurd hl (by simp [GraphAdjacencyList.empty, alookup])


theorem AM_add_edge_vertices (g : GraphAdjacencyMatrix) (u v : String) (w : Int) :
    (g.add_edge u v w).vertices = g.vertices := by
  cases h1 : GraphAdjacencyMatrix.vertexIndex g u with
  | none => simp only [GraphAdjacencyMatrix.add_edge, h1]
  | some fi =>
    cases h2 : GraphAdjacencyMatrix.vertexIndex g v with
    | none => simp only [GraphAdjacencyMatrix.add_edge, h1, h2]
    | some ti =>
      simp only [GraphAdjacencyMatrix.add_edge, h1, h2]
      split <;> rfl

theorem AM_remove_edge_vertices (g : GraphAdjacencyMatrix) (u v : String) :
    (g.remove_edge u v).vertices = g.vertices := by
  cases h1 : GraphAdjacencyMatrix.vertexIndex g u with
  | none => simp only [GraphAdjacencyMatrix.remove_edge, h1]
  | some fi =>
    cases h2 : GraphAdjacencyMatrix.vertexIndex g v with
    | none => simp only [GraphAdjacencyMatrix.remove_edge, h1, h2]
    | some ti =>
      simp only [GraphAdjacencyMatrix.remove_edge, h1, h2]
      split <;> rfl

theorem AM_nodup_applyOp (g : GraphAdjacencyMatrix) (op : GOp)
    (h : g.vertices.Nodup) : (g.applyOp op).vertices.Nodup := by
  cases op with
  | addVertex x =>
    show (g.add_vertex x).vertices.Nodup
    unfold GraphAdjacencyMatrix.add_vertex
    by_cases hx : x ∈ g.vertices
    · rw [if_pos hx]; exact h
    · rw [if_neg hx]
      dsimp only
      rw [List.nodup_append]
      refine ⟨h, List.nodup_singleton x, ?_⟩
      intro a ha hax
      rw [List.mem_singleton.mp hax] at ha
      exact hx ha
  | addEdge a b w =>
    show (g.add_edge a b w).vertices.Nodup
    rw [AM_add_edge_vertices]
    exact h
  | removeEdge a b =>
    show (g.remove_edge a b).vertices.Nodup
    rw [AM_remove_edge_vertices]
    exact h

theorem AM_nodup_foldl (ops : List GOp) : ∀ g : GraphAdjacencyMatrix,
    g.vertices.Nodup → (ops.foldl GraphAdjacencyMatrix.applyOp g).vertices.Nodup := by
  induction ops with
  | nil => intro g h; exact h
  | cons op rest ih =>
    intro g h
    exact ih _ (AM_nodup_applyOp g op h)

theorem AM_nodup_runOps (d wt : Bool) (ops : List GOp) :
    (GraphAdjacencyMatrix.runOps d wt ops).vertices.Nodup := by
  unfold GraphAdjacencyMatrix.runOps
  exact AM_nodup_foldl ops (GraphAdjacencyMatrix.empty d wt) List.nodup_nil

theorem countKey_zip (verts : List String) : ∀ (row : List Int) (y : String),
    countKey (verts.zip row) y ≤ verts.countP (fun x => x = y) := by
  induction verts with
  | nil => intro row y; simp [countKey]
  | cons a t ih =>
    intro row y
    cases row with
    | nil => simp [countKey]
    | cons r rs =>
      show countKey ((a, r) :: t.zip rs) y ≤ List.countP (fun x => decide (x = y)) (a :: t)
      rw [countKey, List.countP_cons, List.countP_cons]
      have hih := ih rs y
      rw [countKey] at hih
      exact Nat.add_le_add hih (Nat.le_refl _)

theorem countP_le_one_of_nodup (l : List String) (h : l.Nodup) (y : String) :
    l.countP (fun x => x = y) ≤ 1 := by
  induction l with
  | nil => simp
  | cons a t ih =>
    rw [List.countP_cons]
    obtain ⟨ha, ht⟩ := List.nodup_cons.mp h
    by_cases hay : a = y
    · have h0 : t.countP (fun x => decide (x = y)) = 0 := by
        rw [List.countP_eq_zero]
        intro x hx
        simp only [decide_eq_true_eq]
        intro hxy
        exact ha ((hxy.trans hay.symm) ▸ hx)
      rw [h0, if_pos (by simp [hay])]
    · rw [if_neg (by simp [hay])]
      have := ih ht
      omega

theorem AM_neighbors_countKey (g : GraphAdjacencyMatrix) (hnd : g.vertices.Nodup)
    (x y : String) : countKey (g.get_neighbors x) y ≤ 1 := by
  unfold GraphAdjacencyMatrix.get_neighbors
  cases hvi : GraphAdjacencyMatrix.vertexIndex g x with
  | none => simp [countKey]
  | some i =>
    show countKey ((g.vertices.zip (g.matrix.getD i [])).filter (fun p => p.2 ≠ 0)) y ≤ 1
    have h1 : countKey ((g.vertices.zip (g.matrix.getD i [])).filter
        (fun p => p.2 ≠ 0)) y ≤ countKey (g.vertices.zip (g.matrix.getD i [])) y := by
      unfold countKey
      exact (List.filter_sublist _).countP_le _
    have h2 := countKey_zip g.vertices (g.matrix.getD i []) y
    have h3 := countP_le_one_of_nodup g.vertices hnd y
    omega


theorem AL_weight_some {g : GraphAdjacencyList} {u v : String} {w : Int}
    (h : g.get_edge_weight u v = some w) :
    ∃ l, alookup g.adjacency_list u = some l ∧ nbrLookup l v = some w := by
  unfold GraphAdjacencyList.get_edge_weight at h
  cases hl : alookup g.adjacency_list u with
  | none =>
    rw [hl] at h
    exact absurd h (by simp)
  | some l =>
    rw [hl] at h
    exact ⟨l, rfl, h⟩

theorem AL_add_edge_keys (g : GraphAdjacencyList) (u v : String) (w : Int) :
    akeys (g.add_edge u v w).adjacency_list = akeys g.adjacency_list := by
  cases hul : alookup g.adjacency_list u with
  | none => simp only [GraphAdjacencyList.add_edge, hul]
  | some fu =>
    cases hvl : alookup g.adjacency_list v with
    | none => simp only [GraphAdjacencyList.add_edge, hul, hvl]
    | some fv =>
      simp only [GraphAdjacencyList.add_edge, hul, hvl]
      split <;> split <;> simp [akeys_aupdate]

theorem AL_add_edge_weight_present (g : GraphAdjacencyList) (u v : String) (w : Int)
    (hu : (alookup g.adjacency_list u).isSome)
    (hv : (alookup g.adjacency_list v).isSome) :
    (g.add_edge u v w).get_edge_weight u v = some w := by
  cases hul : alookup g.adjacency_list u with
  | none => rw [hul] at hu; exact absurd hu (by simp)
  | some fu =>
    cases hvl : alookup g.adjacency_list v with
    | none => rw [hvl] at hv; exact absurd hv (by simp)
    | some fv =>
      simp only [GraphAdjacencyList.add_edge, hul, hvl]
      by_cases he : (nbrLookup fu v).isSome
      · rw [if_pos he]
        by_cases hdd : g.directed = true
        · rw [if_pos hdd]
          unfold GraphAdjacencyList.get_edge_weight
          dsimp only
          rw [alookup_aupdate, if_pos rfl, hul]
          show nbrLookup (updFirst fu v w) v = some w
          exact nbrLookup_updFirst_self w he
        · rw [if_neg hdd]
          unfold GraphAdjacencyList.get_edge_weight
          dsimp only
          rw [alookup_aupdate]
          by_cases huv : u = v
          · rw [if_pos huv, alookup_aupdate, if_pos huv.symm, hul]
            show nbrLookup (updFirst (updFirst fu v w) u w) v = some w
            rw [huv]
            refine nbrLookup_updFirst_self w ?_
            rw [nbrLookup_updFirst_self w he]
            rfl
          · rw [if_neg huv, alookup_aupdate, if_pos rfl, hul]
            show nbrLookup (updFirst fu v w) v = some w
            exact nbrLookup_updFirst_self w he
      · rw [if_neg he]
        have hnone : nbrLookup fu v = none := by
          cases hnb : nbrLookup fu v with
          | none => rfl
          | some z => exact absurd (by rw [hnb]; rfl) he
        by_cases hdd : g.directed = true
        · rw [if_pos hdd]
          unfold GraphAdjacencyList.get_edge_weight
          dsimp only
          rw [alookup_aupdate, if_pos rfl, hul]
          show nbrLookup (fu ++ [(v, w)]) v = some w
          exact nbrLookup_append_single_self _ _ _ hnone
        · rw [if_neg hdd]
          unfold GraphAdjacencyList.get_edge_weight
          dsimp only
          rw [alookup_aupdate]
          by_cases huv : u = v
          · rw [if_pos huv, alookup_aupdate, if_pos huv.symm, hul]
            show nbrLookup ((fu ++ [(v, w)]) ++ [(u, w)]) v = some w
            rw [nbrLookup_append, nbrLookup_append_single_self _ _ _ hnone]
          · rw [if_neg huv, alookup_aupdate, if_pos rfl, hul]
            show nbrLookup (fu ++ [(v, w)]) v = some w
            exact nbrLookup_append_single_self _ _ _ hnone

theorem map_len_aupdate (l : List (String × List (String × Int))) (k : String)
    (f : List (String × Int) → List (String × Int))
    (hf : ∀ b, (f b).length = b.length) :
    (aupdate l k f).map (fun p => p.2.length) = l.map (fun p => p.2.length) := by
  induction l with
  | nil => rfl
  | cons p rest ih =>
    obtain ⟨x, b⟩ := p
    by_cases hxk : x = k <;> simp [aupdate, hxk, hf, ih]

theorem AL_edge_count_add_edge_exists (g : GraphAdjacencyList) (u v : String)
    (w : Int) {fu : List (String × Int)}
    (hul : alookup g.adjacency_list u = some fu)
    (hv : (alookup g.adjacency_list v).isSome)
    (he : (nbrLookup fu v).isSome) :
    (g.add_edge u v w).get_edge_count = g.get_edge_count := by
  cases hvl : alookup g.adjacency_list v with
  | none => rw [hvl] at hv; exact absurd hv (by simp)
  | some fv =>
    simp only [GraphAdjacencyList.add_edge, hul, hvl, if_pos he]
    by_cases hdd : g.directed = true
    · rw [if_pos hdd]
      unfold GraphAdjacencyList.get_edge_count
      dsimp only
      rw [map_len_aupdate _ _ _ (fun b => updFirst_length b v w)]
    · rw [if_neg hdd]
      unfold GraphAdjacencyList.get_edge_count
      dsimp only
      rw [map_len_aupdate _ _ _ (fun b => updFirst_length b u w),
        map_len_aupdate _ _ _ (fun b => updFirst_length b v w)]

theorem cell_single_set (m : List (List Int)) (fi ti : Nat) (w : Int) (n : Nat)
    (hm : m.length = n) (hrow : ∀ row ∈ m, row.length = n)
    (hfi : fi < n) (hti : ti < n) (i j : Nat) :
    ((m.set fi ((m.getD fi []).set ti w)).getD i []).getD j 0 =
      if i = fi ∧ j = ti then w else (m.getD i []).getD j 0 := by
  have hfim : fi < m.length := by rw [hm]; exact hfi
  have hrfi : (m.getD fi []).length = n := hrow _ (list_getD_mem m fi [] hfim)
  by_cases hif : i = fi
  · rw [hif, list_getD_set_self m fi _ [] hfim]
    by_cases hjt : j = ti
    · rw [hjt, list_getD_set_self _ ti _ 0 (by rw [hrfi]; exact hti),
        if_pos ⟨rfl, rfl⟩]
    · rw [list_getD_set_ne _ w 0 (fun hh => hjt hh.symm),
        if_neg (fun h => hjt h.2)]
  · rw [list_getD_set_ne m _ [] (fun hh => hif hh.symm), if_neg (fun h => hif h.1)]

theorem vertexIndex_of_mem {g : GraphAdjacencyMatrix} {v : String}
    (h : v ∈ g.vertices) : g.vertexIndex v = some (g.vertices.indexOf v) := by
  unfold GraphAdjacencyMatrix.vertexIndex
  rw [if_pos h]

theorem AM_vertexIndex_add_edge (g : GraphAdjacencyMatrix) (a b : String) (w : Int)
    (v : String) : (g.add_edge a b w).vertexIndex v = g.vertexIndex v := by
  unfold GraphAdjacencyMatrix.vertexIndex
  rw [AM_add_edge_vertices]

theorem AM_weight_of_cell (g : GraphAdjacencyMatrix) {u v : String} {fi ti : Nat}
    (hu : g.vertexIndex u = some fi) (hv : g.vertexIndex v = some ti)
    (hnz : g.cell fi ti ≠ 0) :
    g.get_edge_weight u v = some (g.cell fi ti) := by
  unfold GraphAdjacencyMatrix.get_edge_weight GraphAdjacencyMatrix.has_edge
  rw [hu, hv]
  show (if decide (g.cell fi ti ≠ 0) = true then some (g.cell fi ti) else none) = _
  rw [if_pos (decide_eq_true hnz)]

theorem AM_add_edge_cell_self (g : GraphAdjacencyMatrix) (u v : String) (w : Int)
    {fi ti : Nat} (hu : g.vertexIndex u = some fi) (hv : g.vertexIndex v = some ti)
    (hsq : AMsquare g) :
    (g.add_edge u v w).cell fi ti = w ∧
    (g.directed = false → (g.add_edge u v w).cell ti fi = w) := by
  by_cases hdd : g.directed = true
  · constructor
    · simp only [GraphAdjacencyMatrix.add_edge, hu, hv, if_pos hdd]
      unfold GraphAdjacencyMatrix.cell
      dsimp only
      rw [cell_single_set g.matrix fi ti w g.vertices.length hsq.1 hsq.2
        (vertexIndex_lt hu) (vertexIndex_lt hv), if_pos ⟨rfl, rfl⟩]
    · intro hdf
      exact Bool.noConfusion (hdf.symm.trans hdd)
  · have hdf : g.directed = false := by
      cases hgg : g.directed
      · rfl
      · exact absurd hgg hdd
    constructor
    · rw [cell_add_edge g w hu hv hdf hsq fi ti, if_pos (Or.inl ⟨rfl, rfl⟩)]
    · intro _
      rw [cell_add_edge g w hu hv hdf hsq ti fi, if_pos (Or.inr ⟨rfl, rfl⟩)]

theorem AM_add_edge_weight_present (g : GraphAdjacencyMatrix) (u v : String)
    (w : Int) {fi ti : Nat} (hu : g.vertexIndex u = some fi)
    (hv : g.vertexIndex v = some ti) (hw : w ≠ 0) (hsq : AMsquare g) :
    (g.add_edge u v w).get_edge_weight u v = some w := by
  have hu' : (g.add_edge u v w).vertexIndex u = some fi := by
    rw [AM_vertexIndex_add_edge]; exact hu
  have hv' : (g.add_edge u v w).vertexIndex v = some ti := by
    rw [AM_vertexIndex_add_edge]; exact hv
  have hcell : (g.add_edge u v w).cell fi ti = w :=
    (AM_add_edge_cell_self g u v w hu hv hsq).1
  rw [AM_weight_of_cell (g.add_edge u v w) hu' hv' (by rw [hcell]; exact hw), hcell]

theorem countP_set_nonzero (l : List Int) (i : Nat) (x : Int)
    (hx : x ≠ 0) (hold : l.getD i 0 ≠ 0) :
    (l.set i x).countP (fun z => z ≠ 0) = l.countP (fun z => z ≠ 0) := by
  induction l generalizing i with
  | nil => exact absurd rfl hold
  | cons a t ih =>
    cases i with
    | zero =>
      have hold2 : a ≠ 0 := hold
      show List.countP _ (x :: t) = List.countP _ (a :: t)
      rw [List.countP_cons, List.countP_cons,
        if_pos (decide_eq_true hx), if_pos (decide_eq_true hold2)]
    | succ k =>
      show List.countP _ (a :: t.set k x) = List.countP _ (a :: t)
      rw [List.countP_cons, List.countP_cons, ih k hold]

theorem sum_counts_set (M : List (List Int)) : ∀ (i : Nat) (r : List Int),
    r.countP (fun z => z ≠ 0) = (M.getD i []).countP (fun z => z ≠ 0) →
    ((M.set i r).map (fun row => row.countP (fun z => z ≠ 0))).sum =
      (M.map (fun row => row.countP (fun z => z ≠ 0))).sum := by
  induction M with
  | nil => intro i r _; rfl
  | cons a t ih =>
    intro i r hc
    cases i with
    | zero =>
      simp only [List.set, List.map_cons, List.sum_cons]
      have hc0 : r.countP (fun z => z ≠ 0) = a.countP (fun z => z ≠ 0) := hc
      rw [hc0]
    | succ k =>
      simp only [List.set, List.map_cons, List.sum_cons]
      have hck : r.countP (fun z => z ≠ 0) = (t.getD k []).countP (fun z => z ≠ 0) := hc
      rw [ih k r hck]

theorem AM_edge_count_readd (g : GraphAdjacencyMatrix) (u v : String) (w : Int)
    {fi ti : Nat} (hu : g.vertexIndex u = some fi) (hv : g.vertexIndex v = some ti)
    (hsq : AMsquare g) (hw : w ≠ 0)
    (hc1 : g.cell fi ti ≠ 0) (hc2 : g.directed = false → g.cell ti fi ≠ 0) :
    (g.add_edge u v w).get_edge_count = g.get_edge_count := by
  have hfin : fi < g.vertices.length := vertexIndex_lt hu
  have htin : ti < g.vertices.length := vertexIndex_lt hv
  by_cases hdd : g.directed = true
  · simp only [GraphAdjacencyMatrix.add_edge, hu, hv, if_pos hdd]
    unfold GraphAdjacencyMatrix.get_edge_count
    dsimp only
    rw [sum_counts_set g.matrix fi _ (countP_set_nonzero _ ti w hw hc1)]
  · have hdf : g.directed = false := by
      cases hgg : g.directed
      · rfl
      · exact absurd hgg hdd
    simp only [GraphAdjacencyMatrix.add_edge, hu, hv, hdf, if_neg Bool.false_ne_true]
    unfold GraphAdjacencyMatrix.get_edge_count
    dsimp only
    have hstep1 : ((g.matrix.set fi ((g.matrix.getD fi []).set ti w)).map
        (fun row => row.countP (fun z => z ≠ 0))).sum =
        (g.matrix.map (fun row => row.countP (fun z => z ≠ 0))).sum :=
      sum_counts_set g.matrix fi _ (countP_set_nonzero _ ti w hw hc1)
    have hm1cell : ((g.matrix.set fi ((g.matrix.getD fi []).set ti w)).getD ti []).getD fi 0 ≠ 0 := by
      have := cell_single_set g.matrix fi ti w g.vertices.length hsq.1 hsq.2
        hfin htin ti fi
      rw [this]
      by_cases htf : ti = fi
      · rw [if_pos ⟨htf, htf.symm⟩]
        exact hw
      · rw [if_neg (fun h => htf h.1)]
        exact hc2 hdf
    rw [sum_counts_set _ ti _ (countP_set_nonzero _ fi w hw hm1cell), hstep1, hdf]



/-- C3 counterexample: on an undirected adjacency list a self-loop is stored
twice, so the ordered pair (A, A) has two entries after a single
`add_edge A A 5`. -/
theorem self_loop_double_entry :
    countKey ((alookup (GraphAdjacencyList.runOps false true
        [GOp.addVertex "A", GOp.addEdge "A" "A" 5]).adjacency_list "A").getD [])
      "A" = 2 := by
  decide

theorem AMsquare_foldl (ops : List GOp) : ∀ g : GraphAdjacencyMatrix,
    AMsquare g → AMsquare (ops.foldl GraphAdjacencyMatrix.applyOp g) := by
  induction ops with
  | nil => intro g h; exact h
  | cons op rest ih =>
    intro g h
    exact ih _ (AMsquare_applyOp g op h)

theorem AMsquare_runOps (d wt : Bool) (ops : List GOp) :
    AMsquare (GraphAdjacencyMatrix.runOps d wt ops) := by
  unfold GraphAdjacencyMatrix.runOps
  refine AMsquare_foldl ops (GraphAdjacencyMatrix.empty d wt) ⟨rfl, ?_⟩
  intro row hrow
  simp [GraphAdjacencyMatrix.empty] at hrow

/-- C3 (amended): distinct ordered pairs have at most one stored entry in the
adjacency list (an undirected self-loop pair can have two, see the
counterexample), every ordered pair has at most one entry among a matrix
row's neighbors, and re-adding an edge with nonzero weights between present
vertices updates the weight in place: the second `add_edge u v w2` leaves
`get_edge_weight u v = w2` and leaves `get_edge_count` unchanged, on both
representations. -/
theorem at_most_one_edge_upsert (d wt : Bool) (ops : List GOp) (u v : String)
    (w1 w2 : Int) (hw1 : w1 ≠ 0) (hw2 : w2 ≠ 0)
    (hul : u ∈ (GraphAdjacencyList.runOps d wt ops).get_vertices)
    (hvl : v ∈ (GraphAdjacencyList.runOps d wt ops).get_vertices)
    (hum : u ∈ (GraphAdjacencyMatrix.runOps d wt ops).get_vertices)
    (hvm : v ∈ (GraphAdjacencyMatrix.runOps d wt ops).get_vertices) :
    ALpairUnique (GraphAdjacencyList.runOps d wt ops) ∧
    (∀ x y, countKey ((GraphAdjacencyMatrix.runOps d wt ops).get_neighbors x) y ≤ 1) ∧
    (((GraphAdjacencyList.runOps d wt ops).add_edge u v w1).add_edge u v w2).get_edge_weight
        u v = some w2 ∧
    (((GraphAdjacencyList.runOps d wt ops).add_edge u v w1).add_edge u v w2).get_edge_count
      = ((GraphAdjacencyList.runOps d wt ops).add_edge u v w1).get_edge_count ∧
    (((GraphAdjacencyMatrix.runOps d wt ops).add_edge u v w1).add_edge u v w2).get_edge_weight
        u v = some w2 ∧
    (((GraphAdjacencyMatrix.runOps d wt ops).add_edge u v w1).add_edge u v w2).get_edge_count
      = ((GraphAdjacencyMatrix.runOps d wt ops).add_edge u v w1).get_edge_count := by
  have hu0 : (alookup (GraphAdjacencyList.runOps d wt ops).adjacency_list u).isSome :=
    (alookup_isSome_iff _ _).mpr hul
  have hv0 : (alookup (GraphAdjacencyList.runOps d wt ops).adjacency_list v).isSome :=
    (alookup_isSome_iff _ _).mpr hvl
  have hu1 : (alookup ((GraphAdjacencyList.runOps d wt ops).add_edge u v
      w1).adjacency_list u).isSome := by
    rw [alookup_isSome_iff, AL_add_edge_keys]
    exact hul
  have hv1 : (alookup ((GraphAdjacencyList.runOps d wt ops).add_edge u v
      w1).adjacency_list v).isSome := by
    rw [alookup_isSome_iff, AL_add_edge_keys]
    exact hvl
  have hwl1 : ((GraphAdjacencyList.runOps d wt ops).add_edge u v w1).get_edge_weight u v
      = some w1 :=
    AL_add_edge_weight_present (GraphAdjacencyList.runOps d wt ops) u v w1 hu0 hv0
  obtain ⟨l1, hl1, hn1⟩ := AL_weight_some hwl1
  have hfi : (GraphAdjacencyMatrix.runOps d wt ops).vertexIndex u =
      some ((GraphAdjacencyMatrix.runOps d wt ops).vertices.indexOf u) :=
    vertexIndex_of_mem hum
  have hti : (GraphAdjacencyMatrix.runOps d wt ops).vertexIndex v =
      some ((GraphAdjacencyMatrix.runOps d wt ops).vertices.indexOf v) :=
    vertexIndex_of_mem hvm
  have hsq : AMsquare (GraphAdjacencyMatrix.runOps d wt ops) := AMsquare_runOps d wt ops
  have hsq1 : AMsquare ((GraphAdjacencyMatrix.runOps d wt ops).add_edge u v w1) :=
    AMsquare_applyOp (GraphAdjacencyMatrix.runOps d wt ops) (GOp.addEdge u v w1) hsq
  have hfi1 : ((GraphAdjacencyMatrix.runOps d wt ops).add_edge u v w1).vertexIndex u =
      some ((GraphAdjacencyMatrix.runOps d wt ops).vertices.indexOf u) := by
    rw [AM_vertexIndex_add_edge]
    exact hfi
  have hti1 : ((GraphAdjacencyMatrix.runOps d wt ops).add_edge u v w1).vertexIndex v =
      some ((GraphAdjacencyMatrix.runOps d wt ops).vertices.indexOf v) := by
    rw [AM_vertexIndex_add_edge]
    exact hti
  have hcells := AM_add_edge_cell_self (GraphAdjacencyMatrix.runOps d wt ops)
    u v w1 hfi hti hsq
  have hc1 : ((GraphAdjacencyMatrix.runOps d wt ops).add_edge u v w1).cell
      ((GraphAdjacencyMatrix.runOps d wt ops).vertices.indexOf u)
      ((GraphAdjacencyMatrix.runOps d wt ops).vertices.indexOf v) ≠ 0 := by
    rw [hcells.1]
    exact hw1
  have hc2 : ((GraphAdjacencyMatrix.runOps d wt ops).add_edge u v w1).directed = false →
      ((GraphAdjacencyMatrix.runOps d wt ops).add_edge u v w1).cell
        ((GraphAdjacencyMatrix.runOps d wt ops).vertices.indexOf v)
        ((GraphAdjacencyMatrix.runOps d wt ops).vertices.indexOf u) ≠ 0 := by
    intro hdf
    have hdf0 : (GraphAdjacencyMatrix.runOps d wt ops).directed = false := by
      rw [← AM_applyOp_directed (GraphAdjacencyMatrix.runOps d wt ops)
        (GOp.addEdge u v w1)]
      exact hdf
    rw [hcells.2 hdf0]
    exact hw1
  exact ⟨ALpairUnique_runOps d wt ops,
    fun x y => AM_neighbors_countKey _ (AM_nodup_runOps d wt ops) x y,
    AL_add_edge_weight_present _ u v w2 hu1 hv1,
    AL_edge_count_add_edge_exists _ u v w2 hl1 hv1 (by rw [hn1]; rfl),
    AM_add_edge_weight_present _ u v w2 hfi1 hti1 hw2 hsq1,
    AM_edge_count_readd _ u v w2 hfi1 hti1 hsq1 hw2 hc1 hc2⟩

/-- Witness for `at_most_one_edge_upsert` on concrete graphs. -/
theorem at_most_one_edge_upsert_witness :
    ((5 : Int) ≠ 0 ∧ (9 : Int) ≠ 0 ∧
      "A" ∈ (GraphAdjacencyList.runOps false true
        [GOp.addVertex "A", GOp.addVertex "B"]).get_vertices ∧
      "B" ∈ (GraphAdjacencyList.runOps false true
        [GOp.addVertex "A", GOp.addVertex "B"]).get_vertices ∧
      "A" ∈ (GraphAdjacencyMatrix.runOps false true
        [GOp.addVertex "A", GOp.addVertex "B"]).get_vertices ∧
      "B" ∈ (GraphAdjacencyMatrix.runOps false true
        [GOp.addVertex "A", GOp.addVertex "B"]).get_vertices) ∧
    (((GraphAdjacencyList.runOps false true
        [GOp.addVertex "A", GOp.addVertex "B"]).add_edge "A" "B" 5).add_edge
        "A" "B" 9).get_edge_weight "A" "B" = some 9 := by
  refine ⟨⟨by decide, by decide, by decide, by decide, by decide, by decide⟩, ?_⟩
  exact (at_most_one_edge_upsert false true [GOp.addVertex "A", GOp.addVertex "B"]
    "A" "B" 5 9 (by decide) (by decide) (by decide) (by decide) (by decide)
    (by decide)).2.2.1


/-! ## C7: traversal completeness on connected graphs -/

theorem sum_filter_ne_of_nodup (l : List String) (f : String → Nat) :
    ∀ (v : String), l.Nodup → v ∈ l →
    ((l.filter (fun x => x ≠ v)).map f).sum + f v = (l.map f).sum := by
  induction l with
  | nil => intro v _ hv; simp at hv
  | cons a t ih =>
    intro v hnd hv
    obtain ⟨hat, htn⟩ := List.nodup_cons.mp hnd
    by_cases hav : a = v
    · have hfil : t.filter (fun x => x ≠ v) = t := by
        rw [List.filter_eq_self]
        intro x hx
        simp only [ne_eq, decide_not, Bool.not_eq_eq_eq_not, Bool.not_true,
          decide_eq_false_iff_not]
        intro hxv
        rw [hxv, ← hav] at hx
        exact hat hx
      rw [List.filter_cons, if_neg (by simp [hav]), hfil]
      simp only [List.map_cons, List.sum_cons, hav]
      omega
    · have hvt : v ∈ t := by
        rcases List.mem_cons.mp hv with h | h
        · exact absurd h.symm hav
        · exact h
      rw [List.filter_cons, if_pos (by simp [hav])]
      simp only [List.map_cons, List.sum_cons]
      have := ih v htn hvt
      omega

theorem sum_map_one_add (l : List String) (f : String → Nat) :
    (l.map (fun v => 1 + f v)).sum = l.length + (l.map f).sum := by
  induction l with
  | nil => rfl
  | cons a t ih =>
    simp only [List.map_cons, List.sum_cons, List.length_cons, ih]
    omega

theorem reaches_mem_of_closed (G : GraphI) (S : List String)
    (hS : ∀ x ∈ S, ∀ p ∈ G.neighbors x, p.1 ∈ S) {a c : String}
    (ha : a ∈ S) (hw : Reaches G a c) : c ∈ S := by
  obtain ⟨steps, hwalk⟩ := hw
  induction hwalk with
  | nil => exact ha
  | cons hmem _ ih => exact ih (hS _ ha _ hmem)

namespace GraphTraversal

theorem dfsLoop_spec (G : GraphI) (hnd : G.vertices.Nodup)
    (hclosed : ∀ v ∈ G.vertices, ∀ p ∈ G.neighbors v, p.1 ∈ G.vertices) :
    ∀ fuel : Nat, ∀ visited stack : List String,
    visited.Nodup →
    (∀ x ∈ visited, x ∈ G.vertices) →
    (∀ x ∈ stack, x ∈ G.vertices) →
    (∀ x ∈ visited, ∀ p ∈ G.neighbors x, p.1 ∈ visited ∨ p.1 ∈ stack) →
    stack.length + ((G.vertices.filter (fun v => ¬v ∈ visited)).map
      (fun v => 1 + (G.neighbors v).length)).sum ≤ fuel →
    (dfsLoop G fuel visited visited stack).Nodup ∧
    (∀ x ∈ dfsLoop G fuel visited visited stack, x ∈ G.vertices) ∧
    (∀ x ∈ visited, x ∈ dfsLoop G fuel visited visited stack) ∧
    (∀ x ∈ stack, x ∈ dfsLoop G fuel visited visited stack) ∧
    (∀ x ∈ dfsLoop G fuel visited visited stack,
      ∀ p ∈ G.neighbors x, p.1 ∈ dfsLoop G fuel visited visited stack) := by
  intro fuel
  induction fuel with
  | zero =>
    intro visited stack h1 h2 _ h4 hpot
    have hs : stack = [] := List.eq_nil_of_length_eq_zero (by omega)
    subst hs
    refine ⟨h1, h2, fun x hx => hx, by simp, ?_⟩
    intro x hx p hp
    rcases h4 x hx p hp with h | h
    · exact h
    · simp at h
  | succ n ih =>
    intro visited stack h1 h2 h3 h4 hpot
    cases stack with
    | nil =>
      refine ⟨h1, h2, fun x hx => hx, by simp, ?_⟩
      intro x hx p hp
      rcases h4 x hx p hp with h | h
      · exact h
      · simp at h
    | cons v s =>
      by_cases hv : v ∈ visited
      · rw [show dfsLoop G (n + 1) visited visited (v :: s) =
            dfsLoop G n visited visited s by rw [dfsLoop, if_pos hv]]
        have h4' : ∀ x ∈ visited, ∀ p ∈ G.neighbors x, p.1 ∈ visited ∨ p.1 ∈ s := by
          intro x hx p hp
          rcases h4 x hx p hp with h | h
          · exact Or.inl h
          · rcases List.mem_cons.mp h with h' | h'
            · exact Or.inl (h' ▸ hv)
            · exact Or.inr h'
        have hpot' : s.length + ((G.vertices.filter (fun x => ¬x ∈ visited)).map
            (fun x => 1 + (G.neighbors x).length)).sum ≤ n := by
          simp only [List.length_cons] at hpot
          omega
        obtain ⟨c1, c2, c3, c4, c5⟩ := ih visited s h1 h2
          (fun x hx => h3 x (List.mem_cons_of_mem _ hx)) h4' hpot'
        refine ⟨c1, c2, c3, ?_, c5⟩
        intro x hx
        rcases List.mem_cons.mp hx with h | h
        · exact c3 x (h ▸ hv)
        · exact c4 x h
      · have hvv : v ∈ G.vertices := h3 v (List.mem_cons_self _ _)
        rw [show dfsLoop G (n + 1) visited visited (v :: s) =
            dfsLoop G n (visited ++ [v]) (visited ++ [v])
              ((((List.insertionSort descR (G.neighbors v)).filter
                (fun p => ¬p.1 ∈ visited ++ [v])).map Prod.fst).reverse ++ s)
            by rw [dfsLoop, if_neg hv]]
        have h1' : (visited ++ [v]).Nodup := by
          rw [List.nodup_append]
          refine ⟨h1, List.nodup_singleton v, ?_⟩
          intro a ha hav
          rw [List.mem_singleton.mp hav] at ha
          exact hv ha
        have h2' : ∀ x ∈ visited ++ [v], x ∈ G.vertices := by
          intro x hx
          rcases List.mem_append.mp hx with h | h
          · exact h2 x h
          · rw [List.mem_singleton.mp h]
            exact hvv
        have hpush : ∀ x ∈ ((List.insertionSort descR (G.neighbors v)).filter
            (fun p => ¬p.1 ∈ visited ++ [v])).map Prod.fst,
            ∃ p ∈ G.neighbors v, p.1 = x ∧ ¬x ∈ visited ++ [v] := by
          intro x hx
          rcases List.mem_map.mp hx with ⟨p, hpmem, hpx⟩
          rcases List.mem_filter.mp hpmem with ⟨hps, hpv⟩
          refine ⟨p, ?_, hpx, ?_⟩
          · exact (List.perm_insertionSort descR (G.neighbors v)).mem_iff.mp hps
          · rw [← hpx]
            simpa using hpv
        have h3' : ∀ x ∈ (((List.insertionSort descR (G.neighbors v)).filter
            (fun p => ¬p.1 ∈ visited ++ [v])).map Prod.fst).reverse ++ s,
            x ∈ G.vertices := by
          intro x hx
          rcases List.mem_append.mp hx with h | h
          · rw [List.mem_reverse] at h
            obtain ⟨p, hp, hpx, _⟩ := hpush x h
            rw [← hpx]
            exact hclosed v hvv p hp
          · exact h3 x (List.mem_cons_of_mem _ h)
        have h4' : ∀ x ∈ visited ++ [v], ∀ p ∈ G.neighbors x,
            p.1 ∈ visited ++ [v] ∨
            p.1 ∈ (((List.insertionSort descR (G.neighbors v)).filter
              (fun p => ¬p.1 ∈ visited ++ [v])).map Prod.fst).reverse ++ s := by
          intro x hx p hp
          rcases List.mem_append.mp hx with h | h
          · rcases h4 x h p hp with h' | h'
            · exact Or.inl (List.mem_append_left _ h')
            · rcases List.mem_cons.mp h' with h'' | h'' 
              · exact Or.inl (List.mem_append_right _ (by simp [h'']))
              · exact Or.inr (List.mem_append_right _ h'')
          · rw [List.mem_singleton.mp h] at hp
            by_cases hpin : p.1 ∈ visited ++ [v]
            · exact Or.inl hpin
            · refine Or.inr (List.mem_append_left _ ?_)
              rw [List.mem_reverse]
              refine List.mem_map.mpr ⟨p, ?_, rfl⟩
              refine List.mem_filter.mpr ⟨?_, by simpa using hpin⟩
              exact (List.perm_insertionSort descR (G.neighbors v)).mem_iff.mpr hp
        have hff : G.vertices.filter (fun x => ¬x ∈ visited ++ [v]) =
            (G.vertices.filter (fun x => ¬x ∈ visited)).filter (fun x => x ≠ v) := by
          rw [List.filter_filter]
          refine List.filter_congr ?_
          intro x _
          by_cases hx1 : x ∈ visited <;> by_cases hx2 : x = v <;>
            simp [hx1, hx2]
        have hvmem : v ∈ G.vertices.filter (fun x => ¬x ∈ visited) :=
          List.mem_filter.mpr ⟨hvv, by simpa using hv⟩
        have hsum := sum_filter_ne_of_nodup (G.vertices.filter (fun x => ¬x ∈ visited))
          (fun x => 1 + (G.neighbors x).length) v (hnd.filter _) hvmem
        dsimp only at hsum
        have hplen : (((List.insertionSort descR (G.neighbors v)).filter
            (fun p => ¬p.1 ∈ visited ++ [v])).map Prod.fst).length ≤
            (G.neighbors v).length := by
          rw [List.length_map]
          calc ((List.insertionSort descR (G.neighbors v)).filter
              (fun p => ¬p.1 ∈ visited ++ [v])).length
              ≤ (List.insertionSort descR (G.neighbors v)).length :=
                List.length_filter_le _ _
            _ = (G.neighbors v).length :=
                (List.perm_insertionSort descR (G.neighbors v)).length_eq
        have hpot' : ((((List.insertionSort descR (G.neighbors v)).filter
            (fun p => ¬p.1 ∈ visited ++ [v])).map Prod.fst).reverse ++ s).length +
            ((G.vertices.filter (fun x => ¬x ∈ visited ++ [v])).map
              (fun x => 1 + (G.neighbors x).length)).sum ≤ n := by
          rw [hff, List.length_append, List.length_reverse]
          simp only [List.length_cons] at hpot
          omega
        obtain ⟨c1, c2, c3, c4, c5⟩ := ih (visited ++ [v]) _ h1' h2' h3' h4' hpot'
        refine ⟨c1, c2, ?_, ?_, c5⟩
        · intro x hx
          exact c3 x (List.mem_append_left _ hx)
        · intro x hx
          rcases List.mem_cons.mp hx with h | h
          · exact c3 x (List.mem_append_right _ (by simp [h]))
          · exact c4 x (List.mem_append_right _ h)

theorem depth_first_search_complete (G : GraphI) (start : String)
    (hstart : start ∈ G.vertices) (hnd : G.vertices.Nodup)
    (hclosed : ∀ v ∈ G.vertices, ∀ p ∈ G.neighbors v, p.1 ∈ G.vertices)
    (hconn : ∀ v ∈ G.vertices, Reaches G start v) :
    (depth_first_search G start).Nodup ∧
    (∀ v, v ∈ depth_first_search G start ↔ v ∈ G.vertices) ∧
    (depth_first_search G start).length = G.vertices.length := by
  unfold depth_first_search
  rw [if_pos hstart]
  have hfil : G.vertices.filter (fun x => ¬x ∈ ([] : List String)) = G.vertices := by
    rw [List.filter_eq_self]
    intro x _
    simp
  have hpot : ([start] : List String).length +
      ((G.vertices.filter (fun x => ¬x ∈ ([] : List String))).map
        (fun x => 1 + (G.neighbors x).length)).sum ≤ dfsFuel G := by
    rw [hfil, sum_map_one_add]
    unfold dfsFuel
    simp only [List.length_singleton]
    omega
  obtain ⟨c1, c2, c3, c4, c5⟩ := dfsLoop_spec G hnd hclosed (dfsFuel G) [] [start]
    List.nodup_nil (by simp) (by simpa using hstart) (by simp) hpot
  have hsub : ∀ v ∈ G.vertices, v ∈ dfsLoop G (dfsFuel G) [] [] [start] := by
    intro v hvmem
    exact reaches_mem_of_closed G _ c5 (c4 start (List.mem_singleton_self _))
      (hconn v hvmem)
  have hiff : ∀ v, v ∈ dfsLoop G (dfsFuel G) [] [] [start] ↔ v ∈ G.vertices :=
    fun v => ⟨c2 v, hsub v⟩
  refine ⟨c1, hiff, ?_⟩
  exact ((List.perm_ext_iff_of_nodup c1 hnd).mpr hiff).length_eq

end GraphTraversal


theorem length_filter_ne_of_nodup (l : List String) : ∀ a : String, l.Nodup → a ∈ l →
    (l.filter (fun x => x ≠ a)).length + 1 = l.length := by
  induction l with
  | nil => intro a _ ha; simp at ha
  | cons b t ih =>
    intro a hnd ha
    obtain ⟨hbt, htn⟩ := List.nodup_cons.mp hnd
    by_cases hba : b = a
    · have hfil : t.filter (fun x => x ≠ a) = t := by
        rw [List.filter_eq_self]
        intro x hx
        simp only [ne_eq, decide_not, Bool.not_eq_eq_eq_not, Bool.not_true,
          decide_eq_false_iff_not]
        intro hxa
        rw [hxa, ← hba] at hx
        exact hbt hx
      rw [List.filter_cons, if_neg (by simp [hba]), hfil, List.length_cons]
    · have hat : a ∈ t := by
        rcases List.mem_cons.mp ha with h | h
        · exact absurd h.symm hba
        · exact h
      rw [List.filter_cons, if_pos (by simp [hba]), List.length_cons, List.length_cons]
      rw [← ih a htn hat]

theorem length_filter_not_mem : ∀ (L l : List String), l.Nodup → L.Nodup →
    (∀ x ∈ L, x ∈ l) →
    (l.filter (fun x => ¬x ∈ L)).length + L.length = l.length := by
  intro L
  induction L with
  | nil =>
    intro l _ _ _
    have : l.filter (fun x => ¬x ∈ ([] : List String)) = l := by
      rw [List.filter_eq_self]
      intro x _
      simp
    rw [this]
    rfl
  | cons a L' ih =>
    intro l hl hL hsub
    obtain ⟨haL, hL'⟩ := List.nodup_cons.mp hL
    have hal : a ∈ l := hsub a (List.mem_cons_self _ _)
    have hsplit : l.filter (fun x => ¬x ∈ a :: L') =
        (l.filter (fun x => x ≠ a)).filter (fun x => ¬x ∈ L') := by
      rw [List.filter_filter]
      refine List.filter_congr ?_
      intro x _
      by_cases h1 : x = a <;> by_cases h2 : x ∈ L' <;> simp [h1, h2]
    have hfn : (l.filter (fun x => x ≠ a)).Nodup := hl.filter _
    have hsub' : ∀ x ∈ L', x ∈ l.filter (fun x => x ≠ a) := by
      intro x hx
      refine List.mem_filter.mpr ⟨hsub x (List.mem_cons_of_mem _ hx), ?_⟩
      simp only [ne_eq, decide_not, Bool.not_eq_eq_eq_not, Bool.not_true,
        decide_eq_false_iff_not]
      intro hxa
      exact haL (hxa ▸ hx)
    have h1 := ih (l.filter (fun x => x ≠ a)) hfn hL' hsub'
    have h2 := length_filter_ne_of_nodup l a hl hal
    rw [hsplit, List.length_cons]
    omega

namespace GraphTraversal

theorem bfsEnqueue_spec : ∀ (ns : List (String × Int)) (visited queue : List String),
    ∃ L, bfsEnqueue ns visited queue = (visited ++ L, queue ++ L) ∧
      (∀ x ∈ L, ∃ w, (x, w) ∈ ns) ∧
      (visited.Nodup → (visited ++ L).Nodup) ∧
      (∀ p ∈ ns, p.1 ∈ visited ++ L) := by
  intro ns
  induction ns with
  | nil =>
    intro visited queue
    refine ⟨[], by simp [bfsEnqueue], by simp, fun h => by simpa using h, by simp⟩
  | cons p rest ih =>
    intro visited queue
    obtain ⟨n, w⟩ := p
    by_cases hn : n ∈ visited
    · obtain ⟨L, hL1, hL2, hL3, hL4⟩ := ih visited queue
      refine ⟨L, ?_, ?_, hL3, ?_⟩
      · rw [bfsEnqueue, if_pos hn]
        exact hL1
      · intro x hx
        obtain ⟨w', hw'⟩ := hL2 x hx
        exact ⟨w', List.mem_cons_of_mem _ hw'⟩
      · intro q hq
        rcases List.mem_cons.mp hq with h | h
        · rw [h]
          exact List.mem_append_left _ hn
        · exact hL4 q h
    · obtain ⟨L, hL1, hL2, hL3, hL4⟩ := ih (visited ++ [n]) (queue ++ [n])
      refine ⟨n :: L, ?_, ?_, ?_, ?_⟩
      · rw [bfsEnqueue, if_neg hn, hL1]
        simp
      · intro x hx
        rcases List.mem_cons.mp hx with h | h
        · exact ⟨w, by rw [h]; exact List.mem_cons_self _ _⟩
        · obtain ⟨w', hw'⟩ := hL2 x h
          exact ⟨w', List.mem_cons_of_mem _ hw'⟩
      · intro hvn
        have hvn' : (visited ++ [n]).Nodup := by
          rw [List.nodup_append]
          refine ⟨hvn, List.nodup_singleton n, ?_⟩
          intro a ha han
          rw [List.mem_singleton.mp han] at ha
          exact hn ha
        have := hL3 hvn'
        simpa [List.append_assoc] using this
      · intro q hq
        rcases List.mem_cons.mp hq with h | h
        · rw [h]
          have hmem : (n : String) ∈ (visited ++ [n]) ++ L :=
            List.mem_append_left _ (List.mem_append_right _ (by simp))
          simpa [List.append_assoc] using hmem
        · have := hL4 q h
          simpa [List.append_assoc] using this

theorem bfsLoop_spec (G : GraphI) (hnd : G.vertices.Nodup)
    (hclosed : ∀ v ∈ G.vertices, ∀ p ∈ G.neighbors v, p.1 ∈ G.vertices) :
    ∀ fuel : Nat, ∀ order queue : List String,
    (order ++ queue).Nodup →
    (∀ x ∈ order ++ queue, x ∈ G.vertices) →
    (∀ x ∈ order, ∀ p ∈ G.neighbors x, p.1 ∈ order ++ queue) →
    queue.length + (G.vertices.filter (fun v => ¬v ∈ order ++ queue)).length ≤ fuel →
    (bfsLoop G fuel (order ++ queue) order queue).Nodup ∧
    (∀ x ∈ bfsLoop G fuel (order ++ queue) order queue, x ∈ G.vertices) ∧
    (∀ x ∈ order ++ queue, x ∈ bfsLoop G fuel (order ++ queue) order queue) ∧
    (∀ x ∈ bfsLoop G fuel (order ++ queue) order queue, ∀ p ∈ G.neighbors x,
      p.1 ∈ bfsLoop G fuel (order ++ queue) order queue) := by
  intro fuel
  induction fuel with
  | zero =>
    intro order queue h1 h2 h3 hpot
    have hq : queue = [] := List.eq_nil_of_length_eq_zero (by omega)
    subst hq
    simp only [List.append_nil] at h1 h2 h3 ⊢
    exact ⟨h1, h2, fun x hx => hx, h3⟩
  | succ n ih =>
    intro order queue h1 h2 h3 hpot
    cases queue with
    | nil =>
      simp only [List.append_nil] at h1 h2 h3 ⊢
      exact ⟨h1, h2, fun x hx => hx, h3⟩
    | cons v rest =>
      obtain ⟨L, hL1, hL2, hL3, hL4⟩ := bfsEnqueue_spec
        (List.insertionSort ascR (G.neighbors v)) (order ++ v :: rest) rest
      have hvin : v ∈ order ++ v :: rest :=
        List.mem_append_right _ (List.mem_cons_self _ _)
      have hvv : v ∈ G.vertices := h2 v hvin
      have hLmem : ∀ x ∈ L, ∃ w, (x, w) ∈ G.neighbors v := by
        intro x hx
        obtain ⟨w, hw⟩ := hL2 x hx
        exact ⟨w, (List.perm_insertionSort ascR (G.neighbors v)).mem_iff.mp hw⟩
      have hstep : bfsLoop G (n + 1) (order ++ v :: rest) order (v :: rest) =
          bfsLoop G n ((order ++ [v]) ++ (rest ++ L)) (order ++ [v]) (rest ++ L) := by
        rw [bfsLoop, hL1]
        have heq : (order ++ v :: rest) ++ L = (order ++ [v]) ++ (rest ++ L) := by
          simp
        rw [heq]
      rw [hstep]
      have h1' : ((order ++ [v]) ++ (rest ++ L)).Nodup := by
        have := hL3 h1
        have heq : (order ++ v :: rest) ++ L = (order ++ [v]) ++ (rest ++ L) := by
          simp
        rw [heq] at this
        exact this
      have hmemiff : ∀ x : String,
          x ∈ (order ++ [v]) ++ (rest ++ L) ↔ x ∈ (order ++ v :: rest) ++ L := by
        intro x
        constructor <;> intro hx <;> simp at hx ⊢ <;> tauto
      have h2' : ∀ x ∈ (order ++ [v]) ++ (rest ++ L), x ∈ G.vertices := by
        intro x hx
        rcases List.mem_append.mp ((hmemiff x).mp hx) with h | h
        · exact h2 x h
        · obtain ⟨w, hw⟩ := hLmem x h
          exact hclosed v hvv (x, w) hw
      have h3' : ∀ x ∈ order ++ [v], ∀ p ∈ G.neighbors x,
          p.1 ∈ (order ++ [v]) ++ (rest ++ L) := by
        intro x hx p hp
        rcases List.mem_append.mp hx with h | h
        · refine (hmemiff p.1).mpr (List.mem_append_left _ ?_)
          exact h3 x h p hp
        · rw [List.mem_singleton.mp h] at hp
          refine (hmemiff p.1).mpr ?_
          exact hL4 p ((List.perm_insertionSort ascR (G.neighbors v)).mem_iff.mpr hp)
      have hLn : L.Nodup ∧ ∀ x ∈ L, ¬x ∈ order ++ v :: rest := by
        have := hL3 h1
        rw [List.nodup_append] at this
        exact ⟨this.2.1, fun x hx hx' => this.2.2 hx' hx⟩
      have hpot' : (rest ++ L).length +
          (G.vertices.filter (fun x => ¬x ∈ (order ++ [v]) ++ (rest ++ L))).length ≤ n := by
        have hfeq : G.vertices.filter (fun x => ¬x ∈ (order ++ [v]) ++ (rest ++ L)) =
            (G.vertices.filter (fun x => ¬x ∈ order ++ v :: rest)).filter
              (fun x => ¬x ∈ L) := by
          rw [List.filter_filter]
          refine List.filter_congr ?_
          intro x _
          have hbig : x ∈ (order ++ [v]) ++ (rest ++ L) ↔
              (x ∈ order ++ v :: rest ∨ x ∈ L) := by
            rw [hmemiff x]
            exact List.mem_append
          by_cases hx1 : x ∈ order ++ v :: rest
          · have hA : x ∈ (order ++ [v]) ++ (rest ++ L) := hbig.mpr (Or.inl hx1)
            have e1 : decide (¬x ∈ (order ++ [v]) ++ (rest ++ L)) = false :=
              decide_eq_false (fun h => h hA)
            have e2 : decide (¬x ∈ order ++ v :: rest) = false :=
              decide_eq_false (fun h => h hx1)
            rw [e1, e2, Bool.and_false]
          · by_cases hx2 : x ∈ L
            · have hA : x ∈ (order ++ [v]) ++ (rest ++ L) := hbig.mpr (Or.inr hx2)
              have e1 : decide (¬x ∈ (order ++ [v]) ++ (rest ++ L)) = false :=
                decide_eq_false (fun h => h hA)
              have e2 : decide (¬x ∈ L) = false := decide_eq_false (fun h => h hx2)
              rw [e1, e2, Bool.false_and]
            · have hA : ¬x ∈ (order ++ [v]) ++ (rest ++ L) := fun h =>
                (hbig.mp h).elim hx1 hx2
              have e1 : decide (¬x ∈ (order ++ [v]) ++ (rest ++ L)) = true :=
                decide_eq_true hA
              have e2 : decide (¬x ∈ L) = true := decide_eq_true hx2
              have e3 : decide (¬x ∈ order ++ v :: rest) = true := decide_eq_true hx1
              rw [e1, e2, e3]
              rfl
        have hLsub : ∀ x ∈ L, x ∈ G.vertices.filter (fun x => ¬x ∈ order ++ v :: rest) := by
          intro x hx
          refine List.mem_filter.mpr ⟨?_, by simpa using hLn.2 x hx⟩
          obtain ⟨w, hw⟩ := hLmem x hx
          exact hclosed v hvv (x, w) hw
        have hcount := length_filter_not_mem L
          (G.vertices.filter (fun x => ¬x ∈ order ++ v :: rest))
          (hnd.filter _) hLn.1 hLsub
        rw [hfeq, List.length_append]
        simp only [List.length_cons] at hpot
        omega
      obtain ⟨c1, c2, c3, c4⟩ := ih (order ++ [v]) (rest ++ L) h1' h2' h3' hpot'
      refine ⟨c1, c2, ?_, c4⟩
      intro x hx
      exact c3 x ((hmemiff x).mpr (List.mem_append_left _ hx))

theorem breadth_first_search_complete (G : GraphI) (start : String)
    (hstart : start ∈ G.vertices) (hnd : G.vertices.Nodup)
    (hclosed : ∀ v ∈ G.vertices, ∀ p ∈ G.neighbors v, p.1 ∈ G.vertices)
    (hconn : ∀ v ∈ G.vertices, Reaches G start v) :
    (breadth_first_search G start).Nodup ∧
    (∀ v, v ∈ breadth_first_search G start ↔ v ∈ G.vertices) ∧
    (breadth_first_search G start).length = G.vertices.length := by
  unfold breadth_first_search
  rw [if_pos hstart]
  have hpot : ([start] : List String).length +
      (G.vertices.filter (fun x => ¬x ∈ ([] : List String) ++ [start])).length ≤
      bfsFuel G := by
    have := List.length_filter_le (fun x => ¬x ∈ ([] : List String) ++ [start])
      G.vertices
    unfold bfsFuel
    simp only [List.length_singleton]
    omega
  have hspec := bfsLoop_spec G hnd hclosed (bfsFuel G) [] [start]
    (by simp) (by simpa using hstart) (by simp) hpot
  simp only [List.nil_append] at hspec
  obtain ⟨c1, c2, c3, c4⟩ := hspec
  have hsub : ∀ v ∈ G.vertices, v ∈ bfsLoop G (bfsFuel G) [start] [] [start] := by
    intro v hvmem
    exact reaches_mem_of_closed G _ c4 (c3 start (List.mem_singleton_self _))
      (hconn v hvmem)
  have hiff : ∀ v, v ∈ bfsLoop G (bfsFuel G) [start] [] [start] ↔ v ∈ G.vertices :=
    fun v => ⟨c2 v, hsub v⟩
  refine ⟨c1, hiff, ?_⟩
  exact ((List.perm_ext_iff_of_nodup c1 hnd).mpr hiff).length_eq

end GraphTraversal


/-- C7: traversal completeness.  For every connected graph (every vertex
reaches every vertex along stored edges) whose vertex list is duplicate-free
and whose stored neighbors are themselves vertices, and for every start
vertex present in it, `depth_first_search` and `breadth_first_search` each
return a sequence containing every vertex of the graph exactly once, so its
length equals the vertex count. -/
theorem traversal_completeness (G : GraphI) (start : String)
    (hstart : start ∈ G.vertices) (hnd : G.vertices.Nodup)
    (hclosed : ∀ v ∈ G.vertices, ∀ p ∈ G.neighbors v, p.1 ∈ G.vertices)
    (hconn : ∀ u ∈ G.vertices, ∀ v ∈ G.vertices, Reaches G u v) :
    ((GraphTraversal.depth_first_search G start).Nodup ∧
      (∀ v, v ∈ GraphTraversal.depth_first_search G start ↔ v ∈ G.vertices) ∧
      (GraphTraversal.depth_first_search G start).length = G.vertices.length) ∧
    ((GraphTraversal.breadth_first_search G start).Nodup ∧
      (∀ v, v ∈ GraphTraversal.breadth_first_search G start ↔ v ∈ G.vertices) ∧
      (GraphTraversal.breadth_first_search G start).length = G.vertices.length) :=
  ⟨GraphTraversal.depth_first_search_complete G start hstart hnd hclosed
      (fun v hv => hconn start hstart v hv),
    GraphTraversal.breadth_first_search_complete G start hstart hnd hclosed
      (fun v hv => hconn start hstart v hv)⟩

/-- Witness for `traversal_completeness` on a concrete two-vertex connected
graph. -/
theorem traversal_completeness_witness :
    ("A" ∈ (GraphAdjacencyList.runOps false true
        [GOp.addVertex "A", GOp.addVertex "B", GOp.addEdge "A" "B" 1]).toI.vertices) ∧
    (GraphTraversal.depth_first_search (GraphAdjacencyList.runOps false true
        [GOp.addVertex "A", GOp.addVertex "B", GOp.addEdge "A" "B" 1]).toI
        "A").length =
      (GraphAdjacencyList.runOps false true
        [GOp.addVertex "A", GOp.addVertex "B", GOp.addEdge "A" "B" 1]).toI.vertices.length ∧
    (GraphTraversal.breadth_first_search (GraphAdjacencyList.runOps false true
        [GOp.addVertex "A", GOp.addVertex "B", GOp.addEdge "A" "B" 1]).toI
        "A").length =
      (GraphAdjacencyList.runOps false true
        [GOp.addVertex "A", GOp.addVertex "B", GOp.addEdge "A" "B" 1]).toI.vertices.length := by
  have hverts : (GraphAdjacencyList.runOps false true
      [GOp.addVertex "A", GOp.addVertex "B", GOp.addEdge "A" "B" 1]).toI.vertices =
      ["A", "B"] := by decide
  have hAB : ("B", (1 : Int)) ∈ (GraphAdjacencyList.runOps false true
      [GOp.addVertex "A", GOp.addVertex "B", GOp.addEdge "A" "B" 1]).toI.neighbors
      "A" := by decide
  have hBA : ("A", (1 : Int)) ∈ (GraphAdjacencyList.runOps false true
      [GOp.addVertex "A", GOp.addVertex "B", GOp.addEdge "A" "B" 1]).toI.neighbors
      "B" := by decide
  have hconn : ∀ u ∈ (GraphAdjacencyList.runOps false true
      [GOp.addVertex "A", GOp.addVertex "B", GOp.addEdge "A" "B" 1]).toI.vertices,
      ∀ v ∈ (GraphAdjacencyList.runOps false true
        [GOp.addVertex "A", GOp.addVertex "B", GOp.addEdge "A" "B" 1]).toI.vertices,
      Reaches (GraphAdjacencyList.runOps false true
        [GOp.addVertex "A", GOp.addVertex "B", GOp.addEdge "A" "B" 1]).toI u v := by
    intro u hu v hv
    rw [hverts] at hu hv
    have hu' : u = "A" ∨ u = "B" := by simpa using hu
    have hv' : v = "A" ∨ v = "B" := by simpa using hv
    rcases hu' with rfl | rfl <;> rcases hv' with rfl | rfl
    · exact ⟨[], IsWalk.nil _⟩
    · exact ⟨[("B", 1)], IsWalk.cons hAB (IsWalk.nil _)⟩
    · exact ⟨[("A", 1)], IsWalk.cons hBA (IsWalk.nil _)⟩
    · exact ⟨[], IsWalk.nil _⟩
  have happ := traversal_completeness (GraphAdjacencyList.runOps false true
      [GOp.addVertex "A", GOp.addVertex "B", GOp.addEdge "A" "B" 1]).toI "A"
    (by decide) (by decide) (by decide) hconn
  exact ⟨by decide, happ.1.2.2, happ.2.2.2⟩


/-! ## C9: traversal order is representation-independent -/

theorem uint32_lt_trans {a b c : UInt32} (h1 : a < b) (h2 : b < c) : a < c := by
  show a.val < c.val
  exact lt_trans (show a.val < b.val from h1) (show b.val < c.val from h2)

theorem uint32_lt_irrefl (a : UInt32) : ¬a < a := by
  show ¬a.val < a.val
  exact lt_irrefl _

theorem uint32_lt_trichotomy (a b : UInt32) : a < b ∨ a = b ∨ b < a := by
  rcases lt_trichotomy a.val b.val with h | h | h
  · exact Or.inl h
  · exact Or.inr (Or.inl (UInt32.eq_of_val_eq h))
  · exact Or.inr (Or.inr h)

theorem charListLt_irrefl : ∀ x : List Char, charListLt x x = false := by
  intro x
  induction x with
  | nil => rfl
  | cons a as ih =>
    simp only [charListLt]
    rw [if_neg (uint32_lt_irrefl a.val)]
    simpa using ih

theorem charListLt_trans : ∀ x y z : List Char,
    charListLt x y = true → charListLt y z = true → charListLt x z = true := by
  intro x
  induction x with
  | nil =>
    intro y z hxy hyz
    cases y with
    | nil => simp [charListLt] at hxy
    | cons b bs =>
      cases z with
      | nil => simp [charListLt] at hyz
      | cons c cs => simp [charListLt]
  | cons a as ih =>
    intro y z hxy hyz
    cases y with
    | nil => simp [charListLt] at hxy
    | cons b bs =>
      cases z with
      | nil => simp [charListLt] at hyz
      | cons c cs =>
        simp only [charListLt] at hxy hyz ⊢
        by_cases h1 : a.val < b.val
        · by_cases h2 : b.val < c.val
          · rw [if_pos (show a.val < c.val from uint32_lt_trans h1 h2)]
          · by_cases h3 : b.val = c.val
            · rw [if_pos (show a.val < c.val from h3 ▸ h1)]
            · rw [if_neg h2, if_neg h3] at hyz
              simp at hyz
        · by_cases h1e : a.val = b.val
          · rw [if_neg h1, if_pos h1e] at hxy
            by_cases h2 : b.val < c.val
            · rw [if_pos (show a.val < c.val from h1e ▸ h2)]
            · by_cases h3 : b.val = c.val
              · rw [if_neg h2, if_pos h3] at hyz
                rw [if_neg (show ¬a.val < c.val by
                    rw [h1e.trans h3]; exact uint32_lt_irrefl _),
                  if_pos (h1e.trans h3)]
                exact ih bs cs hxy hyz
              · rw [if_neg h2, if_neg h3] at hyz
                simp at hyz
          · rw [if_neg h1, if_neg h1e] at hxy
            simp at hxy

theorem charListLt_conn : ∀ x y : List Char,
    charListLt x y = false → charListLt y x = false → x = y := by
  intro x
  induction x with
  | nil =>
    intro y hxy _
    cases y with
    | nil => rfl
    | cons b bs => simp [charListLt] at hxy
  | cons a as ih =>
    intro y hxy hyx
    cases y with
    | nil => simp [charListLt] at hyx
    | cons b bs =>
      simp only [charListLt] at hxy hyx
      by_cases h1 : a.val < b.val
      · rw [if_pos h1] at hxy
        simp at hxy
      · by_cases h2 : b.val < a.val
        · rw [if_pos h2] at hyx
          simp at hyx
        · have hab : a.val = b.val := by
            rcases uint32_lt_trichotomy a.val b.val with h | h | h
            · exact absurd h h1
            · exact h
            · exact absurd h h2
          rw [if_neg h1, if_pos hab] at hxy
          rw [if_neg h2, if_pos hab.symm] at hyx
          rw [Char.ext hab, ih bs hxy hyx]

theorem strLtB_trans {a b c : String} (h1 : strLtB a b = true)
    (h2 : strLtB b c = true) : strLtB a c = true :=
  charListLt_trans a.data b.data c.data h1 h2

theorem strLtB_conn {a b : String} (h1 : strLtB a b = false)
    (h2 : strLtB b a = false) : a = b := by
  cases a with
  | mk da =>
    cases b with
    | mk db =>
      rw [charListLt_conn da db h1 h2]

theorem strLtB_irrefl (a : String) : strLtB a a = false := charListLt_irrefl a.data

theorem strLtB_asymm {a b : String} (h : strLtB a b = true) : strLtB b a = false := by
  cases hb : strLtB b a with
  | false => rfl
  | true => exact absurd (strLtB_trans h hb) (by rw [strLtB_irrefl]; simp)

namespace GraphTraversal

instance : IsTotal (String × Int) descR where
  total := by
    intro a b
    cases h : strLtB a.1 b.1 with
    | false => exact Or.inl h
    | true => exact Or.inr (strLtB_asymm h)

instance : IsTrans (String × Int) descR where
  trans := by
    intro a b c hab hbc
    show strLtB a.1 c.1 = false
    cases hac : strLtB a.1 c.1 with
    | false => rfl
    | true =>
      cases h1 : strLtB a.1 b.1 with
      | true => exact absurd h1 (by rw [hab]; simp)
      | false =>
        cases h2 : strLtB b.1 a.1 with
        | true =>
          exact absurd (strLtB_trans h2 hac) (by rw [hbc]; simp)
        | false =>
          have := strLtB_conn h1 h2
          rw [this] at hac
          exact absurd hac (by rw [hbc]; simp)

instance : IsTotal (String × Int) ascR where
  total := by
    intro a b
    cases h : strLtB b.1 a.1 with
    | false => exact Or.inl h
    | true => exact Or.inr (strLtB_asymm h)

instance : IsTrans (String × Int) ascR where
  trans := by
    intro a b c hab hbc
    show strLtB c.1 a.1 = false
    cases hac : strLtB c.1 a.1 with
    | false => rfl
    | true =>
      cases h1 : strLtB b.1 a.1 with
      | true => exact absurd h1 (by rw [hab]; simp)
      | false =>
        cases h2 : strLtB a.1 b.1 with
        | true =>
          exact absurd (strLtB_trans hac h2) (by rw [hbc]; simp)
        | false =>
          have heq := strLtB_conn h2 h1
          have hbc' : strLtB c.1 b.1 = false := hbc
          rw [← heq] at hbc'
          exact absurd hac (by rw [hbc']; simp)

theorem descR_key_eq {a b : String × Int} (h1 : descR a b) (h2 : descR b a) :
    a.1 = b.1 := strLtB_conn h1 h2

theorem ascR_key_eq {a b : String × Int} (h1 : ascR a b) (h2 : ascR b a) :
    a.1 = b.1 := strLtB_conn h2 h1

end GraphTraversal

theorem eq_of_perm_sorted_keyNodup (R : String × Int → String × Int → Prop)
    [DecidableRel R] (hR : ∀ a b, R a b → R b a → a.1 = b.1) :
    ∀ l1 l2 : List (String × Int), l1.Perm l2 → l1.Sorted R → l2.Sorted R →
    (l1.map Prod.fst).Nodup → l1 = l2 := by
  intro l1
  induction l1 with
  | nil =>
    intro l2 hperm _ _ _
    exact hperm.nil_eq
  | cons a t1 ih =>
    intro l2 hperm hs1 hs2 hkn
    cases l2 with
    | nil => exact absurd hperm.symm.nil_eq (by simp)
    | cons b t2 =>
      by_cases hab : a = b
      · rw [hab]
        rw [hab] at hperm hs1 hkn
        rw [ih t2 hperm.cons_inv (List.sorted_cons.mp hs1).2
          (List.sorted_cons.mp hs2).2 (by
            simp only [List.map_cons] at hkn
            exact (List.nodup_cons.mp hkn).2)]
      · exfalso
        have hain : a ∈ b :: t2 := hperm.mem_iff.mp (List.mem_cons_self _ _)
        have hbin : b ∈ a :: t1 := hperm.symm.mem_iff.mp (List.mem_cons_self _ _)
        have hat2 : a ∈ t2 := by
          rcases List.mem_cons.mp hain with h | h
          · exact absurd h hab
          · exact h
        have hbt1 : b ∈ t1 := by
          rcases List.mem_cons.mp hbin with h | h
          · exact absurd h.symm hab
          · exact h
        have hRab : R a b := (List.sorted_cons.mp hs1).1 b hbt1
        have hRba : R b a := (List.sorted_cons.mp hs2).1 a hat2
        have hkey : a.1 = b.1 := hR a b hRab hRba
        simp only [List.map_cons, List.nodup_cons] at hkn
        exact hkn.1 (by rw [hkey]; exact List.mem_map_of_mem Prod.fst hbt1)


theorem orderedInsert_eq_cons (R : String × Int → String × Int → Prop)
    [DecidableRel R] (a : String × Int) :
    ∀ l : List (String × Int), (∀ c ∈ l, R a c) →
    List.orderedInsert R a l = a :: l := by
  intro l h
  cases l with
  | nil => rfl
  | cons c cs => rw [List.orderedInsert, if_pos (h c (List.mem_cons_self _ _))]

theorem filter_orderedInsert (R : String × Int → String × Int → Prop)
    [DecidableRel R] [IsTrans (String × Int) R] (q : String × Int → Bool) :
    ∀ (a : String × Int) (l : List (String × Int)), l.Sorted R →
    (List.orderedInsert R a l).filter q =
      if q a then List.orderedInsert R a (l.filter q) else l.filter q := by
  intro a l
  induction l with
  | nil =>
    intro _
    by_cases hq : q a = true <;> simp [List.orderedInsert, List.filter, hq]
  | cons b t ih =>
    intro hs
    obtain ⟨hb, ht⟩ := List.sorted_cons.mp hs
    by_cases hRab : R a b
    · rw [List.orderedInsert, if_pos hRab]
      by_cases hq : q a = true
      · rw [if_pos hq, List.filter_cons, if_pos hq]
        by_cases hqb : q b = true
        · rw [List.filter_cons, if_pos hqb, List.orderedInsert, if_pos hRab]
        · rw [List.filter_cons, if_neg hqb,
            orderedInsert_eq_cons R a (t.filter q) ?_]
          intro c hc
          have hct : c ∈ t := List.mem_of_mem_filter hc
          exact Trans.trans hRab (hb c hct)
      · rw [if_neg hq, List.filter_cons, if_neg hq]
    · rw [List.orderedInsert, if_neg hRab]
      by_cases hqb : q b = true
      · rw [List.filter_cons, if_pos hqb, List.filter_cons, if_pos hqb, ih ht]
        by_cases hq : q a = true
        · rw [if_pos hq, if_pos hq, List.orderedInsert, if_neg hRab]
        · rw [if_neg hq, if_neg hq]
      · rw [List.filter_cons, if_neg hqb, List.filter_cons, if_neg hqb, ih ht]

theorem filter_insertionSort (R : String × Int → String × Int → Prop)
    [DecidableRel R] [IsTotal (String × Int) R] [IsTrans (String × Int) R]
    (q : String × Int → Bool) :
    ∀ l : List (String × Int),
    (List.insertionSort R l).filter q = List.insertionSort R (l.filter q) := by
  intro l
  induction l with
  | nil => rfl
  | cons a t ih =>
    rw [List.insertionSort,
      filter_orderedInsert R q a (List.insertionSort R t) (List.sorted_insertionSort R t),
      List.filter_cons]
    by_cases hq : q a = true
    · rw [if_pos hq, if_pos hq, ih, List.insertionSort]
    · rw [if_neg hq, if_neg hq, ih]

theorem keys_nodup_of_countKey_le_one :
    ∀ l : List (String × Int), (∀ x, countKey l x ≤ 1) → (l.map Prod.fst).Nodup := by
  intro l
  induction l with
  | nil => intro _; simp
  | cons p t ih =>
    intro h
    simp only [List.map_cons, List.nodup_cons]
    constructor
    · intro hmem
      rcases List.mem_map.mp hmem with ⟨q, hq, hqp⟩
      have h1 : 1 ≤ countKey t p.1 := by
        unfold countKey
        refine List.countP_pos.mpr ⟨q, hq, by simp [hqp]⟩
      have h2 := h p.1
      unfold countKey at h2
      rw [List.countP_cons, if_pos (by simp)] at h2
      unfold countKey at h1
      omega
    · refine ih ?_
      intro x
      have h2 := h x
      unfold countKey at h2 ⊢
      rw [List.countP_cons] at h2
      omega

theorem sorted_filtered_neighbors_eq
    (R : String × Int → String × Int → Prop) [DecidableRel R]
    [IsTotal (String × Int) R] [IsTrans (String × Int) R]
    (hR : ∀ a b, R a b → R b a → a.1 = b.1)
    (n1 n2 : List (String × Int)) (vis : List String) (v : String)
    (hmem : ∀ p, p ∈ n1 ↔ p ∈ n2)
    (hu1 : ∀ x, x ≠ v → countKey n1 x ≤ 1)
    (hu2 : ∀ x, x ≠ v → countKey n2 x ≤ 1)
    (hv : v ∈ vis) :
    List.insertionSort R (n1.filter (fun p => ¬p.1 ∈ vis)) =
      List.insertionSort R (n2.filter (fun p => ¬p.1 ∈ vis)) := by
  have hcount : ∀ (n : List (String × Int)), (∀ x, x ≠ v → countKey n x ≤ 1) →
      ∀ x, countKey (n.filter (fun p => ¬p.1 ∈ vis)) x ≤ 1 := by
    intro n hn x
    by_cases hxv : x = v
    · rw [hxv]
      have h0 : countKey (n.filter (fun p => ¬p.1 ∈ vis)) v = 0 := by
        rw [countKey_eq_zero_iff]
        intro p hp
        have := List.of_mem_filter hp
        intro hpv
        rw [hpv] at this
        have h2 : ¬v ∈ vis := by simpa using this
        exact h2 hv
      omega
    · calc countKey (n.filter (fun p => ¬p.1 ∈ vis)) x
          ≤ countKey n x := by
            unfold countKey
            exact (List.filter_sublist n).countP_le _
        _ ≤ 1 := hn x hxv
  have hk1 := keys_nodup_of_countKey_le_one _ (hcount n1 hu1)
  have hk2 := keys_nodup_of_countKey_le_one _ (hcount n2 hu2)
  have hperm : (n1.filter (fun p => ¬p.1 ∈ vis)).Perm
      (n2.filter (fun p => ¬p.1 ∈ vis)) := by
    refine (List.perm_ext_iff_of_nodup (hk1.of_map _) (hk2.of_map _)).mpr ?_
    intro p
    rw [List.mem_filter, List.mem_filter, hmem p]
  refine eq_of_perm_sorted_keyNodup R hR _ _ ?_ ?_ ?_ ?_
  · exact ((List.perm_insertionSort R _).trans hperm).trans
      (List.perm_insertionSort R _).symm
  · exact List.sorted_insertionSort R _
  · exact List.sorted_insertionSort R _
  · exact ((List.perm_insertionSort R
      (n1.filter (fun p => ¬p.1 ∈ vis))).map Prod.fst).nodup_iff.mpr hk1


namespace GraphTraversal

theorem dfsLoop_congr (G1 G2 : GraphI)
    (hn : ∀ v p, p ∈ G1.neighbors v ↔ p ∈ G2.neighbors v)
    (hu1 : ∀ v x, x ≠ v → countKey (G1.neighbors v) x ≤ 1)
    (hu2 : ∀ v x, x ≠ v → countKey (G2.neighbors v) x ≤ 1) :
    ∀ fuel visited order stack,
    dfsLoop G1 fuel visited order stack = dfsLoop G2 fuel visited order stack := by
  intro fuel
  induction fuel with
  | zero => intro visited order stack; rfl
  | succ n ih =>
    intro visited order stack
    cases stack with
    | nil => rfl
    | cons v s =>
      by_cases hv : v ∈ visited
      · rw [show dfsLoop G1 (n + 1) visited order (v :: s) =
            dfsLoop G1 n visited order s by rw [dfsLoop, if_pos hv],
          show dfsLoop G2 (n + 1) visited order (v :: s) =
            dfsLoop G2 n visited order s by rw [dfsLoop, if_pos hv]]
        exact ih visited order s
      · rw [show dfsLoop G1 (n + 1) visited order (v :: s) =
            dfsLoop G1 n (visited ++ [v]) (order ++ [v])
              ((((List.insertionSort descR (G1.neighbors v)).filter
                (fun p => ¬p.1 ∈ visited ++ [v])).map Prod.fst).reverse ++ s)
            by rw [dfsLoop, if_neg hv],
          show dfsLoop G2 (n + 1) visited order (v :: s) =
            dfsLoop G2 n (visited ++ [v]) (order ++ [v])
              ((((List.insertionSort descR (G2.neighbors v)).filter
                (fun p => ¬p.1 ∈ visited ++ [v])).map Prod.fst).reverse ++ s)
            by rw [dfsLoop, if_neg hv]]
        have hps : ((List.insertionSort descR (G1.neighbors v)).filter
            (fun p => ¬p.1 ∈ visited ++ [v])).map Prod.fst =
            ((List.insertionSort descR (G2.neighbors v)).filter
            (fun p => ¬p.1 ∈ visited ++ [v])).map Prod.fst := by
          rw [filter_insertionSort, filter_insertionSort,
            sorted_filtered_neighbors_eq descR (fun a b h1 h2 => descR_key_eq h1 h2) (G1.neighbors v)
              (G2.neighbors v) (visited ++ [v]) v (hn v) (hu1 v) (hu2 v)
              (List.mem_append_right _ (List.mem_singleton_self _))]
        rw [hps]
        exact ih _ _ _

theorem dfsLoop_succ_eq (G : GraphI) (hnd : G.vertices.Nodup)
    (hclosed : ∀ v ∈ G.vertices, ∀ p ∈ G.neighbors v, p.1 ∈ G.vertices) :
    ∀ fuel : Nat, ∀ visited order stack : List String,
    (∀ x ∈ stack, x ∈ G.vertices) →
    stack.length + ((G.vertices.filter (fun v => ¬v ∈ visited)).map
      (fun v => 1 + (G.neighbors v).length)).sum ≤ fuel →
    dfsLoop G (fuel + 1) visited order stack = dfsLoop G fuel visited order stack := by
  intro fuel
  induction fuel with
  | zero =>
    intro visited order stack _ hpot
    have hs : stack = [] := List.eq_nil_of_length_eq_zero (by omega)
    subst hs
    rfl
  | succ n ih =>
    intro visited order stack hstk hpot
    cases stack with
    | nil => rfl
    | cons v s =>
      by_cases hv : v ∈ visited
      · rw [show dfsLoop G (n + 1 + 1) visited order (v :: s) =
            dfsLoop G (n + 1) visited order s by rw [dfsLoop, if_pos hv],
          show dfsLoop G (n + 1) visited order (v :: s) =
            dfsLoop G n visited order s by rw [dfsLoop, if_pos hv]]
        refine ih visited order s (fun x hx => hstk x (List.mem_cons_of_mem _ hx)) ?_
        simp only [List.length_cons] at hpot
        omega
      · have hvv : v ∈ G.vertices := hstk v (List.mem_cons_self _ _)
        rw [show dfsLoop G (n + 1 + 1) visited order (v :: s) =
            dfsLoop G (n + 1) (visited ++ [v]) (order ++ [v])
              ((((List.insertionSort descR (G.neighbors v)).filter
                (fun p => ¬p.1 ∈ visited ++ [v])).map Prod.fst).reverse ++ s)
            by rw [dfsLoop, if_neg hv],
          show dfsLoop G (n + 1) visited order (v :: s) =
            dfsLoop G n (visited ++ [v]) (order ++ [v])
              ((((List.insertionSort descR (G.neighbors v)).filter
                (fun p => ¬p.1 ∈ visited ++ [v])).map Prod.fst).reverse ++ s)
            by rw [dfsLoop, if_neg hv]]
        have hstk' : ∀ x ∈ (((List.insertionSort descR (G.neighbors v)).filter
            (fun p => ¬p.1 ∈ visited ++ [v])).map Prod.fst).reverse ++ s,
            x ∈ G.vertices := by
          intro x hx
          rcases List.mem_append.mp hx with h | h
          · rw [List.mem_reverse] at h
            rcases List.mem_map.mp h with ⟨p, hpmem, hpx⟩
            rcases List.mem_filter.mp hpmem with ⟨hps, _⟩
            rw [← hpx]
            exact hclosed v hvv p
              ((List.perm_insertionSort descR (G.neighbors v)).mem_iff.mp hps)
          · exact hstk x (List.mem_cons_of_mem _ h)
        have hff : G.vertices.filter (fun x => ¬x ∈ visited ++ [v]) =
            (G.vertices.filter (fun x => ¬x ∈ visited)).filter (fun x => x ≠ v) := by
          rw [List.filter_filter]
          refine List.filter_congr ?_
          intro x _
          by_cases hx1 : x ∈ visited <;> by_cases hx2 : x = v <;>
            simp [hx1, hx2]
        have hvmem : v ∈ G.vertices.filter (fun x => ¬x ∈ visited) :=
          List.mem_filter.mpr ⟨hvv, by simpa using hv⟩
        have hsum := sum_filter_ne_of_nodup (G.vertices.filter (fun x => ¬x ∈ visited))
          (fun x => 1 + (G.neighbors x).length) v (hnd.filter _) hvmem
        dsimp only at hsum
        have hplen : (((List.insertionSort descR (G.neighbors v)).filter
            (fun p => ¬p.1 ∈ visited ++ [v])).map Prod.fst).length ≤
            (G.neighbors v).length := by
          rw [List.length_map]
          calc ((List.insertionSort descR (G.neighbors v)).filter
              (fun p => ¬p.1 ∈ visited ++ [v])).length
              ≤ (List.insertionSort descR (G.neighbors v)).length :=
                List.length_filter_le _ _
            _ = (G.neighbors v).length :=
                (List.perm_insertionSort descR (G.neighbors v)).length_eq
        refine ih (visited ++ [v]) (order ++ [v]) _ hstk' ?_
        rw [List.length_append, List.length_reverse, hff]
        simp only [List.length_cons] at hpot
        omega

theorem dfsLoop_fuel_ge (G : GraphI) (hnd : G.vertices.Nodup)
    (hclosed : ∀ v ∈ G.vertices, ∀ p ∈ G.neighbors v, p.1 ∈ G.vertices) :
    ∀ k fuel : Nat, ∀ visited order stack : List String,
    (∀ x ∈ stack, x ∈ G.vertices) →
    stack.length + ((G.vertices.filter (fun v => ¬v ∈ visited)).map
      (fun v => 1 + (G.neighbors v).length)).sum ≤ fuel →
    dfsLoop G (fuel + k) visited order stack = dfsLoop G fuel visited order stack := by
  intro k
  induction k with
  | zero => intro fuel visited order stack _ _; rfl
  | succ m ih =>
    intro fuel visited order stack hstk hpot
    have h1 : fuel + (m + 1) = (fuel + m) + 1 := by omega
    rw [h1, dfsLoop_succ_eq G hnd hclosed (fuel + m) visited order stack hstk
      (by omega), ih fuel visited order stack hstk hpot]

theorem depth_first_search_congr (G1 G2 : GraphI) (start : String)
    (hv : ∀ x, x ∈ G1.vertices ↔ x ∈ G2.vertices)
    (hn : ∀ v p, p ∈ G1.neighbors v ↔ p ∈ G2.neighbors v)
    (hu1 : ∀ v x, x ≠ v → countKey (G1.neighbors v) x ≤ 1)
    (hu2 : ∀ v x, x ≠ v → countKey (G2.neighbors v) x ≤ 1)
    (hnd1 : G1.vertices.Nodup) (hnd2 : G2.vertices.Nodup)
    (hc1 : ∀ v ∈ G1.vertices, ∀ p ∈ G1.neighbors v, p.1 ∈ G1.vertices)
    (hc2 : ∀ v ∈ G2.vertices, ∀ p ∈ G2.neighbors v, p.1 ∈ G2.vertices) :
    depth_first_search G1 start = depth_first_search G2 start := by
  unfold depth_first_search
  by_cases hs : start ∈ G1.vertices
  · rw [if_pos hs, if_pos ((hv start).mp hs)]
    have hpotinit : ∀ G : GraphI, start ∈ G.vertices →
        ([start] : List String).length +
        ((G.vertices.filter (fun x => ¬x ∈ ([] : List String))).map
          (fun x => 1 + (G.neighbors x).length)).sum ≤ dfsFuel G := by
      intro G hsG
      have hfil : G.vertices.filter (fun x => ¬x ∈ ([] : List String)) = G.vertices := by
        rw [List.filter_eq_self]
        intro x _
        simp
      rw [hfil, sum_map_one_add]
      unfold dfsFuel
      simp only [List.length_singleton]
      omega
    have hstk1 : ∀ x ∈ ([start] : List String), x ∈ G1.vertices := by
      intro x hx
      rw [List.mem_singleton.mp hx]
      exact hs
    have hstk2 : ∀ x ∈ ([start] : List String), x ∈ G2.vertices := by
      intro x hx
      rw [List.mem_singleton.mp hx]
      exact (hv start).mp hs
    have e1 : dfsLoop G1 (dfsFuel G1 + (max (dfsFuel G1) (dfsFuel G2) - dfsFuel G1))
        [] [] [start] = dfsLoop G1 (dfsFuel G1) [] [] [start] :=
      dfsLoop_fuel_ge G1 hnd1 hc1 _ (dfsFuel G1) [] [] [start] hstk1
        (hpotinit G1 hs)
    have e2 : dfsLoop G2 (dfsFuel G2 + (max (dfsFuel G1) (dfsFuel G2) - dfsFuel G2))
        [] [] [start] = dfsLoop G2 (dfsFuel G2) [] [] [start] :=
      dfsLoop_fuel_ge G2 hnd2 hc2 _ (dfsFuel G2) [] [] [start] hstk2
        (hpotinit G2 ((hv start).mp hs))
    have hm1 : dfsFuel G1 + (max (dfsFuel G1) (dfsFuel G2) - dfsFuel G1) =
        max (dfsFuel G1) (dfsFuel G2) := by
      have := Nat.le_max_left (dfsFuel G1) (dfsFuel G2)
      omega
    have hm2 : dfsFuel G2 + (max (dfsFuel G1) (dfsFuel G2) - dfsFuel G2) =
        max (dfsFuel G1) (dfsFuel G2) := by
      have := Nat.le_max_right (dfsFuel G1) (dfsFuel G2)
      omega
    rw [hm1] at e1
    rw [hm2] at e2
    rw [← e1, ← e2]
    exact dfsLoop_congr G1 G2 hn hu1 hu2 _ [] [] [start]
  · rw [if_neg hs, if_neg (fun h => hs ((hv start).mpr h))]

end GraphTraversal


namespace GraphTraversal

theorem bfsEnqueue_filter_sub : ∀ (ns : List (String × Int)) (vis vis' q : List String),
    (∀ x ∈ vis, x ∈ vis') →
    bfsEnqueue (ns.filter (fun p => ¬p.1 ∈ vis)) vis' q = bfsEnqueue ns vis' q := by
  intro ns
  induction ns with
  | nil => intro vis vis' q _; rfl
  | cons p rest ih =>
    intro vis vis' q hsub
    obtain ⟨m, w⟩ := p
    by_cases hm : m ∈ vis
    · have h1 : ((m, w) :: rest).filter (fun p => ¬p.1 ∈ vis) =
          rest.filter (fun p => ¬p.1 ∈ vis) := by
        rw [List.filter_cons, if_neg (by simpa using hm)]
      rw [h1, ih vis vis' q hsub]
      refine Eq.symm ?_
      rw [bfsEnqueue, if_pos (hsub m hm)]
    · have h1 : ((m, w) :: rest).filter (fun p => ¬p.1 ∈ vis) =
          (m, w) :: rest.filter (fun p => ¬p.1 ∈ vis) := by
        rw [List.filter_cons, if_pos (by simpa using hm)]
      rw [h1]
      by_cases hm' : m ∈ vis'
      · rw [bfsEnqueue, if_pos hm', ih vis vis' q hsub]
        refine Eq.symm ?_
        rw [bfsEnqueue, if_pos hm']
      · rw [bfsEnqueue, if_neg hm',
          ih vis (vis' ++ [m]) (q ++ [m]) (fun x hx => List.mem_append_left _ (hsub x hx))]
        refine Eq.symm ?_
        rw [bfsEnqueue, if_neg hm']

theorem bfsLoop_congr (G1 G2 : GraphI)
    (hn : ∀ v p, p ∈ G1.neighbors v ↔ p ∈ G2.neighbors v)
    (hu1 : ∀ v x, x ≠ v → countKey (G1.neighbors v) x ≤ 1)
    (hu2 : ∀ v x, x ≠ v → countKey (G2.neighbors v) x ≤ 1) :
    ∀ fuel visited order queue, (∀ x ∈ queue, x ∈ visited) →
    bfsLoop G1 fuel visited order queue = bfsLoop G2 fuel visited order queue := by
  intro fuel
  induction fuel with
  | zero => intro visited order queue _; rfl
  | succ n ih =>
    intro visited order queue hq
    cases queue with
    | nil => rfl
    | cons v rest =>
      have hvv : v ∈ visited := hq v (List.mem_cons_self _ _)
      have henq : bfsEnqueue (List.insertionSort ascR (G1.neighbors v)) visited rest =
          bfsEnqueue (List.insertionSort ascR (G2.neighbors v)) visited rest := by
        rw [← bfsEnqueue_filter_sub (List.insertionSort ascR (G1.neighbors v))
            visited visited rest (fun x hx => hx),
          ← bfsEnqueue_filter_sub (List.insertionSort ascR (G2.neighbors v))
            visited visited rest (fun x hx => hx),
          filter_insertionSort, filter_insertionSort,
          sorted_filtered_neighbors_eq ascR (fun a b h1 h2 => ascR_key_eq h1 h2)
            (G1.neighbors v) (G2.neighbors v) visited v (hn v) (hu1 v) (hu2 v) hvv]
      obtain ⟨L, hL1, _, _, _⟩ := bfsEnqueue_spec
        (List.insertionSort ascR (G1.neighbors v)) visited rest
      rw [show bfsLoop G1 (n + 1) visited order (v :: rest) =
          bfsLoop G1 n (visited ++ L) (order ++ [v]) (rest ++ L) by
            rw [bfsLoop, hL1],
        show bfsLoop G2 (n + 1) visited order (v :: rest) =
          bfsLoop G2 n (visited ++ L) (order ++ [v]) (rest ++ L) by
            rw [bfsLoop, ← henq, hL1]]
      refine ih (visited ++ L) (order ++ [v]) (rest ++ L) ?_
      intro x hx
      rcases List.mem_append.mp hx with h | h
      · exact List.mem_append_left _ (hq x (List.mem_cons_of_mem _ h))
      · exact List.mem_append_right _ h

theorem bfsLoop_succ_eq (G : GraphI) (hnd : G.vertices.Nodup)
    (hclosed : ∀ v ∈ G.vertices, ∀ p ∈ G.neighbors v, p.1 ∈ G.vertices) :
    ∀ fuel : Nat, ∀ visited order queue : List String,
    (∀ x ∈ queue, x ∈ visited) → (∀ x ∈ visited, x ∈ G.vertices) → visited.Nodup →
    queue.length + (G.vertices.filter (fun v => ¬v ∈ visited)).length ≤ fuel →
    bfsLoop G (fuel + 1) visited order queue = bfsLoop G fuel visited order queue := by
  intro fuel
  induction fuel with
  | zero =>
    intro visited order queue _ _ _ hpot
    have hqnil : queue = [] := List.eq_nil_of_length_eq_zero (by omega)
    subst hqnil
    rfl
  | succ n ih =>
    intro visited order queue hq hvis hvnd hpot
    cases queue with
    | nil => rfl
    | cons v rest =>
      have hvv : v ∈ visited := hq v (List.mem_cons_self _ _)
      have hvg : v ∈ G.vertices := hvis v hvv
      obtain ⟨L, hL1, hL2, hL3, _⟩ := bfsEnqueue_spec
        (List.insertionSort ascR (G.neighbors v)) visited rest
      have hLmem : ∀ x ∈ L, ∃ w, (x, w) ∈ G.neighbors v := by
        intro x hx
        obtain ⟨w, hw⟩ := hL2 x hx
        exact ⟨w, (List.perm_insertionSort ascR (G.neighbors v)).mem_iff.mp hw⟩
      rw [show bfsLoop G (n + 1 + 1) visited order (v :: rest) =
          bfsLoop G (n + 1) (visited ++ L) (order ++ [v]) (rest ++ L) by
            rw [bfsLoop, hL1],
        show bfsLoop G (n + 1) visited order (v :: rest) =
          bfsLoop G n (visited ++ L) (order ++ [v]) (rest ++ L) by
            rw [bfsLoop, hL1]]
      have hq' : ∀ x ∈ rest ++ L, x ∈ visited ++ L := by
        intro x hx
        rcases List.mem_append.mp hx with h | h
        · exact List.mem_append_left _ (hq x (List.mem_cons_of_mem _ h))
        · exact List.mem_append_right _ h
      have hvis' : ∀ x ∈ visited ++ L, x ∈ G.vertices := by
        intro x hx
        rcases List.mem_append.mp hx with h | h
        · exact hvis x h
        · obtain ⟨w, hw⟩ := hLmem x h
          exact hclosed v hvg (x, w) hw
      have hvnd' : (visited ++ L).Nodup := hL3 hvnd
      have hLn : L.Nodup ∧ ∀ x ∈ L, ¬x ∈ visited := by
        rw [List.nodup_append] at hvnd'
        exact ⟨hvnd'.2.1, fun x hx hx' => hvnd'.2.2 hx' hx⟩
      have hfeq : G.vertices.filter (fun x => ¬x ∈ visited ++ L) =
          (G.vertices.filter (fun x => ¬x ∈ visited)).filter (fun x => ¬x ∈ L) := by
        rw [List.filter_filter]
        refine List.filter_congr ?_
        intro x _
        by_cases hx1 : x ∈ visited
        · have hbig : x ∈ visited ++ L := List.mem_append_left _ hx1
          have e1 : decide (¬x ∈ visited ++ L) = false :=
            decide_eq_false (fun h => h hbig)
          have e2 : decide (¬x ∈ visited) = false := decide_eq_false (fun h => h hx1)
          rw [e1, e2, Bool.and_false]
        · by_cases hx2 : x ∈ L
          · have hbig : x ∈ visited ++ L := List.mem_append_right _ hx2
            have e1 : decide (¬x ∈ visited ++ L) = false :=
              decide_eq_false (fun h => h hbig)
            have e2 : decide (¬x ∈ L) = false := decide_eq_false (fun h => h hx2)
            rw [e1, e2, Bool.false_and]
          · have hbig : ¬x ∈ visited ++ L := fun h =>
              (List.mem_append.mp h).elim hx1 hx2
            have e1 : decide (¬x ∈ visited ++ L) = true := decide_eq_true hbig
            have e2 : decide (¬x ∈ L) = true := decide_eq_true hx2
            have e3 : decide (¬x ∈ visited) = true := decide_eq_true hx1
            rw [e1, e2, e3]
            rfl
      have hLsub : ∀ x ∈ L, x ∈ G.vertices.filter (fun x => ¬x ∈ visited) := by
        intro x hx
        refine List.mem_filter.mpr ⟨?_, by simpa using hLn.2 x hx⟩
        obtain ⟨w, hw⟩ := hLmem x hx
        exact hclosed v hvg (x, w) hw
      have hcount := length_filter_not_mem L
        (G.vertices.filter (fun x => ¬x ∈ visited)) (hnd.filter _) hLn.1 hLsub
      refine ih (visited ++ L) (order ++ [v]) (rest ++ L) hq' hvis' hvnd' ?_
      rw [hfeq, List.length_append]
      simp only [List.length_cons] at hpot
      omega

theorem bfsLoop_fuel_ge (G : GraphI) (hnd : G.vertices.Nodup)
    (hclosed : ∀ v ∈ G.vertices, ∀ p ∈ G.neighbors v, p.1 ∈ G.vertices) :
    ∀ k fuel : Nat, ∀ visited order queue : List String,
    (∀ x ∈ queue, x ∈ visited) → (∀ x ∈ visited, x ∈ G.vertices) → visited.Nodup →
    queue.length + (G.vertices.filter (fun v => ¬v ∈ visited)).length ≤ fuel →
    bfsLoop G (fuel + k) visited order queue = bfsLoop G fuel visited order queue := by
  intro k
  induction k with
  | zero => intro fuel visited order queue _ _ _ _; rfl
  | succ m ih =>
    intro fuel visited order queue hq hvis hvnd hpot
    have h1 : fuel + (m + 1) = (fuel + m) + 1 := by omega
    rw [h1, bfsLoop_succ_eq G hnd hclosed (fuel + m) visited order queue hq hvis hvnd
      (by omega), ih fuel visited order queue hq hvis hvnd hpot]

theorem breadth_first_search_congr (G1 G2 : GraphI) (start : String)
    (hv : ∀ x, x ∈ G1.vertices ↔ x ∈ G2.vertices)
    (hn : ∀ v p, p ∈ G1.neighbors v ↔ p ∈ G2.neighbors v)
    (hu1 : ∀ v x, x ≠ v → countKey (G1.neighbors v) x ≤ 1)
    (hu2 : ∀ v x, x ≠ v → countKey (G2.neighbors v) x ≤ 1)
    (hnd1 : G1.vertices.Nodup) (hnd2 : G2.vertices.Nodup)
    (hc1 : ∀ v ∈ G1.vertices, ∀ p ∈ G1.neighbors v, p.1 ∈ G1.vertices)
    (hc2 : ∀ v ∈ G2.vertices, ∀ p ∈ G2.neighbors v, p.1 ∈ G2.vertices) :
    breadth_first_search G1 start = breadth_first_search G2 start := by
  unfold breadth_first_search
  by_cases hs : start ∈ G1.vertices
  · rw [if_pos hs, if_pos ((hv start).mp hs)]
    have hpotinit : ∀ G : GraphI,
        ([start] : List String).length +
        (G.vertices.filter (fun x => ¬x ∈ ([start] : List String))).length ≤
        bfsFuel G := by
      intro G
      have := List.length_filter_le (fun x => ¬x ∈ ([start] : List String)) G.vertices
      unfold bfsFuel
      simp only [List.length_singleton]
      omega
    have hq0 : ∀ x ∈ ([start] : List String), x ∈ ([start] : List String) :=
      fun x hx => hx
    have hvis1 : ∀ x ∈ ([start] : List String), x ∈ G1.vertices := by
      intro x hx
      rw [List.mem_singleton.mp hx]
      exact hs
    have hvis2 : ∀ x ∈ ([start] : List String), x ∈ G2.vertices := by
      intro x hx
      rw [List.mem_singleton.mp hx]
      exact (hv start).mp hs
    have e1 : bfsLoop G1 (bfsFuel G1 + (max (bfsFuel G1) (bfsFuel G2) - bfsFuel G1))
        [start] [] [start] = bfsLoop G1 (bfsFuel G1) [start] [] [start] :=
      bfsLoop_fuel_ge G1 hnd1 hc1 _ (bfsFuel G1) [start] [] [start] hq0 hvis1
        (List.nodup_singleton _) (hpotinit G1)
    have e2 : bfsLoop G2 (bfsFuel G2 + (max (bfsFuel G1) (bfsFuel G2) - bfsFuel G2))
        [start] [] [start] = bfsLoop G2 (bfsFuel G2) [start] [] [start] :=
      bfsLoop_fuel_ge G2 hnd2 hc2 _ (bfsFuel G2) [start] [] [start] hq0 hvis2
        (List.nodup_singleton _) (hpotinit G2)
    have hm1 : bfsFuel G1 + (max (bfsFuel G1) (bfsFuel G2) - bfsFuel G1) =
        max (bfsFuel G1) (bfsFuel G2) := by
      have := Nat.le_max_left (bfsFuel G1) (bfsFuel G2)
      omega
    have hm2 : bfsFuel G2 + (max (bfsFuel G1) (bfsFuel G2) - bfsFuel G2) =
        max (bfsFuel G1) (bfsFuel G2) := by
      have := Nat.le_max_right (bfsFuel G1) (bfsFuel G2)
      omega
    rw [hm1] at e1
    rw [hm2] at e2
    rw [← e1, ← e2]
    exact bfsLoop_congr G1 G2 hn hu1 hu2 _ [start] [] [start] hq0
  · rw [if_neg hs, if_neg (fun h => hs ((hv start).mpr h))]

end GraphTraversal


theorem AL_toI_neighbors (g : GraphAdjacencyList) (v : String) :
    g.toI.neighbors v = (alookup g.adjacency_list v).getD [] := rfl

theorem countKey_single_le (a : String) (w : Int) (x : String) :
    countKey [(a, w)] x ≤ 1 := by
  by_cases ha : a = x <;> simp [countKey, ha]

theorem countKey_pair_le (a b : String) (w1 w2 : Int) (x : String) (hab : a ≠ b) :
    countKey [(a, w1), (b, w2)] x ≤ 1 := by
  by_cases ha : a = x
  · have hbx : ¬b = x := fun h => hab (ha.trans h.symm)
    simp [countKey, ha, hbx]
  · by_cases hb : b = x <;> simp [countKey, ha, hb]

/-- C9: traversal order is deterministic and independent of storage
iteration order.  For any two graph objects exposing the same vertex set and
the same edge-and-weight relation (with at most one stored entry per distinct
ordered pair, duplicate-free vertex lists, and neighbors closed under the
vertex set, as every reachable representation state guarantees),
`depth_first_search` and `breadth_first_search` from the same start vertex
return identical output sequences. -/
theorem traversal_order_rep_independent (G1 G2 : GraphI) (start : String)
    (hv : ∀ x, x ∈ G1.vertices ↔ x ∈ G2.vertices)
    (hn : ∀ v p, p ∈ G1.neighbors v ↔ p ∈ G2.neighbors v)
    (hu1 : ∀ v x, x ≠ v → countKey (G1.neighbors v) x ≤ 1)
    (hu2 : ∀ v x, x ≠ v → countKey (G2.neighbors v) x ≤ 1)
    (hnd1 : G1.vertices.Nodup) (hnd2 : G2.vertices.Nodup)
    (hc1 : ∀ v ∈ G1.vertices, ∀ p ∈ G1.neighbors v, p.1 ∈ G1.vertices)
    (hc2 : ∀ v ∈ G2.vertices, ∀ p ∈ G2.neighbors v, p.1 ∈ G2.vertices) :
    GraphTraversal.depth_first_search G1 start =
      GraphTraversal.depth_first_search G2 start ∧
    GraphTraversal.breadth_first_search G1 start =
      GraphTraversal.breadth_first_search G2 start :=
  ⟨GraphTraversal.depth_first_search_congr G1 G2 start hv hn hu1 hu2 hnd1 hnd2 hc1 hc2,
    GraphTraversal.breadth_first_search_congr G1 G2 start hv hn hu1 hu2 hnd1 hnd2 hc1 hc2⟩

/-- Witness for `traversal_order_rep_independent`: the same undirected graph
built with its two edges inserted in opposite orders. -/
theorem traversal_order_rep_independent_witness :
    (GraphAdjacencyList.runOps false true [GOp.addVertex "A", GOp.addVertex "B",
        GOp.addVertex "C", GOp.addEdge "A" "B" 1, GOp.addEdge "A" "C" 2]).toI.vertices.Nodup ∧
    GraphTraversal.depth_first_search (GraphAdjacencyList.runOps false true
        [GOp.addVertex "A", GOp.addVertex "B", GOp.addVertex "C",
          GOp.addEdge "A" "B" 1, GOp.addEdge "A" "C" 2]).toI "A" =
      GraphTraversal.depth_first_search (GraphAdjacencyList.runOps false true
        [GOp.addVertex "A", GOp.addVertex "B", GOp.addVertex "C",
          GOp.addEdge "A" "C" 2, GOp.addEdge "A" "B" 1]).toI "A" ∧
    GraphTraversal.breadth_first_search (GraphAdjacencyList.runOps false true
        [GOp.addVertex "A", GOp.addVertex "B", GOp.addVertex "C",
          GOp.addEdge "A" "B" 1, GOp.addEdge "A" "C" 2]).toI "A" =
      GraphTraversal.breadth_first_search (GraphAdjacencyList.runOps false true
        [GOp.addVertex "A", GOp.addVertex "B", GOp.addVertex "C",
          GOp.addEdge "A" "C" 2, GOp.addEdge "A" "B" 1]).toI "A" := by
  have h1adj : (GraphAdjacencyList.runOps false true [GOp.addVertex "A",
      GOp.addVertex "B", GOp.addVertex "C", GOp.addEdge "A" "B" 1,
      GOp.addEdge "A" "C" 2]).adjacency_list =
      [("A", [("B", 1), ("C", 2)]), ("B", [("A", 1)]), ("C", [("A", 2)])] := by
    decide
  have h2adj : (GraphAdjacencyList.runOps false true [GOp.addVertex "A",
      GOp.addVertex "B", GOp.addVertex "C", GOp.addEdge "A" "C" 2,
      GOp.addEdge "A" "B" 1]).adjacency_list =
      [("A", [("C", 2), ("B", 1)]), ("B", [("A", 1)]), ("C", [("A", 2)])] := by
    decide
  have hn : ∀ v p, p ∈ (GraphAdjacencyList.runOps false true [GOp.addVertex "A",
      GOp.addVertex "B", GOp.addVertex "C", GOp.addEdge "A" "B" 1,
      GOp.addEdge "A" "C" 2]).toI.neighbors v ↔
      p ∈ (GraphAdjacencyList.runOps false true [GOp.addVertex "A",
      GOp.addVertex "B", GOp.addVertex "C", GOp.addEdge "A" "C" 2,
      GOp.addEdge "A" "B" 1]).toI.neighbors v := by
    intro v p
    rw [AL_toI_neighbors, AL_toI_neighbors, h1adj, h2adj]
    by_cases hA : "A" = v
    · simp only [alookup, if_pos hA, Option.getD_some]
      constructor <;> intro h <;> simp at h ⊢ <;> tauto
    · by_cases hB : "B" = v
      · simp [alookup, hA, hB]
      · by_cases hC : "C" = v <;> simp [alookup, hA, hB, hC]
  have hu : ∀ (l : List (String × List (String × Int))),
      (∀ u fl, alookup l u = some fl → ∀ x, countKey fl x ≤ 1) →
      ∀ v x, x ≠ v → countKey ((alookup l v).getD []) x ≤ 1 := by
    intro l hl v x _
    cases hlv : alookup l v with
    | none => simp [countKey]
    | some fl => exact hl v fl hlv x
  have hu1 : ∀ v x, x ≠ v → countKey ((GraphAdjacencyList.runOps false true
      [GOp.addVertex "A", GOp.addVertex "B", GOp.addVertex "C",
        GOp.addEdge "A" "B" 1, GOp.addEdge "A" "C" 2]).toI.neighbors v) x ≤ 1 := by
    intro v x hxv
    rw [AL_toI_neighbors, h1adj]
    refine hu _ ?_ v x hxv
    intro u fl hlu x'
    by_cases hA : "A" = u
    · rw [show fl = [("B", (1 : Int)), ("C", 2)] by
        simpa [alookup, hA] using hlu.symm]
      exact countKey_pair_le _ _ _ _ _ (by decide)
    · by_cases hB : "B" = u
      · rw [show fl = [("A", (1 : Int))] by simpa [alookup, hA, hB] using hlu.symm]
        exact countKey_single_le _ _ _
      · by_cases hC : "C" = u
        · rw [show fl = [("A", (2 : Int))] by
            simpa [alookup, hA, hB, hC] using hlu.symm]
          exact countKey_single_le _ _ _
        · simp [alookup, hA, hB, hC] at hlu
  have hu2 : ∀ v x, x ≠ v → countKey ((GraphAdjacencyList.runOps false true
      [GOp.addVertex "A", GOp.addVertex "B", GOp.addVertex "C",
        GOp.addEdge "A" "C" 2, GOp.addEdge "A" "B" 1]).toI.neighbors v) x ≤ 1 := by
    intro v x hxv
    rw [AL_toI_neighbors, h2adj]
    refine hu _ ?_ v x hxv
    intro u fl hlu x'
    by_cases hA : "A" = u
    · rw [show fl = [("C", (2 : Int)), ("B", 1)] by
        simpa [alookup, hA] using hlu.symm]
      exact countKey_pair_le _ _ _ _ _ (by decide)
    · by_cases hB : "B" = u
      · rw [show fl = [("A", (1 : Int))] by simpa [alookup, hA, hB] using hlu.symm]
        exact countKey_single_le _ _ _
      · by_cases hC : "C" = u
        · rw [show fl = [("A", (2 : Int))] by
            simpa [alookup, hA, hB, hC] using hlu.symm]
          exact countKey_single_le _ _ _
        · simp [alookup, hA, hB, hC] at hlu
  have happ := traversal_order_rep_independent
    (GraphAdjacencyList.runOps false true [GOp.addVertex "A", GOp.addVertex "B",
      GOp.addVertex "C", GOp.addEdge "A" "B" 1, GOp.addEdge "A" "C" 2]).toI
    (GraphAdjacencyList.runOps false true [GOp.addVertex "A", GOp.addVertex "B",
      GOp.addVertex "C", GOp.addEdge "A" "C" 2, GOp.addEdge "A" "B" 1]).toI
    "A" (by intro x; rw [show (GraphAdjacencyList.runOps false true
      [GOp.addVertex "A", GOp.addVertex "B", GOp.addVertex "C",
        GOp.addEdge "A" "B" 1, GOp.addEdge "A" "C" 2]).toI.vertices =
      ["A", "B", "C"] by decide, show (GraphAdjacencyList.runOps false true
      [GOp.addVertex "A", GOp.addVertex "B", GOp.addVertex "C",
        GOp.addEdge "A" "C" 2, GOp.addEdge "A" "B" 1]).toI.vertices =
      ["A", "B", "C"] by decide])
    hn hu1 hu2 (by decide) (by decide) (by decide) (by decide)
  exact ⟨by decide, happ.1, happ.2⟩


/-! ## C6: BFS shortest path -/

theorem walk_nil_inv {G : GraphI} {a c : String} (h : IsWalk G a [] c) : a = c := by
  cases h
  rfl

theorem walk_snoc {G : GraphI} {a b c : String} {w : Int} {steps : List (String × Int)}
    (h : IsWalk G a steps b) (hc : (c, w) ∈ G.neighbors b) :
    IsWalk G a (steps ++ [(c, w)]) c := by
  induction h with
  | nil a => exact IsWalk.cons hc (IsWalk.nil c)
  | cons hm _ ih => exact IsWalk.cons hm (ih hc)

theorem walk_unsnoc {G : GraphI} {a c : String} :
    ∀ {steps : List (String × Int)}, IsWalk G a steps c → steps ≠ [] →
    ∃ b steps0 w, IsWalk G a steps0 b ∧ (c, w) ∈ G.neighbors b ∧
      steps = steps0 ++ [(c, w)] := by
  intro steps
  induction steps generalizing a with
  | nil => intro _ hne; exact absurd rfl hne
  | cons p rest ih =>
    intro h _
    cases h with
    | cons hm hw =>
      cases rest with
      | nil =>
        cases hw with
        | nil => exact ⟨a, [], _, IsWalk.nil a, hm, rfl⟩
      | cons q t =>
        obtain ⟨b, steps0, w, hw0, hcb, heq⟩ := ih hw (by simp)
        exact ⟨b, _ :: steps0, w, IsWalk.cons hm hw0, hcb, by rw [heq]; rfl⟩

namespace ShortestPath

theorem bspScan_found (e : String) : ∀ (ns : List (String × Int)) (path : List String)
    (visited : List String) (queue : List (String × List String)),
    (∃ w, (e, w) ∈ ns) →
    ∃ vis2 q2, bspScan e path ns visited queue = (some (path ++ [e]), vis2, q2) := by
  intro ns
  induction ns with
  | nil =>
    intro path visited queue he
    simp at he
  | cons p rest ih =>
    intro path visited queue he
    obtain ⟨n, w⟩ := p
    by_cases hne : n = e
    · refine ⟨visited, queue, ?_⟩
      rw [bspScan, if_pos hne, hne]
    · obtain ⟨w', hw'⟩ := he
      have he' : ∃ w', (e, w') ∈ rest := by
        rcases List.mem_cons.mp hw' with h | h
        · exact absurd (congrArg Prod.fst h).symm hne
        · exact ⟨w', h⟩
      by_cases hv : n ∈ visited
      · obtain ⟨vis2, q2, hres⟩ := ih path visited queue he'
        exact ⟨vis2, q2, by rw [bspScan, if_neg hne, if_pos hv]; exact hres⟩
      · obtain ⟨vis2, q2, hres⟩ := ih path (visited ++ [n])
          (queue ++ [(n, path ++ [n])]) he'
        exact ⟨vis2, q2, by rw [bspScan, if_neg hne, if_neg hv]; exact hres⟩

theorem bspScan_not_found (e : String) : ∀ (ns : List (String × Int))
    (path : List String) (visited : List String)
    (queue : List (String × List String)),
    (∀ w, ¬(e, w) ∈ ns) →
    ∃ L : List String,
      bspScan e path ns visited queue =
        (none, visited ++ L, queue ++ L.map (fun n => (n, path ++ [n]))) ∧
      (∀ x ∈ L, ∃ w, (x, w) ∈ ns) ∧
      (visited.Nodup → (visited ++ L).Nodup) ∧
      (∀ p ∈ ns, p.1 ∈ visited ++ L) := by
  intro ns
  induction ns with
  | nil =>
    intro path visited queue _
    exact ⟨[], by simp [bspScan], by simp, fun h => by simpa using h, by simp⟩
  | cons p rest ih =>
    intro path visited queue he
    obtain ⟨n, w⟩ := p
    have hne : ¬n = e := by
      intro hh
      exact he w (by rw [hh]; exact List.mem_cons_self _ _)
    have he' : ∀ w', ¬(e, w') ∈ rest :=
      fun w' hw' => he w' (List.mem_cons_of_mem _ hw')
    by_cases hv : n ∈ visited
    · obtain ⟨L, hL1, hL2, hL3, hL4⟩ := ih path visited queue he'
      refine ⟨L, ?_, ?_, hL3, ?_⟩
      · rw [bspScan, if_neg hne, if_pos hv]
        exact hL1
      · intro x hx
        obtain ⟨w', hw'⟩ := hL2 x hx
        exact ⟨w', List.mem_cons_of_mem _ hw'⟩
      · intro q hq
        rcases List.mem_cons.mp hq with h | h
        · rw [h]
          exact List.mem_append_left _ hv
        · exact hL4 q h
    · obtain ⟨L, hL1, hL2, hL3, hL4⟩ := ih path (visited ++ [n])
        (queue ++ [(n, path ++ [n])]) he'
      refine ⟨n :: L, ?_, ?_, ?_, ?_⟩
      · rw [bspScan, if_neg hne, if_neg hv, hL1]
        simp
      · intro x hx
        rcases List.mem_cons.mp hx with h | h
        · exact ⟨w, by rw [h]; exact List.mem_cons_self _ _⟩
        · obtain ⟨w', hw'⟩ := hL2 x h
          exact ⟨w', List.mem_cons_of_mem _ hw'⟩
      · intro hvn
        have hvn' : (visited ++ [n]).Nodup := by
          rw [List.nodup_append]
          refine ⟨hvn, List.nodup_singleton n, ?_⟩
          intro a ha han
          rw [List.mem_singleton.mp han] at ha
          exact hv ha
        have := hL3 hvn'
        simpa [List.append_assoc] using this
      · intro q hq
        rcases List.mem_cons.mp hq with h | h
        · rw [h]
          have hmem : (n : String) ∈ (visited ++ [n]) ++ L :=
            List.mem_append_left _ (List.mem_append_right _ (by simp))
          simpa [List.append_assoc] using hmem
        · have := hL4 q h
          simpa [List.append_assoc] using this

end ShortestPath


namespace ShortestPath

theorem bspLoop_spec (G : GraphI) (s e : String) (hnd : G.vertices.Nodup)
    (hclosed : ∀ v ∈ G.vertices, ∀ p ∈ G.neighbors v, p.1 ∈ G.vertices) :
    ∀ fuel : Nat, ∀ visited : List String, ∀ queue : List (String × List String),
    ¬e ∈ visited →
    s ∈ visited →
    (∀ x ∈ visited, x ∈ G.vertices) →
    visited.Nodup →
    (∀ qp ∈ queue, qp.1 ∈ visited ∧
      ∃ steps, IsWalk G s steps qp.1 ∧ qp.2 = s :: steps.map Prod.fst) →
    (∀ x ∈ visited, (∃ p, (x, p) ∈ queue) ∨ ∀ pr ∈ G.neighbors x, pr.1 ∈ visited) →
    List.Pairwise (fun a b : String × List String => a.2.length ≤ b.2.length) queue →
    (∀ h ∈ queue.head?, ∀ a ∈ queue, a.2.length ≤ h.2.length + 1) →
    (∀ qp ∈ queue, ∀ steps, IsWalk G s steps qp.1 → qp.2.length ≤ steps.length + 1) →
    (∀ h ∈ queue.head?, ∀ x, ¬x ∈ visited → ∀ steps, IsWalk G s steps x →
      h.2.length ≤ steps.length) →
    queue.length + (G.vertices.filter (fun v => ¬v ∈ visited)).length ≤ fuel →
    (∃ steps, IsWalk G s steps e ∧
      bspLoop G e fuel visited queue = s :: steps.map Prod.fst ∧
      (∀ steps2, IsWalk G s steps2 e → steps.length ≤ steps2.length)) ∨
    (bspLoop G e fuel visited queue = [] ∧ ¬Reaches G s e) := by
  intro fuel
  induction fuel with
  | zero =>
    intro visited queue h0 h1 hsub hvnd _ hproc _ _ _ _ hpot
    have hqnil : queue = [] := List.eq_nil_of_length_eq_zero (by omega)
    subst hqnil
    refine Or.inr ⟨rfl, ?_⟩
    intro hreach
    have hclo : ∀ x ∈ visited, ∀ pr ∈ G.neighbors x, pr.1 ∈ visited := by
      intro x hx
      rcases hproc x hx with ⟨p, hp⟩ | h
      · simp at hp
      · exact h
    exact h0 (reaches_mem_of_closed G visited hclo h1 hreach)
  | succ n ih =>
    intro visited queue h0 h1 hsub hvnd hq hproc hmono hspread hup hlow hpot
    cases queue with
    | nil =>
      refine Or.inr ⟨rfl, ?_⟩
      intro hreach
      have hclo : ∀ x ∈ visited, ∀ pr ∈ G.neighbors x, pr.1 ∈ visited := by
        intro x hx
        rcases hproc x hx with ⟨p, hp⟩ | h
        · simp at hp
        · exact h
      exact h0 (reaches_mem_of_closed G visited hclo h1 hreach)
    | cons hd rest =>
      obtain ⟨v, path⟩ := hd
      obtain ⟨hvin, stv, hwv, hpathv⟩ := hq (v, path) (List.mem_cons_self _ _)
      have hpathv2 : path = s :: stv.map Prod.fst := hpathv
      have hwv2 : IsWalk G s stv v := hwv
      have hvg : v ∈ G.vertices := hsub v hvin
      have hDlen : path.length = stv.length + 1 := by
        rw [hpathv2]
        simp
      by_cases hfound : ∃ w, (e, w) ∈ G.neighbors v
      · obtain ⟨w, hw⟩ := hfound
        obtain ⟨vis2, q2, hres⟩ := bspScan_found e (G.neighbors v) path visited rest
          ⟨w, hw⟩
        refine Or.inl ⟨stv ++ [(e, w)], walk_snoc hwv2 hw, ?_, ?_⟩
        · rw [show bspLoop G e (n + 1) visited ((v, path) :: rest) = path ++ [e] by
            rw [bspLoop, hres], hpathv2]
          simp
        · intro steps2 hw2
          have hlb := hlow (v, path) (by simp) e h0 steps2 hw2
          have hlb2 : path.length ≤ steps2.length := hlb
          simp only [List.length_append, List.length_singleton]
          omega
      · have hnf : ∀ w, ¬(e, w) ∈ G.neighbors v := fun w hw => hfound ⟨w, hw⟩
        obtain ⟨L, hL1, hL2, hL3, hL4⟩ := bspScan_not_found e (G.neighbors v) path
          visited rest hnf
        rw [show bspLoop G e (n + 1) visited ((v, path) :: rest) =
            bspLoop G e n (visited ++ L)
              (rest ++ L.map (fun m => (m, path ++ [m]))) by rw [bspLoop, hL1]]
        have hvnd' : (visited ++ L).Nodup := hL3 hvnd
        have hLn : L.Nodup ∧ ∀ x ∈ L, ¬x ∈ visited := by
          rw [List.nodup_append] at hvnd'
          exact ⟨hvnd'.2.1, fun x hx hx' => hvnd'.2.2 hx' hx⟩
        have h0' : ¬e ∈ visited ++ L := by
          intro hh
          rcases List.mem_append.mp hh with h | h
          · exact h0 h
          · obtain ⟨w', hw'⟩ := hL2 e h
            exact hnf w' hw'
        have h1' : s ∈ visited ++ L := List.mem_append_left _ h1
        have hsub' : ∀ x ∈ visited ++ L, x ∈ G.vertices := by
          intro x hx
          rcases List.mem_append.mp hx with h | h
          · exact hsub x h
          · obtain ⟨w', hw'⟩ := hL2 x h
            exact hclosed v hvg (x, w') hw'
        have hq' : ∀ qp ∈ rest ++ L.map (fun m => (m, path ++ [m])),
            qp.1 ∈ visited ++ L ∧
            ∃ steps, IsWalk G s steps qp.1 ∧ qp.2 = s :: steps.map Prod.fst := by
          intro qp hqp
          rcases List.mem_append.mp hqp with h | h
          · obtain ⟨hm, st, hwst, hst⟩ := hq qp (List.mem_cons_of_mem _ h)
            exact ⟨List.mem_append_left _ hm, st, hwst, hst⟩
          · rcases List.mem_map.mp h with ⟨m, hmL, rfl⟩
            obtain ⟨w', hw'⟩ := hL2 m hmL
            refine ⟨List.mem_append_right _ hmL,
              stv ++ [(m, w')], walk_snoc hwv2 hw', ?_⟩
            show path ++ [m] = s :: (stv ++ [(m, w')]).map Prod.fst
            simp [hpathv2]
        have hproc' : ∀ x ∈ visited ++ L,
            (∃ p, (x, p) ∈ rest ++ L.map (fun m => (m, path ++ [m]))) ∨
            ∀ pr ∈ G.neighbors x, pr.1 ∈ visited ++ L := by
          intro x hx
          rcases List.mem_append.mp hx with h | h
          · rcases hproc x h with ⟨p, hp⟩ | hcl
            · rcases List.mem_cons.mp hp with heq | hp'
              · have hxv : x = v := congrArg Prod.fst heq
                refine Or.inr ?_
                intro pr hpr
                rw [hxv] at hpr
                exact hL4 pr hpr
              · exact Or.inl ⟨p, List.mem_append_left _ hp'⟩
            · exact Or.inr (fun pr hpr => List.mem_append_left _ (hcl pr hpr))
          · exact Or.inl ⟨path ++ [x], List.mem_append_right _
              (List.mem_map_of_mem _ h)⟩
        have hrest_ge : ∀ a ∈ rest, path.length ≤ a.2.length :=
          fun a ha => (List.pairwise_cons.mp hmono).1 a ha
        have hrest_le : ∀ a ∈ rest, a.2.length ≤ path.length + 1 := by
          intro a ha
          have := hspread (v, path) (by simp) a (List.mem_cons_of_mem _ ha)
          exact this
        have hLlen : ∀ b ∈ L.map (fun m => (m, path ++ [m])),
            b.2.length = path.length + 1 := by
          intro b hb
          rcases List.mem_map.mp hb with ⟨m, _, hmeq⟩
          rw [← hmeq]
          simp
        have hmono' : List.Pairwise (fun a b : String × List String =>
            a.2.length ≤ b.2.length) (rest ++ L.map (fun m => (m, path ++ [m]))) := by
          rw [List.pairwise_append]
          refine ⟨(List.pairwise_cons.mp hmono).2, ?_, ?_⟩
          · have : ∀ l2 : List String, List.Pairwise (fun a b : String × List String =>
                a.2.length ≤ b.2.length) (l2.map (fun m => (m, path ++ [m]))) := by
              intro l2
              induction l2 with
              | nil => exact List.Pairwise.nil
              | cons a t iht =>
                simp only [List.map_cons]
                refine List.Pairwise.cons ?_ iht
                intro b hb
                rcases List.mem_map.mp hb with ⟨m, _, hmeq⟩
                rw [← hmeq]
                simp
            exact this L
          · intro a ha b hb
            rw [hLlen b hb]
            calc a.2.length ≤ path.length + 1 := hrest_le a ha
              _ = _ := rfl
        have hspread' : ∀ h ∈ (rest ++ L.map (fun m => (m, path ++ [m]))).head?,
            ∀ a ∈ rest ++ L.map (fun m => (m, path ++ [m])),
            a.2.length ≤ h.2.length + 1 := by
          intro h' hh' a ha
          cases hrq : rest ++ L.map (fun m => (m, path ++ [m])) with
          | nil =>
            rw [hrq] at ha
            simp at ha
          | cons a0 t0 =>
            rw [hrq] at hh'
            simp at hh'
            have hh0 : h' = a0 := hh'.symm
            have ha0mem : a0 ∈ rest ++ L.map (fun m => (m, path ++ [m])) := by
              rw [hrq]
              exact List.mem_cons_self _ _
            have ha0ge : path.length ≤ a0.2.length := by
              rcases List.mem_append.mp ha0mem with h | h
              · exact hrest_ge a0 h
              · rw [hLlen a0 h]
                omega
            rcases List.mem_append.mp ha with h | h
            · have := hrest_le a h
              rw [hh0]
              omega
            · rw [hLlen a h, hh0]
              omega
        have hup' : ∀ qp ∈ rest ++ L.map (fun m => (m, path ++ [m])),
            ∀ steps, IsWalk G s steps qp.1 → qp.2.length ≤ steps.length + 1 := by
          intro qp hqp steps hwst
          rcases List.mem_append.mp hqp with h | h
          · exact hup qp (List.mem_cons_of_mem _ h) steps hwst
          · rcases List.mem_map.mp h with ⟨m, hmL, rfl⟩
            have hmnv : ¬m ∈ visited := hLn.2 m hmL
            have hwst2 : IsWalk G s steps m := hwst
            have hge : path.length ≤ steps.length :=
              hlow (v, path) (by simp) m hmnv steps hwst2
            show (path ++ [m]).length ≤ steps.length + 1
            simp only [List.length_append, List.length_singleton]
            omega
        have hallmem : ∀ qp ∈ rest ++ L.map (fun m => (m, path ++ [m])),
            path.length ≤ qp.2.length := by
          intro qp hqp
          rcases List.mem_append.mp hqp with h | h
          · exact hrest_ge qp h
          · rw [hLlen qp h]
            omega
        have hlow' : ∀ h ∈ (rest ++ L.map (fun m => (m, path ++ [m]))).head?,
            ∀ x, ¬x ∈ visited ++ L → ∀ steps, IsWalk G s steps x →
            h.2.length ≤ steps.length := by
          intro h' hh' x hx steps hwst
          by_cases hD : h'.2.length ≤ path.length
          · have hxnv : ¬x ∈ visited := fun hh => hx (List.mem_append_left _ hh)
            have h9 : path.length ≤ steps.length :=
              hlow (v, path) (by simp) x hxnv steps hwst
            omega
          · have hDge : path.length + 1 ≤ h'.2.length := by omega
            have hhge : ∀ qp ∈ rest ++ L.map (fun m => (m, path ++ [m])),
                h'.2.length ≤ qp.2.length := by
              intro qp hqp
              cases hrq : rest ++ L.map (fun m => (m, path ++ [m])) with
              | nil =>
                rw [hrq] at hqp
                simp at hqp
              | cons a0 t0 =>
                rw [hrq] at hh' hqp
                simp at hh'
                have hh0 : h' = a0 := hh'.symm
                rw [hh0]
                rcases List.mem_cons.mp hqp with h | h
                · rw [h]
                · have hpw := hmono'
                  rw [hrq] at hpw
                  exact (List.pairwise_cons.mp hpw).1 qp h
            have hDle : ∀ qp ∈ rest ++ L.map (fun m => (m, path ++ [m])),
                h'.2.length ≤ qp.2.length + 0 := by
              intro qp hqp
              simpa using hhge qp hqp
            have key : ∀ m : Nat, ∀ steps2 : List (String × Int), ∀ x2,
                steps2.length ≤ m → ¬x2 ∈ visited ++ L → IsWalk G s steps2 x2 →
                path.length + 1 ≤ steps2.length := by
              intro m
              induction m with
              | zero =>
                intro steps2 x2 hlen hx2 hw2
                have hnil : steps2 = [] := List.eq_nil_of_length_eq_zero (by omega)
                subst hnil
                rw [← walk_nil_inv hw2] at hx2
                exact absurd h1' hx2
              | succ k ihm =>
                intro steps2 x2 hlen hx2 hw2
                cases steps2 with
                | nil =>
                  rw [← walk_nil_inv hw2] at hx2
                  exact absurd h1' hx2
                | cons q t =>
                  obtain ⟨y, steps0, w', hw0, hyx, heq⟩ := walk_unsnoc hw2 (by simp)
                  by_cases hy : y ∈ visited ++ L
                  · rcases hproc' y hy with ⟨p, hp⟩ | hcl
                    · have h7 : p.length ≤ steps0.length + 1 :=
                        hup' (y, p) hp steps0 hw0
                      have h8 : h'.2.length ≤ p.length := hhge (y, p) hp
                      rw [heq]
                      simp only [List.length_append, List.length_singleton]
                      omega
                    · exact absurd (hcl (x2, w') hyx) hx2
                  · have := ihm steps0 y (by
                      rw [heq] at hlen
                      simp only [List.length_append, List.length_singleton] at hlen
                      omega) hy hw0
                    rw [heq]
                    simp only [List.length_append, List.length_singleton]
                    omega
            have hkey := key steps.length steps x (Nat.le_refl _) hx hwst
            -- h'.2.length ≤ path.length + 1 from spread applied to itself
            have hself : h' ∈ rest ++ L.map (fun m => (m, path ++ [m])) := by
              cases hrq : rest ++ L.map (fun m => (m, path ++ [m])) with
              | nil =>
                rw [hrq] at hh'
                simp at hh'
              | cons a0 t0 =>
                rw [hrq] at hh'
                simp at hh'
                rw [← hh']
                exact List.mem_cons_self _ _
            have hle : h'.2.length ≤ path.length + 1 := by
              rcases List.mem_append.mp hself with h | h
              · exact hrest_le h' h
              · exact Nat.le_of_eq (hLlen h' h)
            omega
        have hLsub : ∀ x ∈ L, x ∈ G.vertices.filter (fun x => ¬x ∈ visited) := by
          intro x hx
          refine List.mem_filter.mpr ⟨?_, by simpa using hLn.2 x hx⟩
          obtain ⟨w', hw'⟩ := hL2 x hx
          exact hclosed v hvg (x, w') hw'
        have hfeq : G.vertices.filter (fun x => ¬x ∈ visited ++ L) =
            (G.vertices.filter (fun x => ¬x ∈ visited)).filter (fun x => ¬x ∈ L) := by
          rw [List.filter_filter]
          refine List.filter_congr ?_
          intro x _
          by_cases hx1 : x ∈ visited
          · have hbig : x ∈ visited ++ L := List.mem_append_left _ hx1
            have e1 : decide (¬x ∈ visited ++ L) = false :=
              decide_eq_false (fun h => h hbig)
            have e2 : decide (¬x ∈ visited) = false := decide_eq_false (fun h => h hx1)
            rw [e1, e2, Bool.and_false]
          · by_cases hx2 : x ∈ L
            · have hbig : x ∈ visited ++ L := List.mem_append_right _ hx2
              have e1 : decide (¬x ∈ visited ++ L) = false :=
                decide_eq_false (fun h => h hbig)
              have e2 : decide (¬x ∈ L) = false := decide_eq_false (fun h => h hx2)
              rw [e1, e2, Bool.false_and]
            · have hbig : ¬x ∈ visited ++ L := fun h =>
                (List.mem_append.mp h).elim hx1 hx2
              have e1 : decide (¬x ∈ visited ++ L) = true := decide_eq_true hbig
              have e2 : decide (¬x ∈ L) = true := decide_eq_true hx2
              have e3 : decide (¬x ∈ visited) = true := decide_eq_true hx1
              rw [e1, e2, e3]
              rfl
        have hcount := length_filter_not_mem L
          (G.vertices.filter (fun x => ¬x ∈ visited)) (hnd.filter _) hLn.1 hLsub
        have hpot' : (rest ++ L.map (fun m => (m, path ++ [m]))).length +
            (G.vertices.filter (fun x => ¬x ∈ visited ++ L)).length ≤ n := by
          rw [hfeq, List.length_append, List.length_map]
          simp only [List.length_cons] at hpot
          omega
        exact ih (visited ++ L) (rest ++ L.map (fun m => (m, path ++ [m])))
          h0' h1' hsub' hvnd' hq' hproc' hmono' hspread' hup' hlow' hpot'

/-- At the initial state `visited = [s]`, `queue = [(s, [s])]` and fuel
`|V| + 1`, the loop either returns a hop-minimal path to `e` or returns `[]`
with `e` unreachable. -/
theorem bsp_initial (G : GraphI) (s e : String) (hnd : G.vertices.Nodup)
    (hclosed : ∀ v ∈ G.vertices, ∀ p ∈ G.neighbors v, p.1 ∈ G.vertices)
    (hs : s ∈ G.vertices) (hse : s ≠ e) :
    (∃ steps, IsWalk G s steps e ∧
      bspLoop G e (G.vertices.length + 1) [s] [(s, [s])] = s :: steps.map Prod.fst ∧
      (∀ steps2, IsWalk G s steps2 e → steps.length ≤ steps2.length)) ∨
    (bspLoop G e (G.vertices.length + 1) [s] [(s, [s])] = [] ∧ ¬Reaches G s e) := by
  refine bspLoop_spec G s e hnd hclosed (G.vertices.length + 1) [s] [(s, [s])]
    ?_ ?_ ?_ ?_ ?_ ?_ ?_ ?_ ?_ ?_ ?_
  · exact fun hmem => hse (List.mem_singleton.mp hmem).symm
  · exact List.mem_singleton.mpr rfl
  · intro x hx
    rw [List.mem_singleton.mp hx]
    exact hs
  · exact List.nodup_singleton s
  · intro qp hqp
    rw [List.mem_singleton] at hqp
    subst hqp
    exact ⟨List.mem_singleton.mpr rfl, [], IsWalk.nil s, rfl⟩
  · intro x hx
    rw [List.mem_singleton] at hx
    rw [hx]
    exact Or.inl ⟨[s], List.mem_singleton.mpr rfl⟩
  · exact List.pairwise_singleton _ _
  · intro h hh a ha
    rw [List.mem_singleton] at ha
    simp only [List.head?_cons, Option.mem_def, Option.some.injEq] at hh
    rw [ha, ← hh]
    exact Nat.le_succ _
  · intro qp hqp steps _
    rw [List.mem_singleton] at hqp
    subst hqp
    show [s].length ≤ steps.length + 1
    simp
  · intro h hh x hx steps hw
    simp only [List.head?_cons, Option.mem_def, Option.some.injEq] at hh
    rw [← hh]
    show [s].length ≤ steps.length
    cases steps with
    | nil => exact absurd (List.mem_singleton.mpr (walk_nil_inv hw).symm) hx
    | cons a t => simp
  · have h := List.length_filter_le (fun v => decide (¬v ∈ [s])) G.vertices
    simp only [List.length_singleton]
    omega

/-- C6: `bfs_shortest_path(graph, start, end)` returns the single-vertex path
`[start]` when `start = end` and both are present; returns an empty sequence
when either endpoint is absent from the graph or `end` is unreachable from
`start`; and otherwise returns a path from `start` to `end` whose hop count is
minimum over all walks (in particular all paths) from `start` to `end`,
ignoring stored edge weights. Stated over the shared read interface under the
invariants every reachable representation state satisfies: a duplicate-free
vertex list closed under the neighbor relation. -/
theorem bfs_shortest_path_correct (G : GraphI) (s e : String)
    (hnd : G.vertices.Nodup)
    (hclosed : ∀ v ∈ G.vertices, ∀ p ∈ G.neighbors v, p.1 ∈ G.vertices) :
    (s ∈ G.vertices → e ∈ G.vertices → s = e → bfs_shortest_path G s e = [s]) ∧
    (¬(s ∈ G.vertices ∧ e ∈ G.vertices) → bfs_shortest_path G s e = []) ∧
    (s ∈ G.vertices → e ∈ G.vertices → ¬Reaches G s e →
      bfs_shortest_path G s e = []) ∧
    (s ∈ G.vertices → e ∈ G.vertices → s ≠ e → Reaches G s e →
      ∃ steps, IsWalk G s steps e ∧
        bfs_shortest_path G s e = s :: steps.map Prod.fst ∧
        (∀ steps2, IsWalk G s steps2 e → steps.length ≤ steps2.length)) := by
  refine ⟨?_, ?_, ?_, ?_⟩
  · intro hsv hev hse
    rw [bfs_shortest_path, if_pos ⟨hsv, hev⟩, if_pos hse]
  · intro habs
    rw [bfs_shortest_path, if_neg habs]
  · intro hsv hev hnr
    by_cases hse : s = e
    · subst hse
      exact absurd ⟨[], IsWalk.nil s⟩ hnr
    · rw [bfs_shortest_path, if_pos ⟨hsv, hev⟩, if_neg hse]
      rcases bsp_initial G s e hnd hclosed hsv hse with ⟨steps, hw, _, _⟩ | ⟨heq, _⟩
      · exact absurd ⟨steps, hw⟩ hnr
      · exact heq
  · intro hsv hev hse hr
    rw [bfs_shortest_path, if_pos ⟨hsv, hev⟩, if_neg hse]
    rcases bsp_initial G s e hnd hclosed hsv hse with
      ⟨steps, hw, heq, hmin⟩ | ⟨_, hnr⟩
    · exact ⟨steps, hw, heq, hmin⟩
    · exact absurd hr hnr

/-- Witness for C6 at the demonstration graph: both hypotheses hold for the
adjacency-list demo graph and the theorem applies to the pair `A`, `E`. -/
theorem bfs_shortest_path_correct_witness :
    dijkstraDemo.toI.vertices.Nodup ∧
    (∀ v ∈ dijkstraDemo.toI.vertices, ∀ p ∈ dijkstraDemo.toI.neighbors v,
      p.1 ∈ dijkstraDemo.toI.vertices) ∧
    (("A" ∈ dijkstraDemo.toI.vertices → "E" ∈ dijkstraDemo.toI.vertices →
        "A" = "E" → bfs_shortest_path dijkstraDemo.toI "A" "E" = ["A"]) ∧
      (¬("A" ∈ dijkstraDemo.toI.vertices ∧ "E" ∈ dijkstraDemo.toI.vertices) →
        bfs_shortest_path dijkstraDemo.toI "A" "E" = []) ∧
      ("A" ∈ dijkstraDemo.toI.vertices → "E" ∈ dijkstraDemo.toI.vertices →
        ¬Reaches dijkstraDemo.toI "A" "E" →
        bfs_shortest_path dijkstraDemo.toI "A" "E" = []) ∧
      ("A" ∈ dijkstraDemo.toI.vertices → "E" ∈ dijkstraDemo.toI.vertices →
        "A" ≠ "E" → Reaches dijkstraDemo.toI "A" "E" →
        ∃ steps, IsWalk dijkstraDemo.toI "A" steps "E" ∧
          bfs_shortest_path dijkstraDemo.toI "A" "E" =
            "A" :: steps.map Prod.fst ∧
          (∀ steps2, IsWalk dijkstraDemo.toI "A" steps2 "E" →
            steps.length ≤ steps2.length))) :=
  ⟨by decide, by decide,
    bfs_shortest_path_correct dijkstraDemo.toI "A" "E" (by decide) (by decide)⟩

/-! ## C5: Bellman-Ford negative-cycle detection -/

theorem dLe_refl (a : Option Int) : dLe a a := by
  cases a with
  | none => trivial
  | some x => exact le_refl x

theorem dLe_of_le {x y : Int} (h : x ≤ y) : dLe (some x) (some y) := h

theorem dLe_trans {a b c : Option Int} (h1 : dLe a b) (h2 : dLe b c) : dLe a c := by
  cases a with
  | none =>
    cases b with
    | none => exact h2
    | some y => exact absurd h1 (fun h => h)
  | some x =>
    cases c with
    | none => trivial
    | some z =>
      cases b with
      | none => exact absurd h2 (fun h => h)
      | some y => exact le_trans (h1 : x ≤ y) (h2 : y ≤ z)

theorem dLt_dLe {a b : Option Int} (h : dLt a b) : dLe a b := by
  cases a with
  | none =>
    cases b with
    | none => exact absurd h (fun h => h)
    | some y => exact absurd h (fun h => h)
  | some x =>
    cases b with
    | none => trivial
    | some y => exact le_of_lt (h : x < y)

theorem not_dLt_dLe {a b : Option Int} (h : ¬ dLt a b) : dLe b a := by
  cases a with
  | none =>
    cases b with
    | none => trivial
    | some y => trivial
  | some x =>
    cases b with
    | none => exact absurd (trivial : dLt (some x) none) h
    | some y => exact Int.not_lt.mp (fun hlt => h hlt)

theorem dLe_some {a : Option Int} {x : Int} (h : dLe a (some x)) :
    ∃ y, a = some y ∧ y ≤ x := by
  cases a with
  | none => exact absurd h (fun h => h)
  | some y => exact ⟨y, rfl, h⟩

theorem walkWeight_nil : walkWeight ([] : List (String × Int)) = 0 := rfl

theorem walkWeight_cons (p : String × Int) (steps : List (String × Int)) :
    walkWeight (p :: steps) = p.2 + walkWeight steps := by
  simp [walkWeight]

theorem walkWeight_single (p : String × Int) : walkWeight [p] = p.2 := by
  simp [walkWeight]

theorem walkWeight_append (s1 s2 : List (String × Int)) :
    walkWeight (s1 ++ s2) = walkWeight s1 + walkWeight s2 := by
  simp [walkWeight]

theorem walk_append {G : GraphI} {a b c : String} {s1 s2 : List (String × Int)}
    (h1 : IsWalk G a s1 b) (h2 : IsWalk G b s2 c) : IsWalk G a (s1 ++ s2) c := by
  induction h1 with
  | nil => exact h2
  | cons hm _ ih => exact IsWalk.cons hm (ih h2)

theorem walk_trace_mem {G : GraphI}
    (hclosed : ∀ v ∈ G.vertices, ∀ p ∈ G.neighbors v, p.1 ∈ G.vertices)
    {a c : String} {steps : List (String × Int)} (h : IsWalk G a steps c) :
    a ∈ G.vertices → ∀ x ∈ steps.map Prod.fst, x ∈ G.vertices := by
  induction h with
  | nil => intro _ x hx; simp at hx
  | @cons a b c w steps hm hw ih =>
    intro ha x hx
    have hb := hclosed _ ha _ hm
    simp only [List.map_cons] at hx
    rcases List.mem_cons.mp hx with rfl | hx'
    · exact hb
    · exact ih hb x hx'

theorem relaxEdge_none {u : String} {st : BFState} {p : String × Int}
    (h : st.dist u = none) : relaxEdge u st p = st := by
  rw [relaxEdge, h]

theorem relaxEdge_some_pos {u : String} {st : BFState} {p : String × Int} {x : Int}
    (h : st.dist u = some x) (hlt : dLt (some (x + p.2)) (st.dist p.1)) :
    relaxEdge u st p =
      ⟨Function.update st.dist p.1 (some (x + p.2)),
       Function.update st.pred p.1 (some u), true⟩ := by
  simp only [relaxEdge, h]
  rw [if_pos hlt]

theorem relaxEdge_some_neg {u : String} {st : BFState} {p : String × Int} {x : Int}
    (h : st.dist u = some x) (hlt : ¬ dLt (some (x + p.2)) (st.dist p.1)) :
    relaxEdge u st p = st := by
  simp only [relaxEdge, h]
  rw [if_neg hlt]

theorem relaxEdge_dist_dLe (u : String) (st : BFState) (p : String × Int)
    (v : String) : dLe ((relaxEdge u st p).dist v) (st.dist v) := by
  cases hd : st.dist u with
  | none => rw [relaxEdge_none hd]; exact dLe_refl _
  | some x =>
    by_cases hlt : dLt (some (x + p.2)) (st.dist p.1)
    · rw [relaxEdge_some_pos hd hlt]
      by_cases hv : v = p.1
      · subst hv
        show dLe (Function.update st.dist p.1 (some (x + p.2)) p.1) (st.dist p.1)
        rw [Function.update_same]
        exact dLt_dLe hlt
      · show dLe (Function.update st.dist p.1 (some (x + p.2)) v) (st.dist v)
        rw [Function.update_noteq hv]
        exact dLe_refl _
    · rw [relaxEdge_some_neg hd hlt]
      exact dLe_refl _

theorem foldlRelax_dist_dLe (u : String) :
    ∀ (ns : List (String × Int)) (st : BFState) (v : String),
    dLe ((List.foldl (relaxEdge u) st ns).dist v) (st.dist v) := by
  intro ns
  induction ns with
  | nil => intro st v; exact dLe_refl _
  | cons q rest ih =>
    intro st v
    rw [List.foldl_cons]
    exact dLe_trans (ih _ v) (relaxEdge_dist_dLe u st q v)

theorem bfVisit_none {G : GraphI} {st : BFState} {u : String}
    (h : st.dist u = none) : bfVisit G st u = st := by
  rw [bfVisit, h]

theorem bfVisit_some {G : GraphI} {st : BFState} {u : String} {x : Int}
    (h : st.dist u = some x) :
    bfVisit G st u = List.foldl (relaxEdge u) st (G.neighbors u) := by
  rw [bfVisit, h]

theorem bfVisit_dist_dLe (G : GraphI) (st : BFState) (u v : String) :
    dLe ((bfVisit G st u).dist v) (st.dist v) := by
  cases hd : st.dist u with
  | none => rw [bfVisit_none hd]; exact dLe_refl _
  | some x => rw [bfVisit_some hd]; exact foldlRelax_dist_dLe u _ st v

theorem foldlVisit_dist_dLe (G : GraphI) :
    ∀ (vs : List String) (st : BFState) (v : String),
    dLe ((List.foldl (bfVisit G) st vs).dist v) (st.dist v) := by
  intro vs
  induction vs with
  | nil => intro st v; exact dLe_refl _
  | cons a rest ih =>
    intro st v
    rw [List.foldl_cons]
    exact dLe_trans (ih _ v) (bfVisit_dist_dLe G st a v)

theorem bfPass_dist_dLe (G : GraphI) (st : BFState) (v : String) :
    dLe ((bfPass G st).dist v) (st.dist v) := by
  rw [bfPass]
  exact foldlVisit_dist_dLe G G.vertices st v

theorem bfLoop_dist_dLe (G : GraphI) :
    ∀ (n : Nat) (st : BFState) (v : String),
    dLe ((bfLoop G n st).dist v) (st.dist v) := by
  intro n
  induction n with
  | zero => intro st v; exact dLe_refl _
  | succ k ih =>
    intro st v
    simp only [bfLoop]
    by_cases hupd : (bfPass G { st with updated := false }).updated = true
    · rw [if_pos hupd]
      exact dLe_trans (ih _ v) (bfPass_dist_dLe G { st with updated := false } v)
    · rw [if_neg hupd]
      exact bfPass_dist_dLe G { st with updated := false } v

theorem relaxEdge_updated_of {u : String} {st : BFState} {p : String × Int}
    (h : st.updated = true) : (relaxEdge u st p).updated = true := by
  cases hd : st.dist u with
  | none => rw [relaxEdge_none hd]; exact h
  | some x =>
    by_cases hlt : dLt (some (x + p.2)) (st.dist p.1)
    · rw [relaxEdge_some_pos hd hlt]
    · rw [relaxEdge_some_neg hd hlt]; exact h

theorem relaxEdge_no_update {u : String} {st : BFState} {p : String × Int}
    (h : (relaxEdge u st p).updated = false) :
    relaxEdge u st p = st ∧
    ∀ x, st.dist u = some x → ¬ dLt (some (x + p.2)) (st.dist p.1) := by
  cases hd : st.dist u with
  | none =>
    refine ⟨relaxEdge_none hd, ?_⟩
    intro x hx
    cases hx
  | some x =>
    by_cases hlt : dLt (some (x + p.2)) (st.dist p.1)
    · rw [relaxEdge_some_pos hd hlt] at h
      cases h
    · refine ⟨relaxEdge_some_neg hd hlt, ?_⟩
      intro x' hx'
      cases hx'
      exact hlt

theorem foldlRelax_updated_of (u : String) :
    ∀ (ns : List (String × Int)) (st : BFState), st.updated = true →
    (List.foldl (relaxEdge u) st ns).updated = true := by
  intro ns
  induction ns with
  | nil => intro st h; exact h
  | cons q rest ih =>
    intro st h
    rw [List.foldl_cons]
    exact ih _ (relaxEdge_updated_of h)

theorem foldlRelax_no_update (u : String) :
    ∀ (ns : List (String × Int)) (st : BFState),
    (List.foldl (relaxEdge u) st ns).updated = false →
    List.foldl (relaxEdge u) st ns = st ∧
    ∀ q ∈ ns, ∀ x, st.dist u = some x → ¬ dLt (some (x + q.2)) (st.dist q.1) := by
  intro ns
  induction ns with
  | nil =>
    intro st _
    exact ⟨rfl, fun q hq => absurd hq (List.not_mem_nil q)⟩
  | cons q rest ih =>
    intro st h
    rw [List.foldl_cons] at h ⊢
    have h1 : (relaxEdge u st q).updated = false := by
      cases h2 : (relaxEdge u st q).updated
      · rfl
      · rw [foldlRelax_updated_of u rest _ h2] at h
        cases h
    obtain ⟨heq, hcq⟩ := relaxEdge_no_update h1
    rw [heq] at h ⊢
    obtain ⟨heq2, hcrest⟩ := ih st h
    refine ⟨heq2, ?_⟩
    intro q' hq' x hx
    rcases List.mem_cons.mp hq' with rfl | hq''
    · exact hcq x hx
    · exact hcrest q' hq'' x hx

theorem bfVisit_updated_of {G : GraphI} {st : BFState} {u : String}
    (h : st.updated = true) : (bfVisit G st u).updated = true := by
  cases hd : st.dist u with
  | none => rw [bfVisit_none hd]; exact h
  | some x => rw [bfVisit_some hd]; exact foldlRelax_updated_of u _ st h

theorem bfVisit_no_update {G : GraphI} {st : BFState} {u : String}
    (h : (bfVisit G st u).updated = false) :
    bfVisit G st u = st ∧
    ∀ x, st.dist u = some x →
      ∀ q ∈ G.neighbors u, ¬ dLt (some (x + q.2)) (st.dist q.1) := by
  cases hd : st.dist u with
  | none =>
    refine ⟨bfVisit_none hd, ?_⟩
    intro x hx
    cases hx
  | some x =>
    rw [bfVisit_some hd] at h ⊢
    obtain ⟨heq, hc⟩ := foldlRelax_no_update u _ st h
    refine ⟨heq, ?_⟩
    intro x' hx' q hq
    exact hc q hq x' (hd.trans hx')

theorem foldlVisit_updated_of (G : GraphI) :
    ∀ (vs : List String) (st : BFState), st.updated = true →
    (List.foldl (bfVisit G) st vs).updated = true := by
  intro vs
  induction vs with
  | nil => intro st h; exact h
  | cons a rest ih =>
    intro st h
    rw [List.foldl_cons]
    exact ih _ (bfVisit_updated_of h)

theorem foldlVisit_no_update (G : GraphI) :
    ∀ (vs : List String) (st : BFState),
    (List.foldl (bfVisit G) st vs).updated = false →
    List.foldl (bfVisit G) st vs = st ∧
    ∀ u ∈ vs, ∀ x, st.dist u = some x →
      ∀ q ∈ G.neighbors u, ¬ dLt (some (x + q.2)) (st.dist q.1) := by
  intro vs
  induction vs with
  | nil =>
    intro st _
    exact ⟨rfl, fun u hu => absurd hu (List.not_mem_nil u)⟩
  | cons a rest ih =>
    intro st h
    rw [List.foldl_cons] at h ⊢
    have h1 : (bfVisit G st a).updated = false := by
      cases h2 : (bfVisit G st a).updated
      · rfl
      · rw [foldlVisit_updated_of G rest _ h2] at h
        cases h
    obtain ⟨heq, hca⟩ := bfVisit_no_update h1
    rw [heq] at h ⊢
    obtain ⟨heq2, hcrest⟩ := ih st h
    refine ⟨heq2, ?_⟩
    intro u hu x hx
    rcases List.mem_cons.mp hu with rfl | hu'
    · exact hca x hx
    · exact hcrest u hu' x hx

theorem bfPass_no_update {G : GraphI} {st : BFState}
    (h : (bfPass G st).updated = false) :
    bfPass G st = st ∧
    ∀ u ∈ G.vertices, ∀ x, st.dist u = some x →
      ∀ q ∈ G.neighbors u, ¬ dLt (some (x + q.2)) (st.dist q.1) := by
  rw [bfPass] at h ⊢
  exact foldlVisit_no_update G G.vertices st h

theorem bfCheck_eq_false_of {G : GraphI} {st : BFState}
    (hc : ∀ u ∈ G.vertices, ∀ x, st.dist u = some x →
      ∀ q ∈ G.neighbors u, ¬ dLt (some (x + q.2)) (st.dist q.1)) :
    bfCheck G st = false := by
  rw [bfCheck, List.any_eq_false]
  intro u hu
  cases hd : st.dist u with
  | none => intro hfalse; cases hfalse
  | some x =>
    simp only [Bool.not_eq_true, List.any_eq_false]
    intro q hq
    exact decide_eq_false (hc u hu x hd q hq)

theorem bfCheck_eq_true_elim {G : GraphI} {st : BFState}
    (h : bfCheck G st = true) :
    ∃ u, u ∈ G.vertices ∧ ∃ x, st.dist u = some x ∧
      ∃ q, q ∈ G.neighbors u ∧ dLt (some (x + q.2)) (st.dist q.1) := by
  rw [bfCheck, List.any_eq_true] at h
  obtain ⟨u, hu, hm⟩ := h
  cases hd : st.dist u with
  | none => rw [hd] at hm; cases hm
  | some x =>
    rw [hd] at hm
    simp only [List.any_eq_true, decide_eq_true_eq] at hm
    obtain ⟨q, hq, hlt⟩ := hm
    exact ⟨u, hu, x, hd, q, hq, hlt⟩

theorem bfCheck_eq_false_elim {G : GraphI} {st : BFState}
    (h : bfCheck G st = false) :
    ∀ u ∈ G.vertices, ∀ x, st.dist u = some x →
      ∀ q ∈ G.neighbors u, ¬ dLt (some (x + q.2)) (st.dist q.1) := by
  rw [bfCheck, List.any_eq_false] at h
  intro u hu x hd q hq hlt
  have h2 := h u hu
  rw [hd] at h2
  simp only [Bool.not_eq_true, List.any_eq_false] at h2
  have h3 := h2 q hq
  exact of_decide_eq_false h3 hlt

theorem relaxEdge_walkInv {G : GraphI} {start u : String} {st : BFState}
    {q : String × Int} (hq : q ∈ G.neighbors u)
    (hinv : ∀ v x, st.dist v = some x →
      ∃ steps, IsWalk G start steps v ∧ walkWeight steps = x) :
    ∀ v x, (relaxEdge u st q).dist v = some x →
      ∃ steps, IsWalk G start steps v ∧ walkWeight steps = x := by
  intro v x hvx
  cases hd : st.dist u with
  | none =>
    rw [relaxEdge_none hd] at hvx
    exact hinv v x hvx
  | some x0 =>
    by_cases hlt : dLt (some (x0 + q.2)) (st.dist q.1)
    · rw [relaxEdge_some_pos hd hlt] at hvx
      have hvx2 : Function.update st.dist q.1 (some (x0 + q.2)) v = some x := hvx
      by_cases hv : v = q.1
      · subst hv
        rw [Function.update_same] at hvx2
        have hx : x = x0 + q.2 := (Option.some.inj hvx2).symm
        obtain ⟨steps, hw, hwt⟩ := hinv u x0 hd
        refine ⟨steps ++ [(q.1, q.2)], walk_snoc hw ?_, ?_⟩
        · exact hq
        · rw [walkWeight_append, hwt, walkWeight_single, hx]
      · rw [Function.update_noteq hv] at hvx2
        exact hinv v x hvx2
    · rw [relaxEdge_some_neg hd hlt] at hvx
      exact hinv v x hvx

theorem foldlRelax_walkInv {G : GraphI} {start u : String} :
    ∀ (ns : List (String × Int)) (st : BFState),
    (∀ q ∈ ns, q ∈ G.neighbors u) →
    (∀ v x, st.dist v = some x →
      ∃ steps, IsWalk G start steps v ∧ walkWeight steps = x) →
    ∀ v x, (List.foldl (relaxEdge u) st ns).dist v = some x →
      ∃ steps, IsWalk G start steps v ∧ walkWeight steps = x := by
  intro ns
  induction ns with
  | nil => intro st _ hinv; exact hinv
  | cons q rest ih =>
    intro st hns hinv
    rw [List.foldl_cons]
    exact ih _ (fun q' hq' => hns q' (List.mem_cons_of_mem q hq'))
      (relaxEdge_walkInv (hns q (List.mem_cons_self q rest)) hinv)

theorem bfVisit_walkInv {G : GraphI} {start : String} {st : BFState} {u : String}
    (hinv : ∀ v x, st.dist v = some x →
      ∃ steps, IsWalk G start steps v ∧ walkWeight steps = x) :
    ∀ v x, (bfVisit G st u).dist v = some x →
      ∃ steps, IsWalk G start steps v ∧ walkWeight steps = x := by
  cases hd : st.dist u with
  | none => rw [bfVisit_none hd]; exact hinv
  | some x0 =>
    rw [bfVisit_some hd]
    exact foldlRelax_walkInv _ st (fun q hq => hq) hinv

theorem foldlVisit_walkInv {G : GraphI} {start : String} :
    ∀ (vs : List String) (st : BFState),
    (∀ v x, st.dist v = some x →
      ∃ steps, IsWalk G start steps v ∧ walkWeight steps = x) →
    ∀ v x, (List.foldl (bfVisit G) st vs).dist v = some x →
      ∃ steps, IsWalk G start steps v ∧ walkWeight steps = x := by
  intro vs
  induction vs with
  | nil => intro st hinv; exact hinv
  | cons a rest ih =>
    intro st hinv
    rw [List.foldl_cons]
    exact ih _ (bfVisit_walkInv hinv)

theorem bfLoop_walkInv {G : GraphI} {start : String} :
    ∀ (n : Nat) (st : BFState),
    (∀ v x, st.dist v = some x →
      ∃ steps, IsWalk G start steps v ∧ walkWeight steps = x) →
    ∀ v x, (bfLoop G n st).dist v = some x →
      ∃ steps, IsWalk G start steps v ∧ walkWeight steps = x := by
  intro n
  induction n with
  | zero => intro st hinv; exact hinv
  | succ k ih =>
    intro st hinv
    simp only [bfLoop]
    have hpass : ∀ v x, (bfPass G { st with updated := false }).dist v = some x →
        ∃ steps, IsWalk G start steps v ∧ walkWeight steps = x := by
      rw [bfPass]
      exact foldlVisit_walkInv G.vertices _ hinv
    by_cases hupd : (bfPass G { st with updated := false }).updated = true
    · rw [if_pos hupd]
      exact ih _ hpass
    · rw [if_neg hupd]
      exact hpass

theorem relaxEdge_dist_self_le {u : String} {st : BFState} {p : String × Int}
    {x : Int} (hd : st.dist u = some x) :
    dLe ((relaxEdge u st p).dist p.1) (some (x + p.2)) := by
  by_cases hlt : dLt (some (x + p.2)) (st.dist p.1)
  · rw [relaxEdge_some_pos hd hlt]
    show dLe (Function.update st.dist p.1 (some (x + p.2)) p.1) (some (x + p.2))
    rw [Function.update_same]
    exact dLe_refl _
  · rw [relaxEdge_some_neg hd hlt]
    exact not_dLt_dLe hlt

theorem foldlRelax_scan {u : String} :
    ∀ (ns : List (String × Int)) (st : BFState) (x : Int),
    st.dist u = some x → ∀ p ∈ ns,
    dLe ((List.foldl (relaxEdge u) st ns).dist p.1) (some (x + p.2)) := by
  intro ns
  induction ns with
  | nil => intro st x _ p hp; exact absurd hp (List.not_mem_nil p)
  | cons q rest ih =>
    intro st x hd p hp
    rw [List.foldl_cons]
    rcases List.mem_cons.mp hp with rfl | hp'
    · exact dLe_trans (foldlRelax_dist_dLe u rest _ p.1) (relaxEdge_dist_self_le hd)
    · have h1 : dLe ((relaxEdge u st q).dist u) (some x) := by
        rw [← hd]
        exact relaxEdge_dist_dLe u st q u
      obtain ⟨x', hx', hle⟩ := dLe_some h1
      exact dLe_trans (ih _ x' hx' p hp') (dLe_of_le (by omega))

theorem foldlVisit_scan (G : GraphI) :
    ∀ (vs : List String) (st : BFState) (u : String) (x : Int),
    u ∈ vs → st.dist u = some x → ∀ p ∈ G.neighbors u,
    dLe ((List.foldl (bfVisit G) st vs).dist p.1) (some (x + p.2)) := by
  intro vs
  induction vs with
  | nil => intro st u x hu; exact absurd hu (List.not_mem_nil u)
  | cons a rest ih =>
    intro st u x hu hd p hp
    rw [List.foldl_cons]
    rcases List.mem_cons.mp hu with rfl | hu'
    · rw [bfVisit_some hd]
      exact dLe_trans (foldlVisit_dist_dLe G rest _ p.1) (foldlRelax_scan _ st x hd p hp)
    · have h1 : dLe ((bfVisit G st a).dist u) (some x) := by
        rw [← hd]
        exact bfVisit_dist_dLe G st a u
      obtain ⟨x', hx', hle⟩ := dLe_some h1
      exact dLe_trans (ih _ u x' hu' hx' p hp) (dLe_of_le (by omega))

theorem bfPass_scan {G : GraphI} {st : BFState} {u : String} {x : Int}
    (hu : u ∈ G.vertices) (hd : st.dist u = some x) :
    ∀ p ∈ G.neighbors u, dLe ((bfPass G st).dist p.1) (some (x + p.2)) := by
  rw [bfPass]
  exact foldlVisit_scan G G.vertices st u x hu hd

theorem bfPass_ub {G : GraphI} {start : String}
    (hstart : start ∈ G.vertices)
    (hclosed : ∀ v ∈ G.vertices, ∀ p ∈ G.neighbors v, p.1 ∈ G.vertices)
    {m : Nat} {st : BFState}
    (hub : ∀ v steps, IsWalk G start steps v → steps.length ≤ m →
      dLe (st.dist v) (some (walkWeight steps))) :
    ∀ v steps, IsWalk G start steps v → steps.length ≤ m + 1 →
      dLe ((bfPass G st).dist v) (some (walkWeight steps)) := by
  intro v steps hw hlen
  by_cases hsm : steps.length ≤ m
  · exact dLe_trans (bfPass_dist_dLe G st v) (hub v steps hw hsm)
  · have hne : steps ≠ [] := by
      intro h
      rw [h] at hsm
      simp at hsm
    obtain ⟨b, steps0, w, hw0, hbv, heq⟩ := walk_unsnoc hw hne
    have hlen0 : steps0.length ≤ m := by
      rw [heq] at hlen
      simp only [List.length_append, List.length_singleton] at hlen
      omega
    obtain ⟨xb, hxb, hxble⟩ := dLe_some (hub b steps0 hw0 hlen0)
    have hbV : b ∈ G.vertices :=
      reaches_mem_of_closed G G.vertices hclosed hstart ⟨steps0, hw0⟩
    have hrel := bfPass_scan hbV hxb (v, w) hbv
    rw [heq, walkWeight_append]
    have hw1 : walkWeight [(v, w)] = w := walkWeight_single (v, w)
    rw [hw1]
    exact dLe_trans hrel (dLe_of_le (by omega))

theorem bfLoop_ub {G : GraphI} {start : String}
    (hstart : start ∈ G.vertices)
    (hclosed : ∀ v ∈ G.vertices, ∀ p ∈ G.neighbors v, p.1 ∈ G.vertices) :
    ∀ (n : Nat) (st : BFState) (m : Nat),
    (∀ v steps, IsWalk G start steps v → steps.length ≤ m →
      dLe (st.dist v) (some (walkWeight steps))) →
    (∀ v steps, IsWalk G start steps v → steps.length ≤ m + n →
      dLe ((bfLoop G n st).dist v) (some (walkWeight steps))) ∨
    bfCheck G (bfLoop G n st) = false := by
  intro n
  induction n with
  | zero =>
    intro st m hub
    left
    intro v steps hw hlen
    exact hub v steps hw (by omega)
  | succ k ih =>
    intro st m hub
    simp only [bfLoop]
    by_cases hupd : (bfPass G { st with updated := false }).updated = true
    · rw [if_pos hupd]
      have hub' := @bfPass_ub G start hstart hclosed m { st with updated := false }
        (fun v steps hw hl => hub v steps hw hl)
      rcases ih (bfPass G { st with updated := false }) (m + 1) hub' with h | h
      · left
        intro v steps hw hlen
        exact h v steps hw (by omega)
      · right
        exact h
    · rw [if_neg hupd]
      right
      have hupd' : (bfPass G { st with updated := false }).updated = false := by
        cases h2 : (bfPass G { st with updated := false }).updated
        · rfl
        · exact absurd h2 hupd
      obtain ⟨heqst, hcond⟩ := bfPass_no_update hupd'
      rw [heqst]
      exact bfCheck_eq_false_of hcond

theorem walk_split {G : GraphI} {c : String} :
    ∀ {a : String} {steps : List (String × Int)}, IsWalk G a steps c →
    ∀ n, n ≤ steps.length →
    ∃ b, b = (a :: steps.map Prod.fst).getD n "" ∧
      IsWalk G a (steps.take n) b ∧ IsWalk G b (steps.drop n) c := by
  intro a steps hw
  induction hw with
  | nil a =>
    intro n hn
    have h0 : n = 0 := by simpa using hn
    subst h0
    exact ⟨a, rfl, IsWalk.nil a, IsWalk.nil a⟩
  | @cons a b c w steps hm hw ih =>
    intro n hn
    cases n with
    | zero => exact ⟨a, rfl, IsWalk.nil a, IsWalk.cons hm hw⟩
    | succ m =>
      obtain ⟨b', hb', h1, h2⟩ := ih m (by simpa using hn)
      refine ⟨b', ?_, IsWalk.cons hm h1, h2⟩
      simpa using hb'

theorem dup_indices_of_not_nodup {l : List String} (h : ¬ l.Nodup) :
    ∃ i j, i < j ∧ j < l.length ∧ l.getD i "" = l.getD j "" := by
  have hninj : ¬ Function.Injective l.get :=
    fun hinj => h (List.nodup_iff_injective_get.mpr hinj)
  obtain ⟨⟨i, hi⟩, ⟨j, hj⟩, hgeq, hne⟩ := Function.not_injective_iff.mp hninj
  have hgd : l.getD i "" = l.getD j "" := by
    rw [List.getD_eq_getElem l "" hi, List.getD_eq_getElem l "" hj]
    simpa using hgeq
  rcases Nat.lt_trichotomy i j with hij | hij | hij
  · exact ⟨i, j, hij, hj, hgd⟩
  · exact absurd (Fin.ext hij) hne
  · exact ⟨j, i, hij, hi, hgd.symm⟩

theorem walk_shorten {G : GraphI} {start : String}
    (hclosed : ∀ v ∈ G.vertices, ∀ p ∈ G.neighbors v, p.1 ∈ G.vertices)
    (hstart : start ∈ G.vertices)
    (hno : ¬ HasNegCycleFrom G start) :
    ∀ (steps : List (String × Int)) (c : String), IsWalk G start steps c →
    ∃ steps2, IsWalk G start steps2 c ∧ walkWeight steps2 ≤ walkWeight steps ∧
      steps2.length ≤ G.vertices.length - 1 := by
  suffices h : ∀ (n : Nat) (steps : List (String × Int)) (c : String),
      steps.length ≤ n → IsWalk G start steps c →
      ∃ steps2, IsWalk G start steps2 c ∧ walkWeight steps2 ≤ walkWeight steps ∧
        steps2.length ≤ G.vertices.length - 1 by
    intro steps c hw
    exact h steps.length steps c (Nat.le_refl _) hw
  intro n
  induction n with
  | zero =>
    intro steps c hlen hw
    exact ⟨steps, hw, le_refl _, by omega⟩
  | succ k ih =>
    intro steps c hlen hw
    by_cases hshort : steps.length ≤ G.vertices.length - 1
    · exact ⟨steps, hw, le_refl _, hshort⟩
    · have hVpos : 0 < G.vertices.length := List.length_pos_of_mem hstart
      have hlong : G.vertices.length ≤ steps.length := by omega
      have htrsub : ∀ x ∈ start :: steps.map Prod.fst, x ∈ G.vertices := by
        intro x hx
        rcases List.mem_cons.mp hx with rfl | hx'
        · exact hstart
        · exact walk_trace_mem hclosed hw hstart x hx'
      have htrnodup : ¬ (start :: steps.map Prod.fst).Nodup := by
        intro hnd
        have hsp := List.Subperm.length_le (List.subperm_of_subset hnd htrsub)
        simp only [List.length_cons, List.length_map] at hsp
        omega
      obtain ⟨i, j, hij, hjlt, hgd⟩ := dup_indices_of_not_nodup htrnodup
      have hjle : j ≤ steps.length := by
        simp only [List.length_cons, List.length_map] at hjlt
        omega
      obtain ⟨bj, hbjeq, hbj1, hbj2⟩ := walk_split hw j hjle
      have htkj : (steps.take j).length = j := by
        rw [List.length_take]
        omega
      obtain ⟨bi, hbieq, hbi1, hbi2⟩ := walk_split hbj1 i (by omega)
      have hbieq2 : bi = (start :: steps.map Prod.fst).getD i "" := by
        rw [hbieq, List.map_take, ← List.take_succ_cons]
        have hilen : i < ((start :: steps.map Prod.fst).take (j + 1)).length := by
          rw [List.length_take]
          simp only [List.length_cons, List.length_map]
          omega
        rw [List.getD_eq_getElem _ "" hilen, List.getElem_take]
        rw [← List.getD_eq_getElem (start :: steps.map Prod.fst) ""
          (by simp only [List.length_cons, List.length_map]; omega)]
      have hbb : bi = bj := by
        rw [hbieq2, hgd, hbjeq]
      rw [hbb] at hbi1 hbi2
      have hClen : ((steps.take j).drop i).length = j - i := by
        rw [List.length_drop, htkj]
      have hCne : (steps.take j).drop i ≠ [] := by
        intro hnil
        have := congrArg List.length hnil
        rw [hClen] at this
        simp only [List.length_nil] at this
        omega
      have hreach : Reaches G start bj := ⟨(steps.take j).take i, hbi1⟩
      have hCnn : 0 ≤ walkWeight ((steps.take j).drop i) := by
        by_contra hneg
        exact hno ⟨bj, (steps.take j).drop i, hreach, hCne, hbi2, by omega⟩
      have hnew : IsWalk G start ((steps.take j).take i ++ steps.drop j) c :=
        walk_append hbi1 hbj2
      have hw1 : walkWeight steps =
          walkWeight (steps.take j) + walkWeight (steps.drop j) := by
        rw [← walkWeight_append, List.take_append_drop]
      have hw2 : walkWeight (steps.take j) =
          walkWeight ((steps.take j).take i) + walkWeight ((steps.take j).drop i) := by
        rw [← walkWeight_append, List.take_append_drop]
      have hitk : ((steps.take j).take i).length = i := by
        rw [List.length_take, htkj]
        have : min i j = i := Nat.min_eq_left (Nat.le_of_lt hij)
        exact this
      have hlnew : ((steps.take j).take i ++ steps.drop j).length ≤ k := by
        rw [List.length_append, hitk, List.length_drop]
        omega
      obtain ⟨steps2, hw', hwle', hlen'⟩ := ih _ c hlnew hnew
      refine ⟨steps2, hw', ?_, hlen'⟩
      have hwnew : walkWeight ((steps.take j).take i ++ steps.drop j) =
          walkWeight ((steps.take j).take i) + walkWeight (steps.drop j) :=
        walkWeight_append _ _
      omega

theorem bf_fin_along {G : GraphI} {st : BFState}
    (hclosed : ∀ v ∈ G.vertices, ∀ p ∈ G.neighbors v, p.1 ∈ G.vertices)
    (hstable : ∀ u ∈ G.vertices, ∀ x, st.dist u = some x →
      ∀ q ∈ G.neighbors u, ¬ dLt (some (x + q.2)) (st.dist q.1)) :
    ∀ {a : String} {steps : List (String × Int)} {c : String},
    IsWalk G a steps c → a ∈ G.vertices → ∀ x, st.dist a = some x →
    ∃ y, st.dist c = some y ∧ y ≤ x + walkWeight steps := by
  intro a steps c hw
  induction hw with
  | nil a =>
    intro _ x hx
    refine ⟨x, hx, ?_⟩
    rw [walkWeight_nil]
    omega
  | @cons a b c w steps hm hw ih =>
    intro ha x hx
    have hnl := hstable a ha x hx (b, w) hm
    obtain ⟨xb, hxb, hxble⟩ := dLe_some (not_dLt_dLe hnl)
    have hbV := hclosed a ha (b, w) hm
    obtain ⟨y, hy, hyle⟩ := ih hbV xb hxb
    refine ⟨y, hy, ?_⟩
    rw [walkWeight_cons]
    have h2 : ((b, w) : String × Int).2 = w := rfl
    omega

/-- The returned negative-cycle flag is `true` exactly when a negative-weight
cycle lies on a vertex reachable from `start`. -/
theorem bellman_ford_flag_iff (G : GraphI) (start : String)
    (hclosed : ∀ v ∈ G.vertices, ∀ p ∈ G.neighbors v, p.1 ∈ G.vertices)
    (hout : ¬start ∈ G.vertices → G.neighbors start = []) :
    (bellman_ford G start).2.2 = true ↔ HasNegCycleFrom G start := by
  by_cases hstart : start ∈ G.vertices
  · have hflag : (bellman_ford G start).2.2 =
        bfCheck G (bfLoop G (G.vertices.length - 1)
          ⟨fun v => if v = start then some 0 else none, fun _ => none, false⟩) := by
      rw [bellman_ford, if_pos hstart]
    have hinit_ub : ∀ v steps, IsWalk G start steps v → steps.length ≤ 0 →
        dLe ((⟨fun v => if v = start then some 0 else none,
            fun _ => none, false⟩ : BFState).dist v) (some (walkWeight steps)) := by
      intro v steps hwk hlen
      have hnil : steps = [] := List.eq_nil_of_length_eq_zero (by omega)
      subst hnil
      have hv := walk_nil_inv hwk
      rw [← hv]
      show dLe (if start = start then some (0 : Int) else none) (some (walkWeight []))
      rw [if_pos rfl, walkWeight_nil]
      exact dLe_refl _
    have hinit_inv : ∀ v x,
        (⟨fun v => if v = start then some 0 else none,
          fun _ => none, false⟩ : BFState).dist v = some x →
        ∃ steps, IsWalk G start steps v ∧ walkWeight steps = x := by
      intro v x hvx
      have hvx2 : (if v = start then some (0 : Int) else none) = some x := hvx
      by_cases hv : v = start
      · rw [if_pos hv] at hvx2
        have hx : x = 0 := (Option.some.inj hvx2).symm
        rw [hv]
        refine ⟨[], IsWalk.nil start, ?_⟩
        rw [walkWeight_nil]
        omega
      · rw [if_neg hv] at hvx2
        cases hvx2
    rw [hflag]
    constructor
    · intro hcheck
      by_contra hno
      obtain ⟨u, hu, x, hdx, q, hq, hlt⟩ := bfCheck_eq_true_elim hcheck
      have hinv := bfLoop_walkInv (G.vertices.length - 1)
        ⟨fun v => if v = start then some 0 else none, fun _ => none, false⟩ hinit_inv
      obtain ⟨Wu, hWu, hWuw⟩ := hinv u x hdx
      have hWq : IsWalk G start (Wu ++ [(q.1, q.2)]) q.1 := walk_snoc hWu hq
      have hWw : walkWeight (Wu ++ [(q.1, q.2)]) = x + q.2 := by
        rw [walkWeight_append, hWuw, walkWeight_single]
      obtain ⟨W2, hW2, hW2le, hW2len⟩ := walk_shorten hclosed hstart hno _ _ hWq
      rcases bfLoop_ub hstart hclosed (G.vertices.length - 1)
          ⟨fun v => if v = start then some 0 else none, fun _ => none, false⟩
          0 hinit_ub with hub | hfalse
      · obtain ⟨y, hy, hyle⟩ := dLe_some (hub q.1 W2 hW2 (by omega))
        rw [hy] at hlt
        have hxy : x + q.2 < y := hlt
        omega
      · rw [hfalse] at hcheck
        exact Bool.false_ne_true hcheck
    · intro hcyc
      cases hch : bfCheck G (bfLoop G (G.vertices.length - 1)
          ⟨fun v => if v = start then some 0 else none, fun _ => none, false⟩) with
      | true => rfl
      | false =>
        exfalso
        obtain ⟨v, C, hvreach, hCne, hCyc, hCneg⟩ := hcyc
        obtain ⟨W0, hW0⟩ := hvreach
        have hstable := bfCheck_eq_false_elim hch
        have hmono := bfLoop_dist_dLe G (G.vertices.length - 1)
          ⟨fun v => if v = start then some 0 else none, fun _ => none, false⟩ start
        have h0 : (⟨fun v => if v = start then some 0 else none,
            fun _ => none, false⟩ : BFState).dist start = some 0 := by
          show (if start = start then some (0 : Int) else none) = some 0
          rw [if_pos rfl]
        rw [h0] at hmono
        obtain ⟨d, hd, _⟩ := dLe_some hmono
        obtain ⟨y, hy, _⟩ := bf_fin_along hclosed hstable hW0 hstart d hd
        have hvV : v ∈ G.vertices :=
          reaches_mem_of_closed G G.vertices hclosed hstart ⟨W0, hW0⟩
        obtain ⟨y2, hy2, hy2le⟩ := bf_fin_along hclosed hstable hCyc hvV y hy
        rw [hy] at hy2
        have hyy : y = y2 := Option.some.inj hy2
        omega
  · have hflag : (bellman_ford G start).2.2 = false := by
      rw [bellman_ford, if_neg hstart]
    refine iff_of_false (by rw [hflag]; exact Bool.false_ne_true) ?_
    rintro ⟨v, C, ⟨W0, hW0⟩, hCne, hCyc, hCneg⟩
    cases hW0 with
    | nil =>
      cases hCyc with
      | nil => exact hCne rfl
      | cons hm _ =>
        rw [hout hstart] at hm
        exact absurd hm (List.not_mem_nil _)
    | cons hm _ =>
      rw [hout hstart] at hm
      exact absurd hm (List.not_mem_nil _)

/-- C5: `bellman_ford(graph, start)` returns `has_negative_cycle == true`
exactly when a negative-weight cycle is reachable from `start`; in
particular, whenever the graph is a directed 3-vertex cycle whose edge
weights sum to a negative number, `bellman_ford` started at any vertex of
the cycle returns `has_negative_cycle == true`.  Stated over the shared read
interface under the representation invariants: neighbors of stored vertices
stay inside the vertex list, and an absent start vertex has no stored
neighbors. -/
theorem bellman_ford_negative_cycle (G : GraphI) (start : String)
    (hclosed : ∀ v ∈ G.vertices, ∀ p ∈ G.neighbors v, p.1 ∈ G.vertices)
    (hout : ¬start ∈ G.vertices → G.neighbors start = []) :
    ((bellman_ford G start).2.2 = true ↔ HasNegCycleFrom G start) ∧
    (∀ a b c : String, ∀ w1 w2 w3 : Int, G.vertices = [a, b, c] →
      G.neighbors a = [(b, w1)] → G.neighbors b = [(c, w2)] →
      G.neighbors c = [(a, w3)] → w1 + w2 + w3 < 0 → start ∈ G.vertices →
      (bellman_ford G start).2.2 = true) := by
  have hiff := bellman_ford_flag_iff G start hclosed hout
  refine ⟨hiff, ?_⟩
  intro a b c w1 w2 w3 hV hna hnb hnc hsum hsmem
  rw [hiff]
  rw [hV] at hsmem
  have hs3 : start = a ∨ start = b ∨ start = c := by simpa using hsmem
  rcases hs3 with rfl | rfl | rfl
  · refine ⟨start, [(b, w1), (c, w2), (start, w3)],
      ⟨[], IsWalk.nil start⟩, by simp, ?_, ?_⟩
    · exact IsWalk.cons (by rw [hna]; exact List.mem_singleton.mpr rfl)
        (IsWalk.cons (by rw [hnb]; exact List.mem_singleton.mpr rfl)
          (IsWalk.cons (by rw [hnc]; exact List.mem_singleton.mpr rfl)
            (IsWalk.nil start)))
    · show walkWeight [(b, w1), (c, w2), (start, w3)] < 0
      simp only [walkWeight, List.map_cons, List.map_nil, List.sum_cons,
        List.sum_nil]
      omega
  · refine ⟨start, [(c, w2), (a, w3), (start, w1)],
      ⟨[], IsWalk.nil start⟩, by simp, ?_, ?_⟩
    · exact IsWalk.cons (by rw [hnb]; exact List.mem_singleton.mpr rfl)
        (IsWalk.cons (by rw [hnc]; exact List.mem_singleton.mpr rfl)
          (IsWalk.cons (by rw [hna]; exact List.mem_singleton.mpr rfl)
            (IsWalk.nil start)))
    · show walkWeight [(c, w2), (a, w3), (start, w1)] < 0
      simp only [walkWeight, List.map_cons, List.map_nil, List.sum_cons,
        List.sum_nil]
      omega
  · refine ⟨start, [(a, w3), (b, w1), (start, w2)],
      ⟨[], IsWalk.nil start⟩, by simp, ?_, ?_⟩
    · exact IsWalk.cons (by rw [hnc]; exact List.mem_singleton.mpr rfl)
        (IsWalk.cons (by rw [hna]; exact List.mem_singleton.mpr rfl)
          (IsWalk.cons (by rw [hnb]; exact List.mem_singleton.mpr rfl)
            (IsWalk.nil start)))
    · show walkWeight [(a, w3), (b, w1), (start, w2)] < 0
      simp only [walkWeight, List.map_cons, List.map_nil, List.sum_cons,
        List.sum_nil]
      omega

/-- Witness for C5: both hypotheses hold for the adjacency-list negative
3-cycle demo graph and the theorem applies to its start vertex `A`. -/
theorem bellman_ford_negative_cycle_witness :
    (∀ v ∈ bellmanNegCycleDemo.toI.vertices,
      ∀ p ∈ bellmanNegCycleDemo.toI.neighbors v,
        p.1 ∈ bellmanNegCycleDemo.toI.vertices) ∧
    (¬"A" ∈ bellmanNegCycleDemo.toI.vertices →
      bellmanNegCycleDemo.toI.neighbors "A" = []) ∧
    (((bellman_ford bellmanNegCycleDemo.toI "A").2.2 = true ↔
        HasNegCycleFrom bellmanNegCycleDemo.toI "A") ∧
      (∀ a b c : String, ∀ w1 w2 w3 : Int,
        bellmanNegCycleDemo.toI.vertices = [a, b, c] →
        bellmanNegCycleDemo.toI.neighbors a = [(b, w1)] →
        bellmanNegCycleDemo.toI.neighbors b = [(c, w2)] →
        bellmanNegCycleDemo.toI.neighbors c = [(a, w3)] →
        w1 + w2 + w3 < 0 → "A" ∈ bellmanNegCycleDemo.toI.vertices →
        (bellman_ford bellmanNegCycleDemo.toI "A").2.2 = true)) :=
  ⟨by decide, by decide,
    bellman_ford_negative_cycle bellmanNegCycleDemo.toI "A" (by decide) (by decide)⟩

end ShortestPath

end CSC506
